import Mathlib

/-!
Verification of the labrador-ldpc `codes` module (src/codes/mod.rs).

This file embeds, as executable Lean definitions, the data model and the
matrix-expansion operations of the module: the code registry (parameter
tuples and derived buffer lengths), the dense parity-check expanders for
the TC and TM code families, the sparse check-side builders, the sparse
variable-side (transposition) builder, and the CRC-32 routine used by the
module's regression tests.

Buffers of 32-bit words are modelled as total functions from word index to
word value (all values stay below 2^32 because every write ORs or XORs a
single bit 2^s with s < 32 into a word); at the public API boundary
buffers are Lean lists and the length asserts of the source become an
Option: `none` models the Rust panic, which in the source always fires
before any output write.

The repository declares two constant submodules, `compact_generators` and
`compact_parity_checks`, whose source files are not part of src/.  Their
contents (the prototype tables, the theta and phi tables and the flag
constants) are therefore modelled from the spec: the tables appear as
parameters gathered in a `Tables` structure, and the flag constants are
two distinct bits above the 6-bit rotation field, as section 3 of the spec
describes.  Every theorem which depends on the table values is stated for
all tables satisfying explicit, spec-derived well-formedness hypotheses.
-/

/-- The nine supported LDPC codes, mirroring `enum LDPCCode` of the source. -/
inductive LDPCCode
  | TC128 | TC256 | TC512
  | TM1280 | TM1536 | TM2048
  | TM5120 | TM6144 | TM8192
deriving DecidableEq

/-- Parameter tuple for a code, mirroring `struct CodeParams` of the source. -/
structure CodeParams where
  n : Nat
  k : Nat
  punctured_bits : Nat
  submatrix_size : Nat
  circulant_size : Nat
  paritycheck_sum : Nat
  generator_len : Nat
  paritycheck_len : Nat
  sparse_paritycheck_ci_len : Nat
  sparse_paritycheck_cs_len : Nat
  sparse_paritycheck_vi_len : Nat
  sparse_paritycheck_vs_len : Nat
  decode_bf_working_len : Nat
  decode_mp_working_len : Nat
  output_len : Nat
deriving DecidableEq

/-- Mirrors `TC128_PARAMS`. -/
def TC128_PARAMS : CodeParams :=
  { n := 128, k := 64, punctured_bits := 0, submatrix_size := 128/8,
    circulant_size := 128/8, paritycheck_sum := 512,
    generator_len := 64 * (128 - 64)/32,
    paritycheck_len := (128 + 0) * (128 - 64 + 0)/32,
    sparse_paritycheck_ci_len := 512,
    sparse_paritycheck_cs_len := 128 - 64 + 0 + 1,
    sparse_paritycheck_vi_len := 512,
    sparse_paritycheck_vs_len := 128 + 0 + 1,
    decode_bf_working_len := 128 + 0,
    decode_mp_working_len := 2 * 512,
    output_len := 128/8 }

/-- Mirrors `TC256_PARAMS`. -/
def TC256_PARAMS : CodeParams :=
  { n := 256, k := 128, punctured_bits := 0, submatrix_size := 256/8,
    circulant_size := 256/8, paritycheck_sum := 1024,
    generator_len := 128 * (256 - 128)/32,
    paritycheck_len := (256 + 0) * (256 - 128 + 0)/32,
    sparse_paritycheck_ci_len := 1024,
    sparse_paritycheck_cs_len := 256 - 128 + 0 + 1,
    sparse_paritycheck_vi_len := 1024,
    sparse_paritycheck_vs_len := 256 + 0 + 1,
    decode_bf_working_len := 256 + 0,
    decode_mp_working_len := 2 * 1024,
    output_len := 256/8 }

/-- Mirrors `TC512_PARAMS`. -/
def TC512_PARAMS : CodeParams :=
  { n := 512, k := 256, punctured_bits := 0, submatrix_size := 512/8,
    circulant_size := 512/8, paritycheck_sum := 2048,
    generator_len := 256 * (512 - 256)/32,
    paritycheck_len := (512 + 0) * (512 - 256 + 0)/32,
    sparse_paritycheck_ci_len := 2048,
    sparse_paritycheck_cs_len := 512 - 256 + 0 + 1,
    sparse_paritycheck_vi_len := 2048,
    sparse_paritycheck_vs_len := 512 + 0 + 1,
    decode_bf_working_len := 512 + 0,
    decode_mp_working_len := 2 * 2048,
    output_len := 512/8 }

/-- Mirrors `TM1280_PARAMS`. -/
def TM1280_PARAMS : CodeParams :=
  { n := 1280, k := 1024, punctured_bits := 128, submatrix_size := 128,
    circulant_size := 128/4, paritycheck_sum := 4992,
    generator_len := 1024 * (1280 - 1024)/32,
    paritycheck_len := (1280 + 128) * (1280 - 1024 + 128)/32,
    sparse_paritycheck_ci_len := 4992,
    sparse_paritycheck_cs_len := 1280 - 1024 + 128 + 1,
    sparse_paritycheck_vi_len := 4992,
    sparse_paritycheck_vs_len := 1280 + 128 + 1,
    decode_bf_working_len := 1280 + 128,
    decode_mp_working_len := 2 * 4992,
    output_len := (1280 + 128)/8 }

/-- Mirrors `TM1536_PARAMS`. -/
def TM1536_PARAMS : CodeParams :=
  { n := 1536, k := 1024, punctured_bits := 256, submatrix_size := 256,
    circulant_size := 256/4, paritycheck_sum := 5888,
    generator_len := 1024 * (1536 - 1024)/32,
    paritycheck_len := (1536 + 256) * (1536 - 1024 + 256)/32,
    sparse_paritycheck_ci_len := 5888,
    sparse_paritycheck_cs_len := 1536 - 1024 + 256 + 1,
    sparse_paritycheck_vi_len := 5888,
    sparse_paritycheck_vs_len := 1536 + 256 + 1,
    decode_bf_working_len := 1536 + 256,
    decode_mp_working_len := 2 * 5888,
    output_len := (1536 + 256)/8 }

/-- Mirrors `TM2048_PARAMS`. -/
def TM2048_PARAMS : CodeParams :=
  { n := 2048, k := 1024, punctured_bits := 512, submatrix_size := 512,
    circulant_size := 512/4, paritycheck_sum := 7680,
    generator_len := 1024 * (2048 - 1024)/32,
    paritycheck_len := (2048 + 512) * (2048 - 1024 + 512)/32,
    sparse_paritycheck_ci_len := 7680,
    sparse_paritycheck_cs_len := 2048 - 1024 + 512 + 1,
    sparse_paritycheck_vi_len := 7680,
    sparse_paritycheck_vs_len := 2048 + 512 + 1,
    decode_bf_working_len := 2048 + 512,
    decode_mp_working_len := 2 * 7680,
    output_len := (2048 + 512)/8 }

/-- Mirrors `TM5120_PARAMS`. -/
def TM5120_PARAMS : CodeParams :=
  { n := 5120, k := 4096, punctured_bits := 512, submatrix_size := 512,
    circulant_size := 512/4, paritycheck_sum := 19968,
    generator_len := 4096 * (5120 - 4096)/32,
    paritycheck_len := (5120 + 512) * (5120 - 4096 + 512)/32,
    sparse_paritycheck_ci_len := 19968,
    sparse_paritycheck_cs_len := 5120 - 4096 + 512 + 1,
    sparse_paritycheck_vi_len := 19968,
    sparse_paritycheck_vs_len := 5120 + 512 + 1,
    decode_bf_working_len := 5120 + 512,
    decode_mp_working_len := 2 * 19968,
    output_len := (5120 + 512)/8 }

/-- Mirrors `TM6144_PARAMS`. -/
def TM6144_PARAMS : CodeParams :=
  { n := 6144, k := 4096, punctured_bits := 1024, submatrix_size := 1024,
    circulant_size := 1024/4, paritycheck_sum := 23552,
    generator_len := 4096 * (6144 - 4096)/32,
    paritycheck_len := (6144 + 1024) * (6144 - 4096 + 1024)/32,
    sparse_paritycheck_ci_len := 23552,
    sparse_paritycheck_cs_len := 6144 - 4096 + 1024 + 1,
    sparse_paritycheck_vi_len := 23552,
    sparse_paritycheck_vs_len := 6144 + 1024 + 1,
    decode_bf_working_len := 6144 + 1024,
    decode_mp_working_len := 2 * 23552,
    output_len := (6144 + 1024)/8 }

/-- Mirrors `TM8192_PARAMS`. -/
def TM8192_PARAMS : CodeParams :=
  { n := 8192, k := 4096, punctured_bits := 2048, submatrix_size := 2048,
    circulant_size := 2048/4, paritycheck_sum := 30720,
    generator_len := 4096 * (8192 - 4096)/32,
    paritycheck_len := (8192 + 2048) * (8192 - 4096 + 2048)/32,
    sparse_paritycheck_ci_len := 30720,
    sparse_paritycheck_cs_len := 8192 - 4096 + 2048 + 1,
    sparse_paritycheck_vi_len := 30720,
    sparse_paritycheck_vs_len := 8192 + 2048 + 1,
    decode_bf_working_len := 8192 + 2048,
    decode_mp_working_len := 2 * 30720,
    output_len := (8192 + 2048)/8 }

/-- Mirrors `LDPCCode::params`. -/
def LDPCCode.params : LDPCCode → CodeParams
  | .TC128 => TC128_PARAMS
  | .TC256 => TC256_PARAMS
  | .TC512 => TC512_PARAMS
  | .TM1280 => TM1280_PARAMS
  | .TM1536 => TM1536_PARAMS
  | .TM2048 => TM2048_PARAMS
  | .TM5120 => TM5120_PARAMS
  | .TM6144 => TM6144_PARAMS
  | .TM8192 => TM8192_PARAMS

/-- Mirrors `LDPCCode::n`. -/
def LDPCCode.n (c : LDPCCode) : Nat := c.params.n

/-- Mirrors `LDPCCode::k`. -/
def LDPCCode.k (c : LDPCCode) : Nat := c.params.k

/-- Mirrors `LDPCCode::punctured_bits`. -/
def LDPCCode.punctured_bits (c : LDPCCode) : Nat := c.params.punctured_bits

/-- Mirrors `LDPCCode::submatrix_size`. -/
def LDPCCode.submatrix_size (c : LDPCCode) : Nat := c.params.submatrix_size

/-- Mirrors `LDPCCode::circulant_size`. -/
def LDPCCode.circulant_size (c : LDPCCode) : Nat := c.params.circulant_size

/-- Mirrors `LDPCCode::paritycheck_sum` (a u32 in the source, a Nat here). -/
def LDPCCode.paritycheck_sum (c : LDPCCode) : Nat := c.params.paritycheck_sum

/-- Mirrors `LDPCCode::generator_len`: k*(n-k)/32. -/
def LDPCCode.generator_len (c : LDPCCode) : Nat := c.k * (c.n - c.k) / 32

/-- Mirrors `LDPCCode::paritycheck_len`: (n+p)*(n-k+p)/32. -/
def LDPCCode.paritycheck_len (c : LDPCCode) : Nat :=
  (c.n + c.punctured_bits) * (c.n - c.k + c.punctured_bits) / 32

/-- Mirrors `LDPCCode::sparse_paritycheck_ci_len`: paritycheck_sum. -/
def LDPCCode.sparse_paritycheck_ci_len (c : LDPCCode) : Nat := c.paritycheck_sum

/-- Mirrors `LDPCCode::sparse_paritycheck_cs_len`: n-k+p+1. -/
def LDPCCode.sparse_paritycheck_cs_len (c : LDPCCode) : Nat :=
  c.n - c.k + c.punctured_bits + 1

/-- Mirrors `LDPCCode::sparse_paritycheck_vi_len`: paritycheck_sum. -/
def LDPCCode.sparse_paritycheck_vi_len (c : LDPCCode) : Nat := c.paritycheck_sum

/-- Mirrors `LDPCCode::sparse_paritycheck_vs_len`: n+p+1. -/
def LDPCCode.sparse_paritycheck_vs_len (c : LDPCCode) : Nat :=
  c.n + c.punctured_bits + 1

/-- True exactly on the three TC codes (the first arm of the source's family
matches). -/
def LDPCCode.isTC : LDPCCode → Bool
  | .TC128 | .TC256 | .TC512 => true
  | _ => false

/-! ## CRC-32, embedded from the test module's `crc32_u32` / `crc32_u16` -/

/-- One iteration of the inner loop of the tests' CRC-32 routines:
mask is all-ones when the low bit of crc is set, and the crc is shifted
right once and conditionally XORed with the reflected polynomial. -/
def crc32Round (crc : Nat) : Nat :=
  (crc >>> 1) ^^^ (0xEDB88320 &&& (if crc &&& 1 = 0 then 0 else 0xFFFFFFFF))

/-- Mirrors the tests' `crc32_u32`: fold each 32-bit word into the crc and
run 32 rounds; the final bitwise NOT on a u32 is XOR with 0xFFFFFFFF. -/
def crc32_u32 (data : List Nat) : Nat :=
  (data.foldl (fun crc x =>
    (List.range 32).foldl (fun crc _ => crc32Round crc) (crc ^^^ x)) 0xFFFFFFFF)
  ^^^ 0xFFFFFFFF

/-- Mirrors the tests' `crc32_u16`: same but 16 rounds per halfword. -/
def crc32_u16 (data : List Nat) : Nat :=
  (data.foldl (fun crc x =>
    (List.range 16).foldl (fun crc _ => crc32Round crc) (crc ^^^ x)) 0xFFFFFFFF)
  ^^^ 0xFFFFFFFF

/-! ## The constants module, modelled from the spec

The source file `codes/compact_parity_checks.rs` is not part of src/; the
spec (section 3) describes its cell encoding: each prototype cell is one
byte whose low 6 bits carry the rotation amount or the 1-based permutation
selector, and whose remaining high bits carry the two flags HI and HP. -/

/-- Modelled from the spec: flag bit HI of a prototype cell (an identity
sub-matrix is present).  The constants module holding the concrete value is
missing from src/; any bit above the 6-bit rotation field fits the spec. -/
def HI : Nat := 0x40

/-- Modelled from the spec: flag bit HP of a prototype cell (a
rotated-identity or permutation sub-matrix is present). -/
def HP : Nat := 0x80

/-- Modelled from the spec: HS is both flags at once, the XOR of an
identity and a rotated sub-matrix. -/
def HS : Nat := HI ||| HP

/-- Modelled from the spec: the constant tables of the missing
`compact_parity_checks` module, as parameters.  `tc128H` etc are the TC
prototype grids (4 block-rows by 8 block-columns of cell bytes); `tmR12H`,
`tmR23H`, `tmR45H` are the three TM overlays, each three planes of 3 rows
by 5 columns of cell bytes (plane, row, column); `thetaK` is the theta
table indexed by k-1; `phiJK` is the phi table selected by sub-matrix size
M and indexed by row-quadrant and k-1. -/
structure Tables where
  tc128H : Nat → Nat → Nat
  tc256H : Nat → Nat → Nat
  tc512H : Nat → Nat → Nat
  tmR12H : Nat → Nat → Nat → Nat
  tmR23H : Nat → Nat → Nat → Nat
  tmR45H : Nat → Nat → Nat → Nat
  thetaK : Nat → Nat
  phiJK : Nat → Nat → Nat → Nat

/-- The TC prototype selected for a code, mirroring the `match` in
`init_paritycheck_tc` and `init_sparse_paritycheck_checks_tc`; the
`unreachable` arm (a TM code) is modelled as the all-zero grid. -/
def tcProtoOf (c : LDPCCode) (T : Tables) : Nat → Nat → Nat :=
  match c with
  | .TC128 => T.tc128H
  | .TC256 => T.tc256H
  | .TC512 => T.tc512H
  | _ => fun _ _ => 0

/-! ## Word buffers -/

/-- OR a value into one word of a function-modelled buffer
(`h[idx] |= val`). -/
def writeOr (h : Nat → Nat) (idx val : Nat) : Nat → Nat :=
  fun t => if t = idx then h idx ||| val else h t

/-- XOR a value into one word of a function-modelled buffer
(`h[idx] ^= val`). -/
def writeXor (h : Nat → Nat) (idx val : Nat) : Nat → Nat :=
  fun t => if t = idx then h idx ^^^ val else h t

/-- Read one bit of a packed row-major bit-matrix with `ncols` columns:
bit (r, c) sits in word r*(ncols/32) + c/32 at shift 31 - c % 32.  This is
the layout stated in section 3 of the spec. -/
def getBitM (h : Nat → Nat) (ncols r c : Nat) : Bool :=
  (h (r * (ncols / 32) + c / 32)).testBit (31 - c % 32)

/-! ## Dense parity-check expanders -/

/-- Mirrors `init_paritycheck_tc`, on a function-modelled buffer.  The
prototype grid is 4 block-rows by 8 block-columns (the dimensions of the
TC prototype arrays); the source's `for (u, row)` / `for (v, subm)`
iteration becomes folds over those ranges. -/
def init_paritycheck_tc (c : LDPCCode) (T : Tables) (h : Nat → Nat) : Nat → Nat :=
  let n := c.n
  let m := c.submatrix_size
  let modm := m - 1
  let prototype := tcProtoOf c T
  (List.range 4).foldl (fun h u =>
    (List.range 8).foldl (fun h v =>
      let subm := prototype u v
      if subm &&& HP = HP ∨ subm &&& HI = HI then
        let rot := subm &&& 0x3F
        (List.range m).foldl (fun h i =>
          (List.range m).foldl (fun h j =>
            let idx := ((u * m + i) * (n / 32)) + (v * m) / 32 + j / 32
            let shift :=
              if m < 32 then 31 - (j % 32) - m * (v % (32 / m))
              else 31 - (j % 32)
            let h1 := if j = (i + rot) &&& modm then writeOr h idx (1 <<< shift) else h
            if subm &&& HS = HS ∧ j = i &&& modm then writeXor h1 idx (1 <<< shift)
            else h1) h) h
      else h) h) h

/-- The permutation column pi(i) as computed inline in
`init_paritycheck_tm_sub`: m/4 * ((theta[k-1] + 4i/m) % 4) +
(phi[4i/m][k-1] + i) % (m/4). -/
def piDense (theta : Nat → Nat) (phiM : Nat → Nat → Nat) (m kk i : Nat) : Nat :=
  m / 4 * ((theta (kk - 1) + 4 * i / m) % 4) + (phiM (4 * i / m) (kk - 1) + i) % (m / 4)

/-- The target column for row `i` of one cell in `init_paritycheck_tm_sub`:
pi(i) for a permutation sub-matrix (flag HP), i itself for an identity. -/
def tmDenseCol (theta : Nat → Nat) (phiM : Nat → Nat → Nat) (m subm i : Nat) : Nat :=
  if subm &&& HP = HP then piDense theta phiM m (subm &&& 0x3F) i else i

/-- Mirrors `init_paritycheck_tm_sub`: add one overlay prototype (three
planes of 3 rows by `pwidth` columns) into `h`, starting at column `col0`
of a matrix with `hcols` columns, XORing every generated bit. -/
def init_paritycheck_tm_sub (c : LDPCCode) (T : Tables) (h : Nat → Nat)
    (col0 pwidth hcols : Nat) (prototype : Nat → Nat → Nat → Nat) : Nat → Nat :=
  let m := c.submatrix_size
  let phiM := T.phiJK m
  let theta := T.thetaK
  (List.range 3).foldl (fun h pm =>
    (List.range 3).foldl (fun h v =>
      (List.range pwidth).foldl (fun h w =>
        let subm := prototype pm v w
        if subm &&& HP = HP ∨ subm &&& HI = HI then
          (List.range m).foldl (fun h i =>
            let j := tmDenseCol theta phiM m subm i
            let idx := v * m * hcols / 32 + i * hcols / 32 + col0 / 32 + w * m / 32 + j / 32
            let shift := 31 - j % 32
            writeXor h idx (1 <<< shift)) h
        else h) h) h) h

/-- Mirrors `init_paritycheck_tm`: layer the overlays according to the
code's rate; the `unreachable` arm (a TC code) leaves `h` unchanged. -/
def init_paritycheck_tm (c : LDPCCode) (T : Tables) (h : Nat → Nat) : Nat → Nat :=
  let m := c.submatrix_size
  match c with
  | .TM2048 | .TM8192 =>
      init_paritycheck_tm_sub c T h 0 5 (5 * m) T.tmR12H
  | .TM1536 | .TM6144 =>
      let h := init_paritycheck_tm_sub c T h (2 * m) 5 (7 * m) T.tmR12H
      init_paritycheck_tm_sub c T h 0 2 (7 * m) T.tmR23H
  | .TM1280 | .TM5120 =>
      let h := init_paritycheck_tm_sub c T h (6 * m) 5 (11 * m) T.tmR12H
      let h := init_paritycheck_tm_sub c T h (4 * m) 2 (11 * m) T.tmR23H
      init_paritycheck_tm_sub c T h 0 4 (11 * m) T.tmR45H
  | _ => h

/-- Mirrors the public `init_paritycheck`: assert the buffer length (the
`none` result models the panic, which fires before any write), zero-fill
the whole buffer (so the initial contents are irrelevant), then dispatch
to the TC or TM expander; the result is read back as a list of words. -/
def init_paritycheck (c : LDPCCode) (T : Tables) (h : List Nat) : Option (List Nat) :=
  if h.length = c.paritycheck_len then
    let hz : Nat → Nat := fun _ => 0
    let hf :=
      match c with
      | .TC128 | .TC256 | .TC512 => init_paritycheck_tc c T hz
      | .TM1280 | .TM1536 | .TM2048 | .TM5120 | .TM6144 | .TM8192 =>
          init_paritycheck_tm c T hz
    some ((List.range c.paritycheck_len).map hf)
  else none

/-- Mirrors the public `init_generator`.  The body of the source function
contains nothing but the length assert: with a correctly sized buffer it
returns without writing a single word, so the buffer is returned
unchanged. -/
def init_generator (c : LDPCCode) (g : List Nat) : Option (List Nat) :=
  if g.length = c.generator_len then some g else none

/-! ## Sparse builders -/

/-- Mirrors `init_sparse_paritycheck_checks_tc`, building the check-side
adjacency as growing lists: the first component is the sequence of values
written to `ci` (the write cursor `ci_idx` of the source is the current
length), the second is the full `cs` contents including the final entry.
The source's `m.trailing_zeros()` is `Nat.log2 m` here (equal for the
powers of two the assert enforces). -/
def tcChecksStep (c : LDPCCode) (T : Tables) (st : List Nat × List Nat)
    (check : Nat) : List Nat × List Nat :=
  let n := c.n
  let m := c.submatrix_size
  let modm := m - 1
  let divm := Nat.log2 m
  let prototype := tcProtoOf c T
  let ci := st.1
  let cs := st.2 ++ [ci.length]
  let check_block := check >>> divm
  let block_check := check &&& modm
  let ci := (List.range n).foldl (fun ci vrb =>
    let variable_block := vrb >>> divm
    let block_variable := vrb &&& modm
    let subm := prototype check_block variable_block
    let rot := subm &&& 0x3F
    let ci :=
      if subm &&& HI = HI ∧ block_variable = block_check then ci ++ [vrb]
      else ci
    if subm &&& HP = HP ∧ block_variable = (block_check + rot) &&& modm then
      ci ++ [vrb]
    else ci) ci
  (ci, cs)

def init_sparse_paritycheck_checks_tc (c : LDPCCode) (T : Tables) :
    List Nat × List Nat :=
  let st := (List.range (c.n - c.k)).foldl (tcChecksStep c T)
    (([] : List Nat), ([] : List Nat))
  (st.1, st.2 ++ [st.1.length])

/-- The overlay prototype and block offset chosen for one variable block in
`init_sparse_paritycheck_checks_tm` (the `match (n + p) / m` inside the
block loop); the `unreachable` arm returns the rate-1/2 overlay. -/
def tmSelect (T : Tables) (q variable_block : Nat) :
    (Nat → Nat → Nat → Nat) × Nat :=
  match q with
  | 5 => (T.tmR12H, 0)
  | 7 => if variable_block < 2 then (T.tmR23H, 0) else (T.tmR12H, 2)
  | 11 =>
      if variable_block < 4 then (T.tmR45H, 0)
      else if variable_block < 6 then (T.tmR23H, 4)
      else (T.tmR12H, 6)
  | _ => (T.tmR12H, 0)

/-- The permutation row pi(block_check) as computed inline in
`init_sparse_paritycheck_checks_tm`, with the source's shift and mask in
place of division and modulo. -/
def piSparse (theta : Nat → Nat) (phiM : Nat → Nat → Nat)
    (m divm modmd4 kk block_check : Nat) : Nat :=
  m / 4 * ((theta (kk - 1) + (4 * block_check) >>> divm) % 4)
    + ((phiM ((4 * block_check) >>> divm) (kk - 1) + block_check) &&& modmd4)

/-- The parity-bit accumulation over the (up to three) planes of the chosen
overlay in `init_sparse_paritycheck_checks_tm`: a zero cell stops the scan
(the source's `break`), an identity cell flips the bit when the variable
equals the check inside the block, a permutation cell flips it when the
variable equals pi of the check. -/
def tmPbitGo (prototype : Nat → Nat → Nat → Nat) (theta : Nat → Nat)
    (phiM : Nat → Nat → Nat) (m divm modmd4 check block_check vbr block_variable : Nat) :
    List Nat → Nat → Nat
  | [], pbit => pbit
  | pl :: rest, pbit =>
      let subm := prototype pl (check >>> divm) vbr
      if subm = 0 then pbit
      else
        let pbit :=
          if subm &&& HI = HI then
            if block_variable = block_check then pbit ^^^ 1 else pbit
          else if subm &&& HP = HP then
            if block_variable =
                piSparse theta phiM m divm modmd4 (subm &&& 0x3F) block_check then
              pbit ^^^ 1
            else pbit
          else pbit
        tmPbitGo prototype theta phiM m divm modmd4 check block_check vbr block_variable rest pbit

/-- Mirrors `init_sparse_paritycheck_checks_tm`, in the same growing-list
form as the TC builder. -/
def tmChecksStep (c : LDPCCode) (T : Tables) (st : List Nat × List Nat)
    (check : Nat) : List Nat × List Nat :=
  let n := c.n
  let m := c.submatrix_size
  let p := c.punctured_bits
  let modm := m - 1
  let divm := Nat.log2 m
  let modmd4 := m / 4 - 1
  let phiM := T.phiJK m
  let theta := T.thetaK
  let q := (n + p) / m
  let ci := st.1
  let cs := st.2 ++ [ci.length]
  let block_check := check &&& modm
  let ci := (List.range q).foldl (fun ci variable_block =>
    let sel := tmSelect T q variable_block
    (List.range m).foldl (fun ci block_variable =>
      let pbit := tmPbitGo sel.1 theta phiM m divm modmd4 check block_check
        (variable_block - sel.2) block_variable [0, 1, 2] 0
      if pbit = 1 then ci ++ [variable_block * m + block_variable] else ci) ci) ci
  (ci, cs)

def init_sparse_paritycheck_checks_tm (c : LDPCCode) (T : Tables) :
    List Nat × List Nat :=
  let st := (List.range (c.n - c.k + c.punctured_bits)).foldl (tmChecksStep c T)
    (([] : List Nat), ([] : List Nat))
  (st.1, st.2 ++ [st.1.length])

/-- The check-side build dispatched by family, as in
`init_sparse_paritycheck_checks` after its length asserts. -/
def sparseChecks (c : LDPCCode) (T : Tables) : List Nat × List Nat :=
  match c with
  | .TC128 | .TC256 | .TC512 => init_sparse_paritycheck_checks_tc c T
  | .TM1280 | .TM1536 | .TM2048 | .TM5120 | .TM6144 | .TM8192 =>
      init_sparse_paritycheck_checks_tm c T

/-- The slice `ci[a..b]` of a list, for in-bounds ordered indices
(a ≤ b ≤ ci.length); Rust's panic on any other indices is modelled
separately by `sliceP`, which returns this list exactly when the bounds
are valid. -/
def sliceOf (ci : List Nat) (a b : Nat) : List Nat := (ci.take b).drop a

/-- The in-bounds content of one iteration of the variable loop of
`init_sparse_paritycheck_variables`: for each variable, record the cursor
into `vs`, then scan every window `(cs[c], cs[c+1])` of `cs` and append
`c` to `vi` for each occurrence of the variable in `ci[cs[c]..cs[c+1]]`.
The source's slice and write panics are modelled by `varStepP`, which
agrees with this step whenever no panic fires. -/
def varStep (c : LDPCCode) (ci cs : List Nat) (st : List Nat × List Nat)
    (vrb : Nat) : List Nat × List Nat :=
  let n := c.n
  let k := c.k
  let p := c.punctured_bits
  let vi := st.1
  let vs := st.2 ++ [vi.length]
  let vi := (List.range (n - k + p)).foldl (fun vi check =>
    (sliceOf ci (cs.getD check 0) (cs.getD (check + 1) 0)).foldl (fun vi x =>
      if x = vrb then vi ++ [check] else vi) vi) vi
  (vi, vs)

def sparseVariables (c : LDPCCode) (ci cs : List Nat) : List Nat × List Nat :=
  let st := (List.range (c.n + c.punctured_bits)).foldl (varStep c ci cs)
    (([] : List Nat), ([] : List Nat))
  (st.1, st.2 ++ [st.1.length])

/-- Mirrors Rust slice indexing `&ci[a..b]` (mod.rs line 781): the program
panics unless a ≤ b and b ≤ ci.len(); the panic is modelled as `none`. -/
def sliceP (ci : List Nat) (a b : Nat) : Option (List Nat) :=
  if a ≤ b ∧ b ≤ ci.length then some (sliceOf ci a b) else none

/-- One element of the slice scan of `init_sparse_paritycheck_variables`:
when the element equals the variable, `vi[vi_idx] = check` is written,
panicking (none) if the write cursor has reached the end of the `vi`
buffer of length `vilen`. -/
def viEmit (vilen check vrb : Nat) (acc : Option (List Nat × List Nat))
    (x : Nat) : Option (List Nat × List Nat) :=
  match acc with
  | none => none
  | some st =>
      if x = vrb then
        if st.1.length < vilen then some (st.1 ++ [check], st.2) else none
      else some st

/-- One check of the variable loop: index `ci[cs[check]..cs[check+1]]`,
panicking on unordered or out-of-range bounds, then scan the slice. -/
def viCheck (vilen : Nat) (ci cs : List Nat) (vrb : Nat)
    (acc : Option (List Nat × List Nat)) (check : Nat) :
    Option (List Nat × List Nat) :=
  match acc with
  | none => none
  | some st =>
      match sliceP ci (cs.getD check 0) (cs.getD (check + 1) 0) with
      | none => none
      | some sl => sl.foldl (viEmit vilen check vrb) (some st)

/-- One iteration of the variable loop of
`init_sparse_paritycheck_variables`, with Rust's panics kept: record the
cursor into `vs`, then scan every check's slice of `ci`. -/
def varStepP (c : LDPCCode) (vilen : Nat) (ci cs : List Nat)
    (acc : Option (List Nat × List Nat)) (vrb : Nat) :
    Option (List Nat × List Nat) :=
  match acc with
  | none => none
  | some st =>
      (List.range (c.n - c.k + c.punctured_bits)).foldl
        (viCheck vilen ci cs vrb) (some (st.1, st.2 ++ [st.1.length]))

/-- The variable-side transposition loop with Rust's panics modelled as
`none`: the slice `ci[cs[c]..cs[c+1]]` panics on ill-formed bounds, the
write `vi[vi_idx]` panics past the end of `vi`; on success the final
`vs` entry is the number of entries written. -/
def sparseVariablesP (c : LDPCCode) (vilen : Nat) (ci cs : List Nat) :
    Option (List Nat × List Nat) :=
  match (List.range (c.n + c.punctured_bits)).foldl (varStepP c vilen ci cs)
      (some (([] : List Nat), ([] : List Nat))) with
  | none => none
  | some st => some (st.1, st.2 ++ [st.1.length])

/-- Mirrors the public `init_sparse_paritycheck_checks`: both length asserts
must pass (otherwise the panic fires before any write, modelled as `none`),
then the family builder runs and its output replaces the buffers. -/
def init_sparse_paritycheck_checks (c : LDPCCode) (T : Tables)
    (ci cs : List Nat) : Option (List Nat × List Nat) :=
  if ci.length = c.sparse_paritycheck_ci_len ∧
      cs.length = c.sparse_paritycheck_cs_len then
    some (sparseChecks c T)
  else none

/-- Mirrors the public `init_sparse_paritycheck_variables`: all four length
asserts must pass, then the transposition loop runs over the given `ci`,
`cs` with its slice-bound and write-bound panics modelled as `none`. -/
def init_sparse_paritycheck_variables (c : LDPCCode) (ci cs vi vs : List Nat) :
    Option (List Nat × List Nat) :=
  if ci.length = c.sparse_paritycheck_ci_len ∧
      cs.length = c.sparse_paritycheck_cs_len ∧
      vi.length = c.sparse_paritycheck_vi_len ∧
      vs.length = c.sparse_paritycheck_vs_len then
    sparseVariablesP c vi.length ci cs
  else none

/-- Mirrors the public `init_sparse_paritycheck`: all four length asserts
must pass, then the check side is built and the variable side is built
from it. -/
def init_sparse_paritycheck (c : LDPCCode) (T : Tables)
    (ci cs vi vs : List Nat) :
    Option ((List Nat × List Nat) × (List Nat × List Nat)) :=
  if ci.length = c.sparse_paritycheck_ci_len ∧
      cs.length = c.sparse_paritycheck_cs_len ∧
      vi.length = c.sparse_paritycheck_vi_len ∧
      vs.length = c.sparse_paritycheck_vs_len then
    let cks := sparseChecks c T
    some (cks, sparseVariables c cks.1 cks.2)
  else none

/-! ## Helper: chunked CRC evaluation -/

/-- The raw CRC fold of `crc32_u32` before the final bitwise NOT. -/
def crcFold (crc : Nat) (data : List Nat) : Nat :=
  data.foldl (fun crc x =>
    (List.range 32).foldl (fun crc _ => crc32Round crc) (crc ^^^ x)) crc

theorem crc32_u32_eq_fold (data : List Nat) :
    crc32_u32 data = crcFold 0xFFFFFFFF data ^^^ 0xFFFFFFFF := rfl

theorem crcFold_append (c : Nat) (l1 l2 : List Nat) :
    crcFold c (l1 ++ l2) = crcFold (crcFold c l1) l2 := by
  unfold crcFold
  exact List.foldl_append _ _ _ _

set_option maxRecDepth 8000 in
theorem crc32_u32_zeros128 : crc32_u32 (List.replicate 128 0) = 0xB2AA7578 := by
  have hsplit : ∀ cr b : Nat, crcFold cr (List.replicate (8 + b) 0)
      = crcFold (crcFold cr (List.replicate 8 0)) (List.replicate b 0) := by
    intro cr b
    rw [List.replicate_add, crcFold_append]
  have h1 : crcFold 0xFFFFFFFF (List.replicate 8 0) = 0xE6F5AA52 := by decide
  have h2 : crcFold 0xE6F5AA52 (List.replicate 8 0) = 0x8A729CC9 := by decide
  have h3 : crcFold 0x8A729CC9 (List.replicate 8 0) = 0x450B9A51 := by decide
  have h4 : crcFold 0x450B9A51 (List.replicate 8 0) = 0x3D570562 := by decide
  have h5 : crcFold 0x3D570562 (List.replicate 8 0) = 0x55F8AC9C := by decide
  have h6 : crcFold 0x55F8AC9C (List.replicate 8 0) = 0x7400F70D := by decide
  have h7 : crcFold 0x7400F70D (List.replicate 8 0) = 0xC2DEA49C := by decide
  have h8 : crcFold 0xC2DEA49C (List.replicate 8 0) = 0xF2697AA7 := by decide
  have h9 : crcFold 0xF2697AA7 (List.replicate 8 0) = 0x140D95AD := by decide
  have h10 : crcFold 0x140D95AD (List.replicate 8 0) = 0x5238A8B2 := by decide
  have h11 : crcFold 0x5238A8B2 (List.replicate 8 0) = 0x0452B996 := by decide
  have h12 : crcFold 0x0452B996 (List.replicate 8 0) = 0x77452EB8 := by decide
  have h13 : crcFold 0x77452EB8 (List.replicate 8 0) = 0x790AE76D := by decide
  have h14 : crcFold 0x790AE76D (List.replicate 8 0) = 0xB975E9BC := by decide
  have h15 : crcFold 0xB975E9BC (List.replicate 8 0) = 0x04453C72 := by decide
  have h16 : crcFold 0x04453C72 (List.replicate 8 0) = 0x4D558A87 := by decide
  rw [crc32_u32_eq_fold]
  rw [show (128 : Nat) = 8 + 120 from rfl, hsplit, h1]
  rw [show (120 : Nat) = 8 + 112 from rfl, hsplit, h2]
  rw [show (112 : Nat) = 8 + 104 from rfl, hsplit, h3]
  rw [show (104 : Nat) = 8 + 96 from rfl, hsplit, h4]
  rw [show (96 : Nat) = 8 + 88 from rfl, hsplit, h5]
  rw [show (88 : Nat) = 8 + 80 from rfl, hsplit, h6]
  rw [show (80 : Nat) = 8 + 72 from rfl, hsplit, h7]
  rw [show (72 : Nat) = 8 + 64 from rfl, hsplit, h8]
  rw [show (64 : Nat) = 8 + 56 from rfl, hsplit, h9]
  rw [show (56 : Nat) = 8 + 48 from rfl, hsplit, h10]
  rw [show (48 : Nat) = 8 + 40 from rfl, hsplit, h11]
  rw [show (40 : Nat) = 8 + 32 from rfl, hsplit, h12]
  rw [show (32 : Nat) = 8 + 24 from rfl, hsplit, h13]
  rw [show (24 : Nat) = 8 + 16 from rfl, hsplit, h14]
  rw [show (16 : Nat) = 8 + 8 from rfl, hsplit, h15]
  rw [show (8 : Nat) = 8 + 0 from rfl, hsplit, h16]
  decide

/-- An all-zero instance of the modelled constant tables, used to
instantiate universally quantified theorems at a concrete point. -/
def trivTables : Tables :=
  { tc128H := fun _ _ => 0, tc256H := fun _ _ => 0, tc512H := fun _ _ => 0,
    tmR12H := fun _ _ _ => 0, tmR23H := fun _ _ _ => 0, tmR45H := fun _ _ _ => 0,
    thetaK := fun _ => 0, phiJK := fun _ _ _ => 0 }

set_option maxRecDepth 4000 in
/-- Claim C1.  The claim states that `init_generator` fills a buffer of
length `generator_len` with the dense generator and that for TC128 a
pre-zeroed 256-word buffer comes out with CRC-32 0xDC64D486.  The code
contradicts this (and its own `test_generator_matrix` test): the body of
`init_generator` contains only the length assert and writes nothing.
Moreover `generator_len(TC128) = 64*64/32 = 128`, so the claim's 256-word
buffer does not even pass the assert.  This theorem evaluates the code at
the failing input: a 256-word buffer panics the length assert; a correctly
sized 128-word pre-zeroed buffer is returned untouched, still all zero,
and its CRC-32 is 0xB2AA7578, not the 0xDC64D486 the claim and the
repository's own test require. -/
theorem c1_init_generator_writes_nothing :
    LDPCCode.generator_len LDPCCode.TC128 = 128 ∧
    init_generator LDPCCode.TC128 (List.replicate 256 0) = none ∧
    init_generator LDPCCode.TC128 (List.replicate 128 0)
      = some (List.replicate 128 0) ∧
    crc32_u32 (List.replicate 128 0) ≠ 0xDC64D486 := by
  refine ⟨rfl, by decide, by decide, ?_⟩
  rw [crc32_u32_zeros128]
  decide

/-- Claim C9.  Every public init operation checks every supplied buffer
length against the exact expected length before writing anything; a
mismatch triggers the precondition panic (modelled as `none`) with no
output written. -/
theorem c9_wrong_length_panics (c : LDPCCode) (T : Tables)
    (g h ci cs vi vs : List Nat) :
    (g.length ≠ c.generator_len → init_generator c g = none) ∧
    (h.length ≠ c.paritycheck_len → init_paritycheck c T h = none) ∧
    (ci.length ≠ c.sparse_paritycheck_ci_len ∨
      cs.length ≠ c.sparse_paritycheck_cs_len →
      init_sparse_paritycheck_checks c T ci cs = none) ∧
    (ci.length ≠ c.sparse_paritycheck_ci_len ∨
      cs.length ≠ c.sparse_paritycheck_cs_len ∨
      vi.length ≠ c.sparse_paritycheck_vi_len ∨
      vs.length ≠ c.sparse_paritycheck_vs_len →
      init_sparse_paritycheck_variables c ci cs vi vs = none) ∧
    (ci.length ≠ c.sparse_paritycheck_ci_len ∨
      cs.length ≠ c.sparse_paritycheck_cs_len ∨
      vi.length ≠ c.sparse_paritycheck_vi_len ∨
      vs.length ≠ c.sparse_paritycheck_vs_len →
      init_sparse_paritycheck c T ci cs vi vs = none) := by
  refine ⟨?_, ?_, ?_, ?_, ?_⟩
  · intro hg
    unfold init_generator
    exact if_neg hg
  · intro hh
    unfold init_paritycheck
    exact if_neg hh
  · intro hcc
    unfold init_sparse_paritycheck_checks
    rw [if_neg]
    intro hand
    rcases hcc with h1 | h2
    · exact h1 hand.1
    · exact h2 hand.2
  · intro hcc
    unfold init_sparse_paritycheck_variables
    rw [if_neg]
    intro hand
    rcases hcc with h1 | h2 | h3 | h4
    · exact h1 hand.1
    · exact h2 hand.2.1
    · exact h3 hand.2.2.1
    · exact h4 hand.2.2.2
  · intro hcc
    unfold init_sparse_paritycheck
    rw [if_neg]
    intro hand
    rcases hcc with h1 | h2 | h3 | h4
    · exact h1 hand.1
    · exact h2 hand.2.1
    · exact h3 hand.2.2.1
    · exact h4 hand.2.2.2

/-- Witness for claim C9: concrete wrong-length (empty) buffers for TC128
panic every public init operation. -/
theorem c9_wrong_length_panics_witness :
    init_generator LDPCCode.TC128 [] = none ∧
    init_paritycheck LDPCCode.TC128 trivTables [] = none ∧
    init_sparse_paritycheck_checks LDPCCode.TC128 trivTables [] [] = none ∧
    init_sparse_paritycheck_variables LDPCCode.TC128 [] [] [] [] = none ∧
    init_sparse_paritycheck LDPCCode.TC128 trivTables [] [] [] [] = none := by
  have h := c9_wrong_length_panics LDPCCode.TC128 trivTables [] [] [] [] [] []
  exact ⟨h.1 (by decide), h.2.1 (by decide), h.2.2.1 (Or.inl (by decide)),
    h.2.2.2.1 (Or.inl (by decide)), h.2.2.2.2 (Or.inl (by decide))⟩

/-- Claim C10.  `init_paritycheck` zero-fills the supplied buffer before
expanding, so for any two correctly sized buffers with arbitrary initial
contents the outputs are bit-identical. -/
theorem c10_paritycheck_ignores_initial_contents (c : LDPCCode) (T : Tables)
    (h1 h2 : List Nat) (e1 : h1.length = c.paritycheck_len)
    (e2 : h2.length = c.paritycheck_len) :
    init_paritycheck c T h1 = init_paritycheck c T h2 := by
  unfold init_paritycheck
  rw [e1, e2]

set_option maxRecDepth 4000 in
/-- Witness for claim C10: a zero-filled and a garbage-filled TC128 buffer
yield identical output. -/
theorem c10_paritycheck_ignores_initial_contents_witness :
    init_paritycheck LDPCCode.TC128 trivTables (List.replicate 256 0)
      = init_paritycheck LDPCCode.TC128 trivTables (List.replicate 256 7) :=
  c10_paritycheck_ignores_initial_contents LDPCCode.TC128 trivTables
    (List.replicate 256 0) (List.replicate 256 7) (by decide) (by decide)

/-! ## Claim C4: the pi permutation formula -/

/-- The target-column formula as the spec states it:
j = (M/4)*((theta[k-1] + floor(4i/M)) mod 4) + ((phi_M[floor(4i/M)][k-1] + i) mod (M/4)). -/
def specPermCol (theta : Nat → Nat) (phiM : Nat → Nat → Nat) (m kk i : Nat) : Nat :=
  m / 4 * ((theta (kk - 1) + 4 * i / m) % 4) + (phiM (4 * i / m) (kk - 1) + i) % (m / 4)

theorem shiftRight_log2_pow (x e : Nat) : x >>> Nat.log2 (2 ^ e) = x / 2 ^ e := by
  rw [Nat.log2_two_pow, Nat.shiftRight_eq_div_pow]

theorem and_pow_sub_one (x e : Nat) : x &&& (2 ^ e - 1) = x % 2 ^ e :=
  Nat.and_pow_two_sub_one_eq_mod x e

/-- Claim C4.  In the TM parity-check construction, both the dense
expander's column computation and the sparse check-side build's pi
computation produce, for an HP cell with selector k, exactly the column
the spec's theta/phi formula gives, and for an HI cell the dense column is
i itself.  Stated for every sub-matrix size that is a power of two of at
least 4 (all TM codes have M in 128..2048), every theta and phi table, and
every selector and row. -/
theorem c4_pi_formula (theta : Nat → Nat) (phiM : Nat → Nat → Nat)
    (e m kk i : Nat) (hm : m = 2 ^ e) (he : 2 ≤ e) :
    (∀ subm, subm &&& HP = HP →
      tmDenseCol theta phiM m subm i = specPermCol theta phiM m (subm &&& 0x3F) i) ∧
    (∀ subm, ¬subm &&& HP = HP → tmDenseCol theta phiM m subm i = i) ∧
    piSparse theta phiM m (Nat.log2 m) (m / 4 - 1) kk i
      = specPermCol theta phiM m kk i := by
  have hm4 : m / 4 = 2 ^ (e - 2) := by
    rw [hm]
    rw [show (4 : Nat) = 2 ^ 2 from rfl, Nat.pow_div he (by norm_num)]
  refine ⟨?_, ?_, ?_⟩
  · intro subm hp
    unfold tmDenseCol
    rw [if_pos hp]
    rfl
  · intro subm hp
    unfold tmDenseCol
    rw [if_neg hp]
  · unfold piSparse specPermCol
    rw [hm4]
    rw [show m = 2 ^ e from hm, shiftRight_log2_pow, and_pow_sub_one]

/-- Witness for claim C4 at sub-matrix size 128 (as in TM1280), zero
tables, selector 1, row 0, with an HP cell and an empty cell. -/
theorem c4_pi_formula_witness :
    tmDenseCol (fun _ => 0) (fun _ _ => 0) 128 HP 0
      = specPermCol (fun _ => 0) (fun _ _ => 0) 128 (HP &&& 0x3F) 0 ∧
    tmDenseCol (fun _ => 0) (fun _ _ => 0) 128 0 0 = 0 ∧
    piSparse (fun _ => 0) (fun _ _ => 0) 128 (Nat.log2 128) (128 / 4 - 1) 1 0
      = specPermCol (fun _ => 0) (fun _ _ => 0) 128 1 0 := by
  have h := c4_pi_formula (fun _ => 0) (fun _ _ => 0) 7 128 1 0 (by norm_num) (by norm_num)
  exact ⟨h.1 HP (by decide), h.2.1 0 (by decide), h.2.2⟩

/-! ## Claim C6: overlay placement -/

/-- The overlay layering the spec states, per q = (n+p)/M: each entry is
(overlay prototype, start column col0, width in sub-matrices).  q=5: H12
over all five columns; q=7: H12 at column 2M width 5, H23 at 0 width 2;
q=11: H12 at 6M width 5, H23 at 4M width 2, H45 at 0 width 4. -/
def specPlacement (T : Tables) (q m : Nat) :
    List ((Nat → Nat → Nat → Nat) × Nat × Nat) :=
  match q with
  | 5 => [(T.tmR12H, 0, 5)]
  | 7 => [(T.tmR12H, 2 * m, 5), (T.tmR23H, 0, 2)]
  | 11 => [(T.tmR12H, 6 * m, 5), (T.tmR23H, 4 * m, 2), (T.tmR45H, 0, 4)]
  | _ => []


/-- Claim C6.  For every TM code, the dense expander equals the fold of
`init_paritycheck_tm_sub` over the spec's placement list for q = (n+p)/M,
and the sparse check-side build's per-block overlay selection picks, for
every variable block vb < q, exactly the placement entry whose column span
[col0/M, col0/M + width) contains vb, with block offset col0/M. -/
theorem c6_overlay_placement (c : LDPCCode) (T : Tables) (h : Nat → Nat)
    (hTM : c.isTC = false) :
    (init_paritycheck_tm c T h
      = (specPlacement T ((c.n + c.punctured_bits) / c.submatrix_size)
          c.submatrix_size).foldl
          (fun h ov => init_paritycheck_tm_sub c T h ov.2.1 ov.2.2
            ((c.n + c.punctured_bits) / c.submatrix_size * c.submatrix_size) ov.1) h) ∧
    ∀ vb, vb < (c.n + c.punctured_bits) / c.submatrix_size →
      ∃ ov ∈ specPlacement T ((c.n + c.punctured_bits) / c.submatrix_size)
          c.submatrix_size,
        ov.2.1 / c.submatrix_size ≤ vb ∧
        vb < ov.2.1 / c.submatrix_size + ov.2.2 ∧
        tmSelect T ((c.n + c.punctured_bits) / c.submatrix_size) vb
          = (ov.1, ov.2.1 / c.submatrix_size) := by
  cases c
  case TC128 => exact absurd hTM (by decide)
  case TC256 => exact absurd hTM (by decide)
  case TC512 => exact absurd hTM (by decide)
  case TM2048 =>
    refine ⟨rfl, ?_⟩
    intro vb hvb
    rw [show (LDPCCode.TM2048.n + LDPCCode.TM2048.punctured_bits)
        / LDPCCode.TM2048.submatrix_size = 5 from rfl] at hvb ⊢
    rw [show LDPCCode.TM2048.submatrix_size = 512 from rfl]
    refine ⟨(T.tmR12H, 0, 5), by simp [specPlacement], ?_, ?_, ?_⟩
    · show 0 / 512 ≤ vb
      omega
    · show vb < 0 / 512 + 5
      omega
    · show tmSelect T 5 vb = (T.tmR12H, 0 / 512)
      rfl
  case TM8192 =>
    refine ⟨rfl, ?_⟩
    intro vb hvb
    rw [show (LDPCCode.TM8192.n + LDPCCode.TM8192.punctured_bits)
        / LDPCCode.TM8192.submatrix_size = 5 from rfl] at hvb ⊢
    rw [show LDPCCode.TM8192.submatrix_size = 2048 from rfl]
    refine ⟨(T.tmR12H, 0, 5), by simp [specPlacement], ?_, ?_, ?_⟩
    · show 0 / 2048 ≤ vb
      omega
    · show vb < 0 / 2048 + 5
      omega
    · show tmSelect T 5 vb = (T.tmR12H, 0 / 2048)
      rfl
  case TM1536 =>
    refine ⟨rfl, ?_⟩
    intro vb hvb
    rw [show (LDPCCode.TM1536.n + LDPCCode.TM1536.punctured_bits)
        / LDPCCode.TM1536.submatrix_size = 7 from rfl] at hvb ⊢
    rw [show LDPCCode.TM1536.submatrix_size = 256 from rfl]
    by_cases h2 : vb < 2
    · refine ⟨(T.tmR23H, 0, 2), by simp [specPlacement], ?_, ?_, ?_⟩
      · show 0 / 256 ≤ vb
        omega
      · show vb < 0 / 256 + 2
        omega
      · show tmSelect T 7 vb = (T.tmR23H, 0 / 256)
        unfold tmSelect
        rw [if_pos h2]
    · refine ⟨(T.tmR12H, 2 * 256, 5), by simp [specPlacement], ?_, ?_, ?_⟩
      · show 2 * 256 / 256 ≤ vb
        rw [show 2 * 256 / 256 = 2 from rfl]
        omega
      · show vb < 2 * 256 / 256 + 5
        rw [show 2 * 256 / 256 = 2 from rfl]
        omega
      · show tmSelect T 7 vb = (T.tmR12H, 2 * 256 / 256)
        unfold tmSelect
        rw [if_neg h2]
  case TM6144 =>
    refine ⟨rfl, ?_⟩
    intro vb hvb
    rw [show (LDPCCode.TM6144.n + LDPCCode.TM6144.punctured_bits)
        / LDPCCode.TM6144.submatrix_size = 7 from rfl] at hvb ⊢
    rw [show LDPCCode.TM6144.submatrix_size = 1024 from rfl]
    by_cases h2 : vb < 2
    · refine ⟨(T.tmR23H, 0, 2), by simp [specPlacement], ?_, ?_, ?_⟩
      · show 0 / 1024 ≤ vb
        omega
      · show vb < 0 / 1024 + 2
        omega
      · show tmSelect T 7 vb = (T.tmR23H, 0 / 1024)
        unfold tmSelect
        rw [if_pos h2]
    · refine ⟨(T.tmR12H, 2 * 1024, 5), by simp [specPlacement], ?_, ?_, ?_⟩
      · show 2 * 1024 / 1024 ≤ vb
        rw [show 2 * 1024 / 1024 = 2 from rfl]
        omega
      · show vb < 2 * 1024 / 1024 + 5
        rw [show 2 * 1024 / 1024 = 2 from rfl]
        omega
      · show tmSelect T 7 vb = (T.tmR12H, 2 * 1024 / 1024)
        unfold tmSelect
        rw [if_neg h2]
  case TM1280 =>
    refine ⟨rfl, ?_⟩
    intro vb hvb
    rw [show (LDPCCode.TM1280.n + LDPCCode.TM1280.punctured_bits)
        / LDPCCode.TM1280.submatrix_size = 11 from rfl] at hvb ⊢
    rw [show LDPCCode.TM1280.submatrix_size = 128 from rfl]
    by_cases h4 : vb < 4
    · refine ⟨(T.tmR45H, 0, 4), by simp [specPlacement], ?_, ?_, ?_⟩
      · show 0 / 128 ≤ vb
        omega
      · show vb < 0 / 128 + 4
        omega
      · show tmSelect T 11 vb = (T.tmR45H, 0 / 128)
        unfold tmSelect
        rw [if_pos h4]
    · by_cases h6 : vb < 6
      · refine ⟨(T.tmR23H, 4 * 128, 2), by simp [specPlacement], ?_, ?_, ?_⟩
        · show 4 * 128 / 128 ≤ vb
          rw [show 4 * 128 / 128 = 4 from rfl]
          omega
        · show vb < 4 * 128 / 128 + 2
          rw [show 4 * 128 / 128 = 4 from rfl]
          omega
        · show tmSelect T 11 vb = (T.tmR23H, 4 * 128 / 128)
          unfold tmSelect
          rw [if_neg h4, if_pos h6]
      · refine ⟨(T.tmR12H, 6 * 128, 5), by simp [specPlacement], ?_, ?_, ?_⟩
        · show 6 * 128 / 128 ≤ vb
          rw [show 6 * 128 / 128 = 6 from rfl]
          omega
        · show vb < 6 * 128 / 128 + 5
          rw [show 6 * 128 / 128 = 6 from rfl]
          omega
        · show tmSelect T 11 vb = (T.tmR12H, 6 * 128 / 128)
          unfold tmSelect
          rw [if_neg h4, if_neg h6]
  case TM5120 =>
    refine ⟨rfl, ?_⟩
    intro vb hvb
    rw [show (LDPCCode.TM5120.n + LDPCCode.TM5120.punctured_bits)
        / LDPCCode.TM5120.submatrix_size = 11 from rfl] at hvb ⊢
    rw [show LDPCCode.TM5120.submatrix_size = 512 from rfl]
    by_cases h4 : vb < 4
    · refine ⟨(T.tmR45H, 0, 4), by simp [specPlacement], ?_, ?_, ?_⟩
      · show 0 / 512 ≤ vb
        omega
      · show vb < 0 / 512 + 4
        omega
      · show tmSelect T 11 vb = (T.tmR45H, 0 / 512)
        unfold tmSelect
        rw [if_pos h4]
    · by_cases h6 : vb < 6
      · refine ⟨(T.tmR23H, 4 * 512, 2), by simp [specPlacement], ?_, ?_, ?_⟩
        · show 4 * 512 / 512 ≤ vb
          rw [show 4 * 512 / 512 = 4 from rfl]
          omega
        · show vb < 4 * 512 / 512 + 2
          rw [show 4 * 512 / 512 = 4 from rfl]
          omega
        · show tmSelect T 11 vb = (T.tmR23H, 4 * 512 / 512)
          unfold tmSelect
          rw [if_neg h4, if_pos h6]
      · refine ⟨(T.tmR12H, 6 * 512, 5), by simp [specPlacement], ?_, ?_, ?_⟩
        · show 6 * 512 / 512 ≤ vb
          rw [show 6 * 512 / 512 = 6 from rfl]
          omega
        · show vb < 6 * 512 / 512 + 5
          rw [show 6 * 512 / 512 = 6 from rfl]
          omega
        · show tmSelect T 11 vb = (T.tmR12H, 6 * 512 / 512)
          unfold tmSelect
          rw [if_neg h4, if_neg h6]

/-- Witness for claim C6: the TM2048 code, zero tables, zero buffer. -/
theorem c6_overlay_placement_witness :
    init_paritycheck_tm LDPCCode.TM2048 trivTables (fun _ => 0)
      = (specPlacement trivTables 5 512).foldl
          (fun h ov => init_paritycheck_tm_sub LDPCCode.TM2048 trivTables h
            ov.2.1 ov.2.2 (5 * 512) ov.1) (fun _ => 0) := by
  have h := c6_overlay_placement LDPCCode.TM2048 trivTables (fun _ => 0) rfl
  exact h.1

/-! ## Word-write events

The dense expanders perform a sequence of single-bit OR and XOR writes
into the word buffer.  To reason about the final value of each bit we
reify the writes as a list of events and prove a parity law: when events
are grouped so that each group touches one key (word index, bit shift),
only a group head may be an OR, an OR only ever hits a zero bit, and
distinct groups touch distinct keys, the final bit at a key is the initial
bit XORed with the parity of the number of events at that key. -/

structure WEvent where
  isOr : Bool
  idx : Nat
  shift : Nat
deriving DecidableEq

def applyEv (h : Nat → Nat) (e : WEvent) : Nat → Nat :=
  fun t => if t = e.idx then
    (if e.isOr then h e.idx ||| (1 <<< e.shift) else h e.idx ^^^ (1 <<< e.shift))
  else h t

def applyEvs (h : Nat → Nat) (evs : List WEvent) : Nat → Nat :=
  evs.foldl applyEv h

def evKey (e : WEvent) : Nat × Nat := (e.idx, e.shift)

/-- The bit of a word buffer at a (word index, shift) key. -/
def bitAt (h : Nat → Nat) (kk : Nat × Nat) : Bool := (h kk.1).testBit kk.2

def countKey (evs : List WEvent) (kk : Nat × Nat) : Nat :=
  evs.countP (fun e => decide (evKey e = kk))

/-- Odd parity of a natural number, as a Bool. -/
def oddb (x : Nat) : Bool := decide (x % 2 = 1)

theorem oddb_add (a b : Nat) : oddb (a + b) = (oddb a).xor (oddb b) := by
  unfold oddb
  rcases Nat.mod_two_eq_zero_or_one a with ha | ha <;>
    rcases Nat.mod_two_eq_zero_or_one b with hb | hb <;>
      simp [Nat.add_mod, ha, hb]

theorem applyEvs_append (h : Nat → Nat) (l1 l2 : List WEvent) :
    applyEvs h (l1 ++ l2) = applyEvs (applyEvs h l1) l2 :=
  List.foldl_append _ _ _ _

theorem applyEvs_foldl_flatMap {α : Type} (l : List α) (g : α → List WEvent)
    (h : Nat → Nat) :
    l.foldl (fun h x => applyEvs h (g x)) h = applyEvs h (l.flatMap g) := by
  induction l generalizing h with
  | nil => rfl
  | cons x xs ih =>
      simp only [List.foldl_cons, List.flatMap_cons, applyEvs_append]
      exact ih (applyEvs h (g x))

theorem testBit_one_shl (s t : Nat) : (1 <<< s : Nat).testBit t = decide (s = t) := by
  rw [Nat.shiftLeft_eq, one_mul]
  exact Nat.testBit_two_pow

theorem bitAt_applyEv_ne (h : Nat → Nat) (e : WEvent) (kk : Nat × Nat)
    (hne : evKey e ≠ kk) : bitAt (applyEv h e) kk = bitAt h kk := by
  obtain ⟨b, ei, es⟩ := e
  obtain ⟨i, s⟩ := kk
  unfold bitAt applyEv
  simp only
  by_cases hidx : i = ei
  · subst hidx
    have hs : es ≠ s := by
      intro hc
      exact hne (by simp [evKey, hc])
    rw [if_pos rfl]
    cases b
    · rw [if_neg (by simp), Nat.testBit_xor, testBit_one_shl,
        decide_eq_false hs, Bool.xor_false]
    · rw [if_pos rfl, Nat.testBit_or, testBit_one_shl,
        decide_eq_false hs, Bool.or_false]
  · rw [if_neg hidx]

theorem bitAt_applyEv_eq_xor (h : Nat → Nat) (e : WEvent)
    (heOr : e.isOr = false) (kk : Nat × Nat) (hke : evKey e = kk) :
    bitAt (applyEv h e) kk = (bitAt h kk).xor true := by
  obtain ⟨b, ei, es⟩ := e
  obtain ⟨i, s⟩ := kk
  have hi : ei = i := congrArg Prod.fst hke
  have hs : es = s := congrArg Prod.snd hke
  subst hi
  subst hs
  simp only at heOr
  subst heOr
  show (if ei = ei then
      (if (false : Bool) = true then h ei ||| 1 <<< es else h ei ^^^ 1 <<< es)
    else h ei).testBit es = ((h ei).testBit es).xor true
  rw [if_pos rfl, if_neg (by simp), Nat.testBit_xor, testBit_one_shl]
  simp

theorem bitAt_applyEv_eq_or (h : Nat → Nat) (e : WEvent)
    (heOr : e.isOr = true) (kk : Nat × Nat) (hke : evKey e = kk) :
    bitAt (applyEv h e) kk = ((bitAt h kk) || true) := by
  obtain ⟨b, ei, es⟩ := e
  obtain ⟨i, s⟩ := kk
  have hi : ei = i := congrArg Prod.fst hke
  have hs : es = s := congrArg Prod.snd hke
  subst hi
  subst hs
  simp only at heOr
  subst heOr
  show (if ei = ei then
      (if (true : Bool) = true then h ei ||| 1 <<< es else h ei ^^^ 1 <<< es)
    else h ei).testBit es = ((h ei).testBit es || true)
  rw [if_pos rfl, if_pos rfl, Nat.testBit_or, testBit_one_shl]
  simp

theorem bitAt_applyEvs_of_ne (h : Nat → Nat) (evs : List WEvent) (kk : Nat × Nat)
    (hne : ∀ e ∈ evs, evKey e ≠ kk) : bitAt (applyEvs h evs) kk = bitAt h kk := by
  induction evs generalizing h with
  | nil => rfl
  | cons e rest ih =>
      show bitAt (applyEvs (applyEv h e) rest) kk = _
      rw [ih (applyEv h e) (fun e he => hne e (List.mem_cons_of_mem _ he)),
        bitAt_applyEv_ne h e kk (hne e (List.mem_cons_self e rest))]

theorem countKey_eq_zero (evs : List WEvent) (kk : Nat × Nat)
    (hne : ∀ e ∈ evs, evKey e ≠ kk) : countKey evs kk = 0 := by
  unfold countKey
  rw [List.countP_eq_zero]
  intro e he
  simp only [decide_eq_true_eq]
  exact hne e he

theorem countKey_eq_length (evs : List WEvent) (kk : Nat × Nat)
    (hk : ∀ e ∈ evs, evKey e = kk) : countKey evs kk = evs.length := by
  unfold countKey
  rw [List.countP_eq_length]
  intro e he
  simp only [decide_eq_true_eq]
  exact hk e he

theorem countKey_append (l1 l2 : List WEvent) (kk : Nat × Nat) :
    countKey (l1 ++ l2) kk = countKey l1 kk + countKey l2 kk :=
  List.countP_append _ _ _

/-- Parity law for an all-XOR event list whose events all share one key. -/
theorem bitAt_applyEvs_xor_key (evs : List WEvent) (kk : Nat × Nat)
    (hx : ∀ e ∈ evs, e.isOr = false) (hk : ∀ e ∈ evs, evKey e = kk) :
    ∀ h : Nat → Nat,
      bitAt (applyEvs h evs) kk = (bitAt h kk).xor (oddb (countKey evs kk)) := by
  induction evs with
  | nil => intro h; simp [applyEvs, countKey, oddb]
  | cons e rest ih =>
      intro h
      show bitAt (applyEvs (applyEv h e) rest) kk = _
      rw [ih (fun x hx1 => hx x (List.mem_cons_of_mem _ hx1))
          (fun x hx1 => hk x (List.mem_cons_of_mem _ hx1)) (applyEv h e)]
      rw [bitAt_applyEv_eq_xor h e (hx e (List.mem_cons_self e rest)) kk
        (hk e (List.mem_cons_self e rest))]
      have hc : countKey (e :: rest) kk = 1 + countKey rest kk := by
        show countKey ([e] ++ rest) kk = _
        rw [countKey_append,
          countKey_eq_length [e] kk (by simpa using hk e (List.mem_cons_self e rest)),
          List.length_singleton]
      rw [hc, oddb_add]
      cases bitAt h kk <;> cases oddb (countKey rest kk) <;> simp [oddb]

/-- Parity law for one group: all events share one key, only the head may
be an OR, and if an OR is present the initial bit at the key is clear. -/
theorem bitAt_applyEvs_group (g : List WEvent) (k0 : Nat × Nat)
    (hkey : ∀ e ∈ g, evKey e = k0)
    (hshape : ∀ e ∈ g.drop 1, e.isOr = false)
    (h : Nat → Nat)
    (hor : (∃ e ∈ g, e.isOr = true) → bitAt h k0 = false) :
    ∀ kk, bitAt (applyEvs h g) kk = (bitAt h kk).xor (oddb (countKey g kk)) := by
  intro kk
  by_cases hkk : kk = k0
  · subst hkk
    cases g with
    | nil => simp [applyEvs, countKey, oddb]
    | cons e gr =>
        have hgr_x : ∀ x ∈ gr, x.isOr = false := fun x hx => hshape x hx
        have hgr_k : ∀ x ∈ gr, evKey x = kk :=
          fun x hx => hkey x (List.mem_cons_of_mem _ hx)
        cases hb : e.isOr
        · refine bitAt_applyEvs_xor_key (e :: gr) kk ?_ hkey h
          intro x hx
          rcases List.mem_cons.mp hx with h1 | h2
          · rw [h1]; exact hb
          · exact hgr_x x h2
        · have hb0 : bitAt h kk = false := hor ⟨e, List.mem_cons_self e gr, hb⟩
          show bitAt (applyEvs (applyEv h e) gr) kk = _
          rw [bitAt_applyEvs_xor_key gr kk hgr_x hgr_k (applyEv h e),
            bitAt_applyEv_eq_or h e hb kk (hkey e (List.mem_cons_self e gr)), hb0]
          have hc : countKey (e :: gr) kk = 1 + countKey gr kk := by
            show countKey ([e] ++ gr) kk = _
            rw [countKey_append,
              countKey_eq_length [e] kk
                (by simpa using hkey e (List.mem_cons_self e gr)),
              List.length_singleton]
          rw [hc, oddb_add]
          cases oddb (countKey gr kk) <;> simp [oddb]
  · have hne : ∀ e ∈ g, evKey e ≠ kk := by
      intro e he hc
      exact hkk (by rw [← hc, hkey e he])
    rw [bitAt_applyEvs_of_ne h g kk hne, countKey_eq_zero g kk hne]
    simp [oddb]

/-- Parity law for a flat list of groups with pairwise distinct keys. -/
theorem bitAt_applyEvs_groups {α : Type} (l : List α) (f : α → List WEvent)
    (p : α → Nat × Nat)
    (hkey : ∀ x ∈ l, ∀ e ∈ f x, evKey e = p x)
    (hshape : ∀ x ∈ l, ∀ e ∈ (f x).drop 1, e.isOr = false)
    (hdis : l.Pairwise (fun x y => p x ≠ p y)) :
    ∀ h : Nat → Nat,
      (∀ x ∈ l, (∃ e ∈ f x, e.isOr = true) → bitAt h (p x) = false) →
      ∀ kk, bitAt (applyEvs h (l.flatMap f)) kk
        = (bitAt h kk).xor (oddb (countKey (l.flatMap f) kk)) := by
  induction l with
  | nil =>
      intro h _ kk
      simp [applyEvs, countKey, oddb]
  | cons x xs ih =>
      intro h hor kk
      have hpx : ∀ y ∈ xs, p x ≠ p y := (List.pairwise_cons.mp hdis).1
      have hdis2 : xs.Pairwise (fun a b => p a ≠ p b) := (List.pairwise_cons.mp hdis).2
      have hkx : ∀ e ∈ f x, evKey e = p x := hkey x (List.mem_cons_self x xs)
      have hgx := bitAt_applyEvs_group (f x) (p x) hkx
        (hshape x (List.mem_cons_self x xs)) h
        (hor x (List.mem_cons_self x xs))
      have hor2 : ∀ y ∈ xs, (∃ e ∈ f y, e.isOr = true) →
          bitAt (applyEvs h (f x)) (p y) = false := by
        intro y hy hey
        rw [hgx (p y)]
        have hc0 : countKey (f x) (p y) = 0 := by
          refine countKey_eq_zero _ _ ?_
          intro e he hc
          exact hpx y hy (by rw [← hc, hkx e he])
        rw [hc0, hor y (List.mem_cons_of_mem _ hy) hey]
        simp [oddb]
      have step := ih (fun y hy => hkey y (List.mem_cons_of_mem _ hy))
        (fun y hy => hshape y (List.mem_cons_of_mem _ hy)) hdis2
        (applyEvs h (f x)) hor2 kk
      show bitAt (applyEvs h (f x ++ xs.flatMap f)) kk = _
      rw [applyEvs_append, step, hgx kk]
      show _ = (bitAt h kk).xor (oddb (countKey (f x ++ xs.flatMap f) kk))
      rw [countKey_append, oddb_add, ← Bool.xor_assoc]

/-! ## TC dense expander as an event list -/

/-- The word index computed in the inner loop of `init_paritycheck_tc`. -/
def tcIdx (n m u v i j : Nat) : Nat :=
  ((u * m + i) * (n / 32)) + (v * m) / 32 + j / 32

/-- The bit shift computed in the inner loop of `init_paritycheck_tc`,
with the m < 32 packing compensation. -/
def tcShift (m v j : Nat) : Nat :=
  if m < 32 then 31 - (j % 32) - m * (v % (32 / m)) else 31 - (j % 32)

/-- The (at most two) write events of one (i, j) loop iteration of
`init_paritycheck_tc` for a flagged cell `subm`: the OR of the rotated
bit, then the XOR of the identity bit when HS. -/
def tcEvCore (n m subm u v i j : Nat) : List WEvent :=
  (if j = (i + (subm &&& 0x3F)) &&& (m - 1) then
      [⟨true, tcIdx n m u v i j, tcShift m v j⟩] else []) ++
  (if subm &&& HS = HS ∧ j = i &&& (m - 1) then
      [⟨false, tcIdx n m u v i j, tcShift m v j⟩] else [])

/-- All write events of `init_paritycheck_tc`, in execution order. -/
def tcEvents (n m : Nat) (P : Nat → Nat → Nat) : List WEvent :=
  (List.range 4).flatMap fun u =>
    (List.range 8).flatMap fun v =>
      if P u v &&& HP = HP ∨ P u v &&& HI = HI then
        (List.range m).flatMap fun i =>
          (List.range m).flatMap fun j =>
            tcEvCore n m (P u v) u v i j
      else []

/-- The addresses (u, v, i, j) of all loop iterations. -/
def tcQuads (m : Nat) : List (Nat × Nat × Nat × Nat) :=
  (List.range 4).flatMap fun u =>
    (List.range 8).flatMap fun v =>
      (List.range m).flatMap fun i =>
        (List.range m).map fun j => (u, v, i, j)

/-- The events of one loop address. -/
def tcEv (n m : Nat) (P : Nat → Nat → Nat) (q : Nat × Nat × Nat × Nat) :
    List WEvent :=
  if P q.1 q.2.1 &&& HP = HP ∨ P q.1 q.2.1 &&& HI = HI then
    tcEvCore n m (P q.1 q.2.1) q.1 q.2.1 q.2.2.1 q.2.2.2
  else []

/-- The single key (word index, shift) of a loop address. -/
def tcKey (n m : Nat) (q : Nat × Nat × Nat × Nat) : Nat × Nat :=
  (tcIdx n m q.1 q.2.1 q.2.2.1 q.2.2.2, tcShift m q.2.1 q.2.2.2)

theorem flatMap_nil_of {α β : Type} (l : List α) (f : α → List β)
    (hf : ∀ x ∈ l, f x = []) : l.flatMap f = [] := by
  induction l with
  | nil => rfl
  | cons x xs ih =>
      rw [List.flatMap_cons, hf x (List.mem_cons_self x xs), List.nil_append,
        ih (fun y hy => hf y (List.mem_cons_of_mem _ hy))]

theorem foldl_writes_eq {α : Type} (l : List α)
    (step : (Nat → Nat) → α → (Nat → Nat)) (g : α → List WEvent)
    (hstep : ∀ h x, step h x = applyEvs h (g x)) (h : Nat → Nat) :
    l.foldl step h = applyEvs h (l.flatMap g) := by
  induction l generalizing h with
  | nil => rfl
  | cons x xs ih =>
      rw [List.foldl_cons, List.flatMap_cons, applyEvs_append, hstep, ih]

/-- The TC dense expander is the application of its event list. -/
theorem init_paritycheck_tc_eq_events (c : LDPCCode) (T : Tables) (h : Nat → Nat) :
    init_paritycheck_tc c T h
      = applyEvs h (tcEvents c.n c.submatrix_size (tcProtoOf c T)) := by
  unfold init_paritycheck_tc tcEvents
  refine foldl_writes_eq _ _ _ ?_ h
  intro h u
  refine foldl_writes_eq _ _ _ ?_ h
  intro h v
  by_cases hf : tcProtoOf c T u v &&& HP = HP ∨ tcProtoOf c T u v &&& HI = HI
  · rw [if_pos hf, if_pos hf]
    refine foldl_writes_eq _ _ _ ?_ h
    intro h i
    refine foldl_writes_eq _ _ _ ?_ h
    intro h j
    show (if tcProtoOf c T u v &&& HS = HS ∧ j = i &&& (c.submatrix_size - 1) then
        writeXor (if j = (i + (tcProtoOf c T u v &&& 0x3F)) &&& (c.submatrix_size - 1)
            then writeOr h (tcIdx c.n c.submatrix_size u v i j)
              (1 <<< tcShift c.submatrix_size v j) else h)
          (tcIdx c.n c.submatrix_size u v i j) (1 <<< tcShift c.submatrix_size v j)
      else (if j = (i + (tcProtoOf c T u v &&& 0x3F)) &&& (c.submatrix_size - 1)
            then writeOr h (tcIdx c.n c.submatrix_size u v i j)
              (1 <<< tcShift c.submatrix_size v j) else h))
      = applyEvs h (tcEvCore c.n c.submatrix_size (tcProtoOf c T u v) u v i j)
    unfold tcEvCore
    by_cases h1 : j = (i + (tcProtoOf c T u v &&& 0x3F)) &&& (c.submatrix_size - 1) <;>
      by_cases h2 : tcProtoOf c T u v &&& HS = HS ∧ j = i &&& (c.submatrix_size - 1)
    · simp only [if_pos h1, if_pos h2]
      rfl
    · simp only [if_pos h1, if_neg h2]
      rfl
    · simp only [if_neg h1, if_pos h2]
      rfl
    · simp only [if_neg h1, if_neg h2]
      rfl
  · rw [if_neg hf, if_neg hf]
    rfl

/-- The TC event list regrouped as one group per loop address. -/
theorem tcEvents_eq_flatMap (n m : Nat) (P : Nat → Nat → Nat) :
    tcEvents n m P = (tcQuads m).flatMap (tcEv n m P) := by
  unfold tcEvents tcQuads
  rw [List.flatMap_assoc]
  refine List.flatMap_congr ?_
  intro u _
  rw [List.flatMap_assoc]
  refine List.flatMap_congr ?_
  intro v _
  by_cases hf : P u v &&& HP = HP ∨ P u v &&& HI = HI
  · rw [if_pos hf, List.flatMap_assoc]
    refine List.flatMap_congr ?_
    intro i _
    rw [List.flatMap_map]
    refine List.flatMap_congr ?_
    intro j _
    unfold tcEv
    rw [if_pos hf]
  · rw [if_neg hf]
    symm
    refine flatMap_nil_of _ _ ?_
    intro q hq
    obtain ⟨i, hi, hq2⟩ := List.mem_flatMap.mp hq
    obtain ⟨j, hj, rfl⟩ := List.mem_map.mp hq2
    unfold tcEv
    exact if_neg hf

theorem mem_tcQuads (m u v i j : Nat) :
    (u, v, i, j) ∈ tcQuads m ↔ u < 4 ∧ v < 8 ∧ i < m ∧ j < m := by
  unfold tcQuads
  constructor
  · intro hm
    obtain ⟨a, ha, hm1⟩ := List.mem_flatMap.mp hm
    obtain ⟨b, hb, hm2⟩ := List.mem_flatMap.mp hm1
    obtain ⟨e, he, hm3⟩ := List.mem_flatMap.mp hm2
    obtain ⟨d, hd, heq⟩ := List.mem_map.mp hm3
    cases heq
    exact ⟨List.mem_range.mp ha, List.mem_range.mp hb,
      List.mem_range.mp he, List.mem_range.mp hd⟩
  · rintro ⟨hu, hv, hi, hj⟩
    refine List.mem_flatMap.mpr ⟨u, List.mem_range.mpr hu, ?_⟩
    refine List.mem_flatMap.mpr ⟨v, List.mem_range.mpr hv, ?_⟩
    refine List.mem_flatMap.mpr ⟨i, List.mem_range.mpr hi, ?_⟩
    exact List.mem_map.mpr ⟨j, List.mem_range.mpr hj, rfl⟩

/-- The loop address can be recovered from the key, for the three TC
geometries (M, n) = (16, 128), (32, 256), (64, 512). -/
theorem tcKey_inj (n m : Nat)
    (hmn : m = 16 ∧ n = 128 ∨ m = 32 ∧ n = 256 ∨ m = 64 ∧ n = 512)
    (u v i j u' v' i' j' : Nat) (_hu : u < 4) (hv : v < 8) (hi : i < m)
    (hj : j < m) (_hu' : u' < 4) (hv' : v' < 8) (hi' : i' < m) (hj' : j' < m)
    (hk : tcKey n m (u, v, i, j) = tcKey n m (u', v', i', j')) :
    u = u' ∧ v = v' ∧ i = i' ∧ j = j' := by
  have h1 : tcIdx n m u v i j = tcIdx n m u' v' i' j' := congrArg Prod.fst hk
  have h2 : tcShift m v j = tcShift m v' j' := congrArg Prod.snd hk
  unfold tcIdx at h1
  unfold tcShift at h2
  rcases hmn with ⟨hm, hn⟩ | ⟨hm, hn⟩ | ⟨hm, hn⟩
  · subst hm
    subst hn
    simp only [if_pos (show (16 : Nat) < 32 by norm_num)] at h2
    omega
  · subst hm
    subst hn
    simp only [if_neg (show ¬(32 : Nat) < 32 by norm_num)] at h2
    omega
  · subst hm
    subst hn
    simp only [if_neg (show ¬(64 : Nat) < 32 by norm_num)] at h2
    omega

theorem pairwise_flatMap_of {α β : Type} {R : β → β → Prop} (l : List α)
    (f : α → List β) (hin : ∀ x ∈ l, (f x).Pairwise R)
    (hl : l.Pairwise fun x y => ∀ a ∈ f x, ∀ b ∈ f y, R a b) :
    (l.flatMap f).Pairwise R := by
  induction l with
  | nil => exact List.Pairwise.nil
  | cons x xs ih =>
      rw [List.flatMap_cons]
      refine List.pairwise_append.mpr
        ⟨hin x (List.mem_cons_self x xs),
          ih (fun y hy => hin y (List.mem_cons_of_mem _ hy))
            (List.pairwise_cons.mp hl).2, ?_⟩
      intro a ha b hb
      obtain ⟨y, hy, hby⟩ := List.mem_flatMap.mp hb
      exact (List.pairwise_cons.mp hl).1 y hy a ha b hby

theorem tcQuads_nodup (m : Nat) : (tcQuads m).Pairwise (· ≠ ·) := by
  unfold tcQuads
  refine pairwise_flatMap_of _ _ ?_ ?_
  · intro u _
    refine pairwise_flatMap_of _ _ ?_ ?_
    · intro v _
      refine pairwise_flatMap_of _ _ ?_ ?_
      · intro i _
        refine List.Pairwise.map _ ?_ (List.pairwise_lt_range m)
        intro a b hab heq
        exact absurd (congrArg (fun t => t.2.2.2) heq) (Nat.ne_of_lt hab)
      · refine List.Pairwise.imp ?_ (List.pairwise_lt_range m)
        intro a b hab x hx y hy heq
        obtain ⟨xa, _, hxe⟩ := List.mem_map.mp hx
        obtain ⟨ya, _, hye⟩ := List.mem_map.mp hy
        rw [← hxe, ← hye] at heq
        exact absurd (congrArg (fun t => t.2.2.1) heq) (Nat.ne_of_lt hab)
    · refine List.Pairwise.imp ?_ (List.pairwise_lt_range 8)
      intro a b hab x hx y hy heq
      obtain ⟨xa, _, hx2⟩ := List.mem_flatMap.mp hx
      obtain ⟨xc, _, hx4⟩ := List.mem_map.mp hx2
      obtain ⟨ya, _, hy2⟩ := List.mem_flatMap.mp hy
      obtain ⟨yc, _, hy4⟩ := List.mem_map.mp hy2
      rw [← hx4, ← hy4] at heq
      exact absurd (congrArg (fun t => t.2.1) heq) (Nat.ne_of_lt hab)
  · refine List.Pairwise.imp ?_ (List.pairwise_lt_range 4)
    intro a b hab x hx y hy heq
    obtain ⟨xa, _, hx2⟩ := List.mem_flatMap.mp hx
    obtain ⟨xb, _, hx3⟩ := List.mem_flatMap.mp hx2
    obtain ⟨xc, _, hx4⟩ := List.mem_map.mp hx3
    obtain ⟨ya, _, hy2⟩ := List.mem_flatMap.mp hy
    obtain ⟨yb, _, hy3⟩ := List.mem_flatMap.mp hy2
    obtain ⟨yc, _, hy4⟩ := List.mem_map.mp hy3
    rw [← hx4, ← hy4] at heq
    exact absurd (congrArg (fun t => t.1) heq) (Nat.ne_of_lt hab)

theorem tcQuads_pairwise (n m : Nat)
    (hmn : m = 16 ∧ n = 128 ∨ m = 32 ∧ n = 256 ∨ m = 64 ∧ n = 512) :
    (tcQuads m).Pairwise (fun a b => tcKey n m a ≠ tcKey n m b) := by
  refine List.Pairwise.imp_of_mem ?_ (tcQuads_nodup m)
  intro a b ha hb hne hk
  obtain ⟨ua, va, ia, ja⟩ := a
  obtain ⟨ub, vb, ib, jb⟩ := b
  obtain ⟨h1, h2, h3, h4⟩ := (mem_tcQuads m ua va ia ja).mp ha
  obtain ⟨h5, h6, h7, h8⟩ := (mem_tcQuads m ub vb ib jb).mp hb
  obtain ⟨e1, e2, e3, e4⟩ :=
    tcKey_inj n m hmn ua va ia ja ub vb ib jb h1 h2 h3 h4 h5 h6 h7 h8 hk
  subst e1
  subst e2
  subst e3
  subst e4
  exact hne rfl

theorem countKey_flatMap_single {α : Type} (l : List α) (f : α → List WEvent)
    (p : α → Nat × Nat) (hkey : ∀ x ∈ l, ∀ e ∈ f x, evKey e = p x)
    (hdis : l.Pairwise fun a b => p a ≠ p b) (x : α) (hx : x ∈ l) :
    countKey (l.flatMap f) (p x) = (f x).length := by
  induction l with
  | nil => cases hx
  | cons y ys ih =>
      rw [List.flatMap_cons, countKey_append]
      rcases List.mem_cons.mp hx with h1 | h2
      · subst h1
        rw [countKey_eq_length (f x) (p x) (hkey x (List.mem_cons_self x ys))]
        have hz : countKey (ys.flatMap f) (p x) = 0 := by
          refine countKey_eq_zero _ _ ?_
          intro e he
          obtain ⟨z, hz1, hz2⟩ := List.mem_flatMap.mp he
          rw [hkey z (List.mem_cons_of_mem _ hz1) e hz2]
          exact Ne.symm ((List.pairwise_cons.mp hdis).1 z hz1)
        rw [hz, Nat.add_zero]
      · have hz : countKey (f y) (p x) = 0 := by
          refine countKey_eq_zero _ _ ?_
          intro e he
          rw [hkey y (List.mem_cons_self y ys) e he]
          exact (List.pairwise_cons.mp hdis).1 x h2
        rw [hz, Nat.zero_add]
        exact ih (fun z hz1 => hkey z (List.mem_cons_of_mem _ hz1))
          (List.pairwise_cons.mp hdis).2 h2

theorem tc_geometry (c : LDPCCode) (hc : c.isTC = true) :
    c.submatrix_size = 16 ∧ c.n = 128 ∨ c.submatrix_size = 32 ∧ c.n = 256 ∨
      c.submatrix_size = 64 ∧ c.n = 512 := by
  cases c
  case TC128 => exact Or.inl ⟨rfl, rfl⟩
  case TC256 => exact Or.inr (Or.inl ⟨rfl, rfl⟩)
  case TC512 => exact Or.inr (Or.inr ⟨rfl, rfl⟩)
  all_goals exact absurd hc (by decide)

theorem tc_and_mod (m : Nat)
    (hm : m = 16 ∨ m = 32 ∨ m = 64) (x : Nat) : x &&& (m - 1) = x % m := by
  rcases hm with hm | hm | hm <;> subst hm
  · exact and_pow_sub_one x 4
  · exact and_pow_sub_one x 5
  · exact and_pow_sub_one x 6

theorem and_HS_imp_HP (subm : Nat) (h : subm &&& HS = HS) : subm &&& HP = HP := by
  have h2 := congrArg (fun x => x &&& HP) h
  simp only at h2
  rw [Nat.and_assoc] at h2
  have h3 : HS &&& HP = HP := by decide
  rw [h3] at h2
  exact h2

theorem tcEvCore_key (n m subm u v i j : Nat) (e : WEvent)
    (he : e ∈ tcEvCore n m subm u v i j) :
    evKey e = (tcIdx n m u v i j, tcShift m v j) := by
  unfold tcEvCore at he
  rcases List.mem_append.mp he with h1 | h1
  · by_cases hcnd : j = (i + (subm &&& 0x3F)) &&& (m - 1)
    · rw [if_pos hcnd] at h1
      obtain rfl := List.mem_singleton.mp h1
      rfl
    · rw [if_neg hcnd] at h1
      cases h1
  · by_cases hcnd : subm &&& HS = HS ∧ j = i &&& (m - 1)
    · rw [if_pos hcnd] at h1
      obtain rfl := List.mem_singleton.mp h1
      rfl
    · rw [if_neg hcnd] at h1
      cases h1

theorem tcEvCore_shape (n m subm u v i j : Nat) (e : WEvent)
    (he : e ∈ (tcEvCore n m subm u v i j).drop 1) : e.isOr = false := by
  unfold tcEvCore at he
  by_cases h1 : j = (i + (subm &&& 0x3F)) &&& (m - 1) <;>
    by_cases h2 : subm &&& HS = HS ∧ j = i &&& (m - 1)
  · simp only [if_pos h1, if_pos h2] at he
    have he2 : e = ⟨false, tcIdx n m u v i j, tcShift m v j⟩ := by simpa using he
    rw [he2]
  · simp only [if_pos h1, if_neg h2] at he
    simp at he
  · simp only [if_neg h1, if_pos h2] at he
    simp at he
  · simp only [if_neg h1, if_neg h2] at he
    simp at he

set_option maxHeartbeats 800000 in
/-- The bit the dense TC expander leaves at loop address (u, v, i, j) on a
zero buffer: the XOR of the rotated-identity indicator and the HS identity
indicator. -/
theorem tc_dense_bit (c : LDPCCode) (T : Tables) (hc : c.isTC = true)
    (u v i j : Nat) (hu : u < 4) (hv : v < 8) (hi : i < c.submatrix_size)
    (hj : j < c.submatrix_size) :
    ((init_paritycheck_tc c T (fun _ => 0))
        (tcIdx c.n c.submatrix_size u v i j)).testBit (tcShift c.submatrix_size v j)
      = (decide ((tcProtoOf c T u v &&& HP = HP ∨ tcProtoOf c T u v &&& HI = HI) ∧
            j = (i + (tcProtoOf c T u v &&& 0x3F)) % c.submatrix_size)).xor
        (decide (tcProtoOf c T u v &&& HS = HS ∧ j = i % c.submatrix_size)) := by
  have hmn := tc_geometry c hc
  have hm3 : c.submatrix_size = 16 ∨ c.submatrix_size = 32 ∨ c.submatrix_size = 64 := by
    rcases hmn with ⟨h, _⟩ | ⟨h, _⟩ | ⟨h, _⟩
    exacts [Or.inl h, Or.inr (Or.inl h), Or.inr (Or.inr h)]
  have hAnd := tc_and_mod c.submatrix_size hm3
  have hkeyA : ∀ x ∈ tcQuads c.submatrix_size,
      ∀ e ∈ tcEv c.n c.submatrix_size (tcProtoOf c T) x,
        evKey e = tcKey c.n c.submatrix_size x := by
    intro x _ e he
    obtain ⟨a, b, d2, f2⟩ := x
    unfold tcEv at he
    by_cases hf : tcProtoOf c T a b &&& HP = HP ∨ tcProtoOf c T a b &&& HI = HI
    · rw [if_pos hf] at he
      exact tcEvCore_key _ _ _ _ _ _ _ e he
    · rw [if_neg hf] at he
      cases he
  have hshapeA : ∀ x ∈ tcQuads c.submatrix_size,
      ∀ e ∈ (tcEv c.n c.submatrix_size (tcProtoOf c T) x).drop 1,
        e.isOr = false := by
    intro x _ e he
    obtain ⟨a, b, d2, f2⟩ := x
    unfold tcEv at he
    by_cases hf : tcProtoOf c T a b &&& HP = HP ∨ tcProtoOf c T a b &&& HI = HI
    · rw [if_pos hf] at he
      exact tcEvCore_shape _ _ _ _ _ _ _ e he
    · rw [if_neg hf] at he
      cases he
  have hdis := tcQuads_pairwise c.n c.submatrix_size hmn
  have hbit := bitAt_applyEvs_groups (tcQuads c.submatrix_size)
    (tcEv c.n c.submatrix_size (tcProtoOf c T)) (tcKey c.n c.submatrix_size)
    hkeyA hshapeA hdis (fun _ => 0)
    (fun x _ _ => Nat.zero_testBit _)
    (tcKey c.n c.submatrix_size (u, v, i, j))
  rw [init_paritycheck_tc_eq_events, tcEvents_eq_flatMap]
  have hL : ((applyEvs (fun _ => 0) ((tcQuads c.submatrix_size).flatMap
        (tcEv c.n c.submatrix_size (tcProtoOf c T))))
          (tcIdx c.n c.submatrix_size u v i j)).testBit (tcShift c.submatrix_size v j)
      = bitAt (applyEvs (fun _ => 0) ((tcQuads c.submatrix_size).flatMap
          (tcEv c.n c.submatrix_size (tcProtoOf c T))))
        (tcKey c.n c.submatrix_size (u, v, i, j)) := rfl
  rw [hL, hbit,
    countKey_flatMap_single (tcQuads c.submatrix_size)
      (tcEv c.n c.submatrix_size (tcProtoOf c T)) (tcKey c.n c.submatrix_size)
      hkeyA hdis (u, v, i, j)
      ((mem_tcQuads c.submatrix_size u v i j).mpr ⟨hu, hv, hi, hj⟩)]
  have hz : bitAt (fun _ => 0) (tcKey c.n c.submatrix_size (u, v, i, j)) = false :=
    Nat.zero_testBit _
  rw [hz, Bool.false_xor]
  rw [← hAnd (i + (tcProtoOf c T u v &&& 0x3F)), ← hAnd i]
  unfold tcEv
  by_cases hf : tcProtoOf c T u v &&& HP = HP ∨ tcProtoOf c T u v &&& HI = HI
  · rw [if_pos hf]
    unfold tcEvCore
    by_cases h1 : j = (i + (tcProtoOf c T u v &&& 0x3F)) &&& (c.submatrix_size - 1) <;>
      by_cases h2 : tcProtoOf c T u v &&& HS = HS ∧ j = i &&& (c.submatrix_size - 1)
    · simp only [if_pos h1, if_pos h2]
      rw [decide_eq_true (show _ ∧ _ from ⟨hf, h1⟩), decide_eq_true h2]
      simp [oddb]
    · simp only [if_pos h1, if_neg h2]
      rw [decide_eq_true (show _ ∧ _ from ⟨hf, h1⟩), decide_eq_false h2]
      simp [oddb]
    · simp only [if_neg h1, if_pos h2]
      rw [decide_eq_false (fun hh => h1 hh.2), decide_eq_true h2]
      simp [oddb]
    · simp only [if_neg h1, if_neg h2]
      rw [decide_eq_false (fun hh => h1 hh.2), decide_eq_false h2]
      simp [oddb]
  · rw [if_neg hf]
    have hns : ¬(tcProtoOf c T u v &&& HS = HS ∧
        j = i &&& (c.submatrix_size - 1)) := by
      rintro ⟨hhs, _⟩
      exact hf (Or.inl (and_HS_imp_HP _ hhs))
    rw [decide_eq_false (fun hh => hf hh.1), decide_eq_false hns]
    simp [oddb]

/-- Claim C5.  For every TC code and prototype table, the dense expander
run on a zero buffer sets exactly the bits the spec describes: for the
loop address (u, v, i, j), the word at the source's index
((u*M+i)*(n/32) + (v*M)/32 + j/32), tested at the source's shift
(31 - j%32, lowered by M*(v mod (32/M)) when M < 32), holds the XOR of
the rotated-identity indicator (cell flagged HI or HP, and
j = (i + r) mod M with r the cell's low 6 bits) and the HS identity
indicator (both flags, and j = i mod M). -/
theorem c5_tc_dense_exact_bits (c : LDPCCode) (T : Tables) (hc : c.isTC = true)
    (u v i j : Nat) (hu : u < 4) (hv : v < 8) (hi : i < c.submatrix_size)
    (hj : j < c.submatrix_size) :
    ((init_paritycheck_tc c T (fun _ => 0))
        (tcIdx c.n c.submatrix_size u v i j)).testBit (tcShift c.submatrix_size v j)
      = (decide ((tcProtoOf c T u v &&& HP = HP ∨ tcProtoOf c T u v &&& HI = HI) ∧
            j = (i + (tcProtoOf c T u v &&& 0x3F)) % c.submatrix_size)).xor
        (decide (tcProtoOf c T u v &&& HS = HS ∧ j = i % c.submatrix_size)) :=
  tc_dense_bit c T hc u v i j hu hv hi hj

/-- Witness for claim C5: TC128 with the all-zero table, address (0,0,0,0).
No cell is flagged, so the bit is clear and both indicators are false. -/
theorem c5_tc_dense_exact_bits_witness :
    ((init_paritycheck_tc LDPCCode.TC128 trivTables (fun _ => 0))
        (tcIdx 128 16 0 0 0 0)).testBit (tcShift 16 0 0)
      = (decide ((trivTables.tc128H 0 0 &&& HP = HP ∨
            trivTables.tc128H 0 0 &&& HI = HI) ∧
          0 = (0 + (trivTables.tc128H 0 0 &&& 0x3F)) % 16)).xor
        (decide (trivTables.tc128H 0 0 &&& HS = HS ∧ 0 = 0 % 16)) :=
  c5_tc_dense_exact_bits LDPCCode.TC128 trivTables rfl 0 0 0 0
    (by norm_num) (by norm_num) (by decide) (by decide)

/-! ## Sparse builders as flatMaps over rows -/

theorem foldl_emits {α : Type} (l : List α) (g : α → List Nat)
    (step : List Nat → α → List Nat) (hstep : ∀ ci x, step ci x = ci ++ g x)
    (a : List Nat) : l.foldl step a = a ++ l.flatMap g := by
  induction l generalizing a with
  | nil => rw [List.flatMap_nil, List.append_nil]; rfl
  | cons x xs ih =>
      rw [List.foldl_cons, hstep, ih, List.flatMap_cons, List.append_assoc]

/-- A fold which per row records the write cursor and appends the row's
emissions produces the flatMap of the rows and the prefix lengths. -/
theorem build_rows (row : Nat → List Nat) (N : Nat)
    (step : (List Nat × List Nat) → Nat → (List Nat × List Nat))
    (hstep : ∀ st r, step st r = (st.1 ++ row r, st.2 ++ [st.1.length])) :
    (List.range N).foldl step ([], []) =
      ((List.range N).flatMap row,
        (List.range N).map fun r => ((List.range r).flatMap row).length) := by
  induction N with
  | zero => rfl
  | succ n ih =>
      rw [List.range_succ, List.foldl_append, ih, List.foldl_cons, List.foldl_nil,
        hstep]
      simp only [Prod.mk.injEq]
      constructor
      · rw [List.flatMap_append]
        simp
      · rw [List.map_append]
        simp

/-- The row emitted for one check by the TC sparse check builder. -/
def tcRow (n divm modm : Nat) (P : Nat → Nat → Nat) (check : Nat) : List Nat :=
  (List.range n).flatMap fun vrb =>
    (if P (check >>> divm) (vrb >>> divm) &&& HI = HI ∧
        vrb &&& modm = check &&& modm then [vrb] else []) ++
    (if P (check >>> divm) (vrb >>> divm) &&& HP = HP ∧
        vrb &&& modm = ((check &&& modm) +
          (P (check >>> divm) (vrb >>> divm) &&& 0x3F)) &&& modm then [vrb]
      else [])


theorem two_cond_append (ci : List Nat) (x : Nat) (c1 c2 : Prop)
    [Decidable c1] [Decidable c2] :
    (if c2 then (if c1 then ci ++ [x] else ci) ++ [x]
      else (if c1 then ci ++ [x] else ci))
    = ci ++ ((if c1 then [x] else []) ++ (if c2 then [x] else [])) := by
  by_cases h1 : c1 <;> by_cases h2 : c2 <;> simp [h1, h2]

theorem tcChecksStep_eq (c : LDPCCode) (T : Tables) (st : List Nat × List Nat)
    (r : Nat) :
    tcChecksStep c T st r =
      (st.1 ++ tcRow c.n (Nat.log2 c.submatrix_size) (c.submatrix_size - 1)
        (tcProtoOf c T) r, st.2 ++ [st.1.length]) := by
  unfold tcChecksStep tcRow
  simp only [Prod.mk.injEq]
  refine ⟨?_, trivial⟩
  refine foldl_emits (List.range c.n) _ _ ?_ st.1
  intro ci x
  exact two_cond_append ci x _ _

/-- The TC check-side builder is the flatMap of its rows together with the
prefix-length offsets. -/
theorem checks_tc_eq (c : LDPCCode) (T : Tables) :
    init_sparse_paritycheck_checks_tc c T =
      ((List.range (c.n - c.k)).flatMap
          (tcRow c.n (Nat.log2 c.submatrix_size) (c.submatrix_size - 1)
            (tcProtoOf c T)),
        ((List.range (c.n - c.k)).map fun r =>
          ((List.range r).flatMap
            (tcRow c.n (Nat.log2 c.submatrix_size) (c.submatrix_size - 1)
              (tcProtoOf c T))).length) ++
        [((List.range (c.n - c.k)).flatMap
          (tcRow c.n (Nat.log2 c.submatrix_size) (c.submatrix_size - 1)
            (tcProtoOf c T))).length]) := by
  unfold init_sparse_paritycheck_checks_tc
  rw [build_rows (tcRow c.n (Nat.log2 c.submatrix_size) (c.submatrix_size - 1)
      (tcProtoOf c T)) (c.n - c.k) (tcChecksStep c T) (tcChecksStep_eq c T)]

theorem one_cond_append (l : List Nat) (y : Nat) (c1 : Prop) [Decidable c1] :
    (if c1 then l ++ [y] else l) = l ++ (if c1 then [y] else []) := by
  by_cases h1 : c1 <;> simp [h1]

/-- The row emitted for one check by the TM sparse check builder. -/
def tmRow (c : LDPCCode) (T : Tables) (check : Nat) : List Nat :=
  (List.range ((c.n + c.punctured_bits) / c.submatrix_size)).flatMap
    fun variable_block =>
      (List.range c.submatrix_size).flatMap fun block_variable =>
        if tmPbitGo
            (tmSelect T ((c.n + c.punctured_bits) / c.submatrix_size)
              variable_block).1
            T.thetaK (T.phiJK c.submatrix_size) c.submatrix_size
            (Nat.log2 c.submatrix_size) (c.submatrix_size / 4 - 1) check
            (check &&& (c.submatrix_size - 1))
            (variable_block -
              (tmSelect T ((c.n + c.punctured_bits) / c.submatrix_size)
                variable_block).2)
            block_variable [0, 1, 2] 0 = 1
        then [variable_block * c.submatrix_size + block_variable] else []

theorem tmChecksStep_eq (c : LDPCCode) (T : Tables) (st : List Nat × List Nat)
    (r : Nat) :
    tmChecksStep c T st r = (st.1 ++ tmRow c T r, st.2 ++ [st.1.length]) := by
  unfold tmChecksStep tmRow
  simp only [Prod.mk.injEq]
  refine ⟨?_, trivial⟩
  refine foldl_emits _ _ _ ?_ st.1
  intro ci vb
  refine foldl_emits _ _ _ ?_ ci
  intro ci2 bv
  exact one_cond_append ci2 _ _

/-- The TM check-side builder is the flatMap of its rows together with the
prefix-length offsets. -/
theorem checks_tm_eq (c : LDPCCode) (T : Tables) :
    init_sparse_paritycheck_checks_tm c T =
      ((List.range (c.n - c.k + c.punctured_bits)).flatMap (tmRow c T),
        ((List.range (c.n - c.k + c.punctured_bits)).map fun r =>
          ((List.range r).flatMap (tmRow c T)).length) ++
        [((List.range (c.n - c.k + c.punctured_bits)).flatMap (tmRow c T)).length]) := by
  unfold init_sparse_paritycheck_checks_tm
  rw [build_rows (tmRow c T) (c.n - c.k + c.punctured_bits) (tmChecksStep c T)
    (tmChecksStep_eq c T)]

/-- The column list emitted for one variable by the transposition. -/
def varRow (c : LDPCCode) (ci cs : List Nat) (vrb : Nat) : List Nat :=
  (List.range (c.n - c.k + c.punctured_bits)).flatMap fun check =>
    (sliceOf ci (cs.getD check 0) (cs.getD (check + 1) 0)).flatMap fun x =>
      if x = vrb then [check] else []

theorem varStep_eq (c : LDPCCode) (ci cs : List Nat) (st : List Nat × List Nat)
    (vrb : Nat) :
    varStep c ci cs st vrb =
      (st.1 ++ varRow c ci cs vrb, st.2 ++ [st.1.length]) := by
  unfold varStep varRow
  simp only [Prod.mk.injEq]
  refine ⟨?_, trivial⟩
  refine foldl_emits _ _ _ ?_ st.1
  intro vi check
  refine foldl_emits _ _ _ ?_ vi
  intro vi2 x
  exact one_cond_append vi2 _ _

/-- The transposition builder is the flatMap of its columns together with
the prefix-length offsets. -/
theorem variables_eq (c : LDPCCode) (ci cs : List Nat) :
    sparseVariables c ci cs =
      ((List.range (c.n + c.punctured_bits)).flatMap (varRow c ci cs),
        ((List.range (c.n + c.punctured_bits)).map fun v =>
          ((List.range v).flatMap (varRow c ci cs)).length) ++
        [((List.range (c.n + c.punctured_bits)).flatMap (varRow c ci cs)).length]) := by
  unfold sparseVariables
  rw [build_rows (varRow c ci cs) (c.n + c.punctured_bits) (varStep c ci cs)
    (varStep_eq c ci cs)]

/-- The pure transposition, as the spec states it: for each variable
v in [0, n+p) record the current cursor as vs[v], then scan every check
c in ascending order and append c to vi once for each occurrence of v in
ci[cs[c]..cs[c+1]]; the final vs entry is the number of entries written. -/
def specTransposition (c : LDPCCode) (ci cs : List Nat) : List Nat × List Nat :=
  ((List.range (c.n + c.punctured_bits)).flatMap (varRow c ci cs),
    ((List.range (c.n + c.punctured_bits)).map fun v =>
      ((List.range v).flatMap (varRow c ci cs)).length) ++
    [((List.range (c.n + c.punctured_bits)).flatMap (varRow c ci cs)).length])

/-! ## Offsets, slices and ordering of the sparse representation -/

theorem sum_map_range (n : Nat) (f : Nat → Nat) :
    ((List.range n).map f).sum = ∑ i ∈ Finset.range n, f i := by
  induction n with
  | zero => simp
  | succ k ih =>
      rw [List.range_succ, List.map_append, List.sum_append, ih,
        Finset.sum_range_succ]
      simp

theorem getD_append_lt (l l2 : List Nat) (i : Nat) (h : i < l.length) :
    (l ++ l2).getD i 0 = l.getD i 0 := by
  rw [List.getD_eq_getElem?_getD, List.getD_eq_getElem?_getD, List.getElem?_append,
    if_pos h]

theorem getD_append_ge (l l2 : List Nat) (i : Nat) (h : l.length ≤ i) :
    (l ++ l2).getD i 0 = l2.getD (i - l.length) 0 := by
  rw [List.getD_eq_getElem?_getD, List.getD_eq_getElem?_getD, List.getElem?_append,
    if_neg (by omega)]

theorem getD_map_range (N : Nat) (f : Nat → Nat) (i : Nat) (h : i < N) :
    ((List.range N).map f).getD i 0 = f i := by
  rw [List.getD_eq_getElem?_getD, List.getElem?_map, List.getElem?_range h]
  rfl

/-- The offset array produced by a row-builder: prefix lengths plus the
total length. -/
def marksOf (row : Nat → List Nat) (N : Nat) : List Nat :=
  ((List.range N).map fun r => ((List.range r).flatMap row).length) ++
  [((List.range N).flatMap row).length]

theorem marksOf_getD (row : Nat → List Nat) (N r : Nat) (hr : r ≤ N) :
    (marksOf row N).getD r 0 = ((List.range r).flatMap row).length := by
  unfold marksOf
  rcases Nat.lt_or_ge r N with h | h
  · rw [getD_append_lt _ _ _ (by simpa using h), getD_map_range _ _ _ h]
  · have hrN : r = N := Nat.le_antisymm hr h
    subst hrN
    rw [getD_append_ge _ _ _ (by simp)]
    simp

theorem flatMap_range_prefix (row : Nat → List Nat) (a b : Nat) (hab : a ≤ b) :
    ∃ rest, (List.range b).flatMap row = (List.range a).flatMap row ++ rest := by
  obtain ⟨d, rfl⟩ : ∃ d, b = a + d := ⟨b - a, by omega⟩
  rw [List.range_add, List.flatMap_append]
  exact ⟨_, rfl⟩

theorem prefix_len_mono (row : Nat → List Nat) (a b : Nat) (hab : a ≤ b) :
    ((List.range a).flatMap row).length ≤ ((List.range b).flatMap row).length := by
  obtain ⟨rest, hsplit⟩ := flatMap_range_prefix row a b hab
  rw [hsplit, List.length_append]
  omega

theorem flatMap_range_succ (row : Nat → List Nat) (r : Nat) :
    (List.range (r + 1)).flatMap row = (List.range r).flatMap row ++ row r := by
  rw [List.range_succ, List.flatMap_append]
  simp

theorem slice_flatMap_row (row : Nat → List Nat) (N r : Nat) (hr : r < N) :
    sliceOf ((List.range N).flatMap row)
      ((List.range r).flatMap row).length
      ((List.range (r + 1)).flatMap row).length = row r := by
  obtain ⟨rest, hsplit⟩ := flatMap_range_prefix row (r + 1) N (by omega)
  unfold sliceOf
  rw [hsplit, List.take_left, flatMap_range_succ, List.drop_left]

theorem and_HI_HP_imp_HS (subm : Nat) (h1 : subm &&& HI = HI)
    (h2 : subm &&& HP = HP) : subm &&& HS = HS := by
  show subm &&& (HI ||| HP) = HI ||| HP
  rw [Nat.and_or_distrib_left subm HI HP, h1, h2]

theorem mod_add_cancel (bc t m : Nat) (hbc : bc < m) (ht : t < m)
    (h : (bc + t) % m = bc) : t = 0 := by
  rcases Nat.lt_or_ge (bc + t) m with h2 | h2
  · rw [Nat.mod_eq_of_lt h2] at h
    omega
  · rw [Nat.mod_eq_sub_mod h2, Nat.mod_eq_of_lt (by omega)] at h
    omega

theorem mem_two_if (x vrb : Nat) (c1 c2 : Prop) [Decidable c1] [Decidable c2]
    (hx : x ∈ (if c1 then [vrb] else []) ++ (if c2 then [vrb] else [])) :
    x = vrb := by
  rcases List.mem_append.mp hx with h | h
  · by_cases hc : c1
    · rw [if_pos hc] at h
      exact List.mem_singleton.mp h
    · rw [if_neg hc] at h
      cases h
  · by_cases hc : c2
    · rw [if_pos hc] at h
      exact List.mem_singleton.mp h
    · rw [if_neg hc] at h
      cases h

/-- Rows of the TC sparse build are strictly ascending, provided no HS
cell carries a rotation divisible by M (otherwise the builder would emit
the same variable twice for one check). -/
theorem tcRow_sorted (n m : Nat) (P : Nat → Nat → Nat) (check : Nat)
    (hm3 : m = 16 ∨ m = 32 ∨ m = 64)
    (hdeg : ∀ cb vb, ¬(P cb vb &&& HS = HS ∧ (P cb vb &&& 0x3F) % m = 0)) :
    (tcRow n (Nat.log2 m) (m - 1) P check).Pairwise (· < ·) := by
  have hm0 : 0 < m := by rcases hm3 with h | h | h <;> omega
  have hAnd := tc_and_mod m hm3
  unfold tcRow
  refine pairwise_flatMap_of _ _ ?_ ?_
  · intro vrb _
    by_cases h1 : P (check >>> Nat.log2 m) (vrb >>> Nat.log2 m) &&& HI = HI ∧
        vrb &&& (m - 1) = check &&& (m - 1) <;>
      by_cases h2 : P (check >>> Nat.log2 m) (vrb >>> Nat.log2 m) &&& HP = HP ∧
          vrb &&& (m - 1) = ((check &&& (m - 1)) +
            (P (check >>> Nat.log2 m) (vrb >>> Nat.log2 m) &&& 0x3F)) &&& (m - 1)
    · exfalso
      refine hdeg (check >>> Nat.log2 m) (vrb >>> Nat.log2 m)
        ⟨and_HI_HP_imp_HS _ h1.1 h2.1, ?_⟩
      have hbc : check &&& (m - 1) < m := by
        rw [hAnd]
        exact Nat.mod_lt _ hm0
      have ht : (P (check >>> Nat.log2 m) (vrb >>> Nat.log2 m) &&& 0x3F) % m < m :=
        Nat.mod_lt _ hm0
      refine mod_add_cancel (check &&& (m - 1)) _ m hbc ht ?_
      have he : vrb &&& (m - 1) = ((check &&& (m - 1)) +
          (P (check >>> Nat.log2 m) (vrb >>> Nat.log2 m) &&& 0x3F)) % m := by
        rw [← hAnd]
        exact h2.2
      rw [h1.2] at he
      rw [Nat.add_mod_mod]
      exact he.symm
    · simp only [if_pos h1, if_neg h2, List.append_nil]
      exact List.pairwise_singleton _ _
    · simp only [if_neg h1, if_pos h2, List.nil_append]
      exact List.pairwise_singleton _ _
    · simp only [if_neg h1, if_neg h2, List.append_nil]
      exact List.Pairwise.nil
  · refine List.Pairwise.imp ?_ (List.pairwise_lt_range n)
    intro a b hab x hx y hy
    rw [mem_two_if x a _ _ hx, mem_two_if y b _ _ hy]
    exact hab

theorem mem_one_if (x y : Nat) (c1 : Prop) [Decidable c1]
    (hx : x ∈ (if c1 then [y] else [])) : x = y := by
  by_cases hc : c1
  · rw [if_pos hc] at hx
    exact List.mem_singleton.mp hx
  · rw [if_neg hc] at hx
    cases hx

/-- Rows of the TM sparse build are strictly ascending unconditionally:
each (block, in-block) address emits at most once and addresses are
scanned in lexicographic order. -/
theorem tmRow_sorted (c : LDPCCode) (T : Tables) (check : Nat) :
    (tmRow c T check).Pairwise (· < ·) := by
  unfold tmRow
  refine pairwise_flatMap_of _ _ ?_ ?_
  · intro vb _
    refine pairwise_flatMap_of _ _ ?_ ?_
    · intro bv _
      split
      · exact List.pairwise_singleton _ _
      · exact List.Pairwise.nil
    · refine List.Pairwise.imp ?_ (List.pairwise_lt_range c.submatrix_size)
      intro a b hab x hx y hy
      rw [mem_one_if x _ _ hx, mem_one_if y _ _ hy]
      exact Nat.add_lt_add_left hab _
  · refine List.Pairwise.imp ?_
      (List.pairwise_lt_range ((c.n + c.punctured_bits) / c.submatrix_size))
    intro a b hab x hx y hy
    obtain ⟨bva, hbva, hxa⟩ := List.mem_flatMap.mp hx
    obtain ⟨bvb, hbvb, hyb⟩ := List.mem_flatMap.mp hy
    rw [mem_one_if x _ _ hxa, mem_one_if y _ _ hyb]
    have h1 : a * c.submatrix_size + bva < (a + 1) * c.submatrix_size := by
      rw [Nat.succ_mul]
      exact Nat.add_lt_add_left (List.mem_range.mp hbva) _
    have h2 : (a + 1) * c.submatrix_size ≤ b * c.submatrix_size :=
      Nat.mul_le_mul_right _ hab
    exact Nat.lt_of_lt_of_le h1 (Nat.le_trans h2 (Nat.le_add_right _ _))

/-- The per-check row of the check-side build, by family. -/
def rowOf (c : LDPCCode) (T : Tables) : Nat → List Nat :=
  if c.isTC then
    tcRow c.n (Nat.log2 c.submatrix_size) (c.submatrix_size - 1) (tcProtoOf c T)
  else tmRow c T

set_option maxRecDepth 4000 in
theorem sparseChecks_eq (c : LDPCCode) (T : Tables) :
    sparseChecks c T =
      ((List.range (c.n - c.k + c.punctured_bits)).flatMap (rowOf c T),
        marksOf (rowOf c T) (c.n - c.k + c.punctured_bits)) := by
  cases c
  case TC128 => exact checks_tc_eq LDPCCode.TC128 T
  case TC256 => exact checks_tc_eq LDPCCode.TC256 T
  case TC512 => exact checks_tc_eq LDPCCode.TC512 T
  case TM1280 => exact checks_tm_eq LDPCCode.TM1280 T
  case TM1536 => exact checks_tm_eq LDPCCode.TM1536 T
  case TM2048 => exact checks_tm_eq LDPCCode.TM2048 T
  case TM5120 => exact checks_tm_eq LDPCCode.TM5120 T
  case TM6144 => exact checks_tm_eq LDPCCode.TM6144 T
  case TM8192 => exact checks_tm_eq LDPCCode.TM8192 T

theorem tm_qm (c : LDPCCode) (hc : c.isTC = false) :
    (c.n + c.punctured_bits) / c.submatrix_size * c.submatrix_size
      = c.n + c.punctured_bits := by
  cases c <;> first
    | exact absurd hc (by decide)
    | rfl

/-- Every value emitted into `ci` is a variable index below n+p. -/
theorem rowOf_lt (c : LDPCCode) (T : Tables) (r x : Nat)
    (hx : x ∈ rowOf c T r) : x < c.n + c.punctured_bits := by
  unfold rowOf at hx
  by_cases hc : c.isTC
  · rw [if_pos hc] at hx
    unfold tcRow at hx
    obtain ⟨vrb, hvrb, hg⟩ := List.mem_flatMap.mp hx
    rw [mem_two_if x vrb _ _ hg]
    exact Nat.lt_of_lt_of_le (List.mem_range.mp hvrb) (Nat.le_add_right _ _)
  · rw [if_neg hc] at hx
    unfold tmRow at hx
    obtain ⟨vb, hvb, hg⟩ := List.mem_flatMap.mp hx
    obtain ⟨bv, hbv, hg2⟩ := List.mem_flatMap.mp hg
    rw [mem_one_if x _ _ hg2]
    have h1 : vb * c.submatrix_size + bv < (vb + 1) * c.submatrix_size := by
      rw [Nat.succ_mul]
      exact Nat.add_lt_add_left (List.mem_range.mp hbv) _
    have h2 : (vb + 1) * c.submatrix_size ≤
        (c.n + c.punctured_bits) / c.submatrix_size * c.submatrix_size :=
      Nat.mul_le_mul_right _ (List.mem_range.mp hvb)
    rw [tm_qm c (by revert hc; cases c.isTC <;> simp)] at h2
    exact Nat.lt_of_lt_of_le h1 h2

theorem rowOf_sorted (c : LDPCCode) (T : Tables) (check : Nat)
    (hdeg : c.isTC = true → ∀ cb vb, ¬(tcProtoOf c T cb vb &&& HS = HS ∧
      (tcProtoOf c T cb vb &&& 0x3F) % c.submatrix_size = 0)) :
    (rowOf c T check).Pairwise (· < ·) := by
  unfold rowOf
  by_cases hc : c.isTC
  · rw [if_pos hc]
    refine tcRow_sorted c.n c.submatrix_size _ check ?_ (hdeg hc)
    rcases tc_geometry c hc with ⟨h, _⟩ | ⟨h, _⟩ | ⟨h, _⟩
    exacts [Or.inl h, Or.inr (Or.inl h), Or.inr (Or.inr h)]
  · rw [if_neg (by simpa using hc)]
    exact tmRow_sorted c T check

theorem length_filter_flatMap (L : List Nat) (v y : Nat) :
    (L.flatMap fun x => if x = v then [y] else []).length
      = L.countP fun x => decide (x = v) := by
  induction L with
  | nil => rfl
  | cons x L' ih =>
      rw [List.flatMap_cons, List.length_append, ih, List.countP_cons]
      by_cases hx : x = v
      · simp [hx, Nat.add_comm]
      · simp [hx]

theorem at_most_one_hit (L : List Nat) (v y : Nat) (hL : L.Pairwise (· < ·)) :
    (L.flatMap fun x => if x = v then [y] else []).length ≤ 1 := by
  induction L with
  | nil => simp
  | cons x L' ih =>
      obtain ⟨hhead, htail⟩ := List.pairwise_cons.mp hL
      rw [List.flatMap_cons, List.length_append]
      by_cases hx : x = v
      · subst hx
        have hz : (L'.flatMap fun z => if z = x then [y] else []) = [] := by
          refine flatMap_nil_of _ _ ?_
          intro z hz1
          rw [if_neg (Ne.symm (Nat.ne_of_lt (hhead z hz1)))]
        rw [hz]
        simp
      · rw [if_neg hx]
        simpa using ih htail

theorem varRow_sorted (c : LDPCCode) (ci cs : List Nat) (v : Nat)
    (hslices : ∀ ch,
      (sliceOf ci (cs.getD ch 0) (cs.getD (ch + 1) 0)).Pairwise (· < ·)) :
    (varRow c ci cs v).Pairwise (· < ·) := by
  unfold varRow
  refine pairwise_flatMap_of _ _ ?_ ?_
  · intro ch _
    have hlen := at_most_one_hit
      (sliceOf ci (cs.getD ch 0) (cs.getD (ch + 1) 0)) v ch (hslices ch)
    revert hlen
    generalize (sliceOf ci (cs.getD ch 0) (cs.getD (ch + 1) 0)).flatMap
      (fun x => if x = v then [ch] else []) = L
    intro hlen
    rcases L with _ | ⟨a, _ | ⟨b, l3⟩⟩
    · exact List.Pairwise.nil
    · exact List.pairwise_singleton _ _
    · simp at hlen
  · refine List.Pairwise.imp ?_
      (List.pairwise_lt_range (c.n - c.k + c.punctured_bits))
    intro a b hab x hx y hy
    obtain ⟨xa, _, hx2⟩ := List.mem_flatMap.mp hx
    obtain ⟨ya, _, hy2⟩ := List.mem_flatMap.mp hy
    rw [mem_one_if x _ _ hx2, mem_one_if y _ _ hy2]
    exact hab

theorem sum_countP_eq_length (L : List Nat) (np : Nat)
    (hL : ∀ x ∈ L, x < np) :
    (∑ v ∈ Finset.range np, L.countP fun x => decide (x = v)) = L.length := by
  induction L with
  | nil => simp
  | cons x L' ih =>
      have hx : x < np := hL x (List.mem_cons_self x L')
      have hsum : ∀ v, (x :: L').countP (fun z => decide (z = v))
          = L'.countP (fun z => decide (z = v)) + if x = v then 1 else 0 := by
        intro v
        rw [List.countP_cons]
        by_cases hv : x = v <;> simp [hv]
      calc (∑ v ∈ Finset.range np, (x :: L').countP fun z => decide (z = v))
          = ∑ v ∈ Finset.range np,
              (L'.countP (fun z => decide (z = v)) + if x = v then 1 else 0) :=
            Finset.sum_congr rfl (fun v _ => hsum v)
        _ = (∑ v ∈ Finset.range np, L'.countP fun z => decide (z = v))
            + ∑ v ∈ Finset.range np, (if x = v then 1 else 0) :=
            Finset.sum_add_distrib
        _ = L'.length + 1 := by
            rw [ih (fun z hz => hL z (List.mem_cons_of_mem _ hz)),
              Finset.sum_ite_eq (Finset.range np) x (fun _ => 1)]
            simp [Finset.mem_range.mpr hx]
        _ = (x :: L').length := by simp

set_option maxHeartbeats 1000000 in
/-- Claim C7.  After the sparse build, the offset arrays are monotonically
non-decreasing with final entry paritycheck_sum, and the entries of each
row slice of ci and each column slice of vi are strictly ascending.
Stated for every code and every table whose TC prototype has no HS cell
with rotation divisible by M (such a cell would make the builder emit a
duplicate) and whose total emission count is paritycheck_sum (the weight
of the real, compiled-in tables; the tables themselves are not in src/). -/
theorem c7_sparse_invariants (c : LDPCCode) (T : Tables)
    (hdeg : c.isTC = true → ∀ cb vb, ¬(tcProtoOf c T cb vb &&& HS = HS ∧
      (tcProtoOf c T cb vb &&& 0x3F) % c.submatrix_size = 0))
    (hS : ((List.range (c.n - c.k + c.punctured_bits)).flatMap (rowOf c T)).length
      = c.paritycheck_sum) :
    (∀ a b, a ≤ b → b ≤ c.n - c.k + c.punctured_bits →
      (sparseChecks c T).2.getD a 0 ≤ (sparseChecks c T).2.getD b 0) ∧
    (sparseChecks c T).2.getD (c.n - c.k + c.punctured_bits) 0
      = c.paritycheck_sum ∧
    (∀ r, r < c.n - c.k + c.punctured_bits →
      (sliceOf (sparseChecks c T).1 ((sparseChecks c T).2.getD r 0)
        ((sparseChecks c T).2.getD (r + 1) 0)).Pairwise (· < ·)) ∧
    (∀ a b, a ≤ b → b ≤ c.n + c.punctured_bits →
      (sparseVariables c (sparseChecks c T).1 (sparseChecks c T).2).2.getD a 0
        ≤ (sparseVariables c (sparseChecks c T).1 (sparseChecks c T).2).2.getD b 0) ∧
    (sparseVariables c (sparseChecks c T).1 (sparseChecks c T).2).2.getD
        (c.n + c.punctured_bits) 0 = c.paritycheck_sum ∧
    (∀ v, v < c.n + c.punctured_bits →
      (sliceOf (sparseVariables c (sparseChecks c T).1 (sparseChecks c T).2).1
        ((sparseVariables c (sparseChecks c T).1 (sparseChecks c T).2).2.getD v 0)
        ((sparseVariables c (sparseChecks c T).1
          (sparseChecks c T).2).2.getD (v + 1) 0)).Pairwise (· < ·)) := by
  have hck := sparseChecks_eq c T
  have hci : (sparseChecks c T).1
      = (List.range (c.n - c.k + c.punctured_bits)).flatMap (rowOf c T) := by
    rw [hck]
  have hcs : (sparseChecks c T).2
      = marksOf (rowOf c T) (c.n - c.k + c.punctured_bits) := by
    rw [hck]
  have hvv := variables_eq c (sparseChecks c T).1 (sparseChecks c T).2
  have hvi : (sparseVariables c (sparseChecks c T).1 (sparseChecks c T).2).1
      = (List.range (c.n + c.punctured_bits)).flatMap
        (varRow c (sparseChecks c T).1 (sparseChecks c T).2) := by
    rw [hvv]
  have hvs : (sparseVariables c (sparseChecks c T).1 (sparseChecks c T).2).2
      = marksOf (varRow c (sparseChecks c T).1 (sparseChecks c T).2)
        (c.n + c.punctured_bits) := by
    rw [hvv]
    rfl
  have hslice : ∀ r, r < c.n - c.k + c.punctured_bits →
      sliceOf (sparseChecks c T).1 ((sparseChecks c T).2.getD r 0)
        ((sparseChecks c T).2.getD (r + 1) 0) = rowOf c T r := by
    intro r hr
    rw [hci, hcs, marksOf_getD _ _ r (by omega), marksOf_getD _ _ (r + 1) (by omega)]
    exact slice_flatMap_row _ _ r hr
  have hslices_all : ∀ ch,
      (sliceOf (sparseChecks c T).1 ((sparseChecks c T).2.getD ch 0)
        ((sparseChecks c T).2.getD (ch + 1) 0)).Pairwise (· < ·) := by
    intro ch
    rcases Nat.lt_or_ge ch (c.n - c.k + c.punctured_bits) with h | h
    · rw [hslice ch h]
      exact rowOf_sorted c T ch hdeg
    · have hz : (sparseChecks c T).2.getD (ch + 1) 0 = 0 := by
        rw [hcs]
        refine List.getD_eq_default _ _ ?_
        unfold marksOf
        simp
        omega
      rw [hz]
      unfold sliceOf
      simp
  refine ⟨?_, ?_, ?_, ?_, ?_, ?_⟩
  · intro a b hab hbN
    rw [hcs, marksOf_getD _ _ a (Nat.le_trans hab hbN), marksOf_getD _ _ b hbN]
    exact prefix_len_mono _ a b hab
  · rw [hcs, marksOf_getD _ _ _ (Nat.le_refl _)]
    exact hS
  · intro r hr
    rw [hslice r hr]
    exact rowOf_sorted c T r hdeg
  · intro a b hab hbN
    rw [hvs, marksOf_getD _ _ a (Nat.le_trans hab hbN), marksOf_getD _ _ b hbN]
    exact prefix_len_mono _ a b hab
  · rw [hvs, marksOf_getD _ _ _ (Nat.le_refl _)]
    have h1 : ((List.range (c.n + c.punctured_bits)).flatMap
        (varRow c (sparseChecks c T).1 (sparseChecks c T).2)).length
        = ∑ v ∈ Finset.range (c.n + c.punctured_bits),
            (varRow c (sparseChecks c T).1 (sparseChecks c T).2 v).length := by
      rw [List.length_flatMap, sum_map_range]
      rfl
    have h2 : ∀ v, (varRow c (sparseChecks c T).1 (sparseChecks c T).2 v).length
        = ∑ ch ∈ Finset.range (c.n - c.k + c.punctured_bits),
          (sliceOf (sparseChecks c T).1 ((sparseChecks c T).2.getD ch 0)
            ((sparseChecks c T).2.getD (ch + 1) 0)).countP
              fun x => decide (x = v) := by
      intro v
      unfold varRow
      rw [List.length_flatMap, sum_map_range]
      exact Finset.sum_congr rfl (fun ch _ => length_filter_flatMap _ v ch)
    rw [h1]
    rw [Finset.sum_congr rfl (fun v _ => h2 v), Finset.sum_comm]
    have h3 : ∀ ch ∈ Finset.range (c.n - c.k + c.punctured_bits),
        (∑ v ∈ Finset.range (c.n + c.punctured_bits),
          (sliceOf (sparseChecks c T).1 ((sparseChecks c T).2.getD ch 0)
            ((sparseChecks c T).2.getD (ch + 1) 0)).countP
              fun x => decide (x = v))
        = (rowOf c T ch).length := by
      intro ch hch
      rw [hslice ch (Finset.mem_range.mp hch)]
      exact sum_countP_eq_length _ _ (fun x hx => rowOf_lt c T ch x hx)
    have hS2 : ∑ ch ∈ Finset.range (c.n - c.k + c.punctured_bits),
        (rowOf c T ch).length = c.paritycheck_sum := by
      rw [← hS, List.length_flatMap, sum_map_range]
      rfl
    rw [Finset.sum_congr rfl h3]
    exact hS2
  · intro v hv
    rw [hvi, hvs, marksOf_getD _ _ v (by omega), marksOf_getD _ _ (v + 1) (by omega),
      slice_flatMap_row _ _ v hv]
    exact varRow_sorted c (sparseChecks c T).1 (sparseChecks c T).2 v hslices_all

/-- A table whose TC128 prototype flags every cell HI with rotation 0: no
cell has both flags, and each of the 64 checks matches exactly the 8
variables of its own block, for 512 edges in total. -/
def allHITables : Tables :=
  { tc128H := fun _ _ => 0x40, tc256H := fun _ _ => 0, tc512H := fun _ _ => 0,
    tmR12H := fun _ _ _ => 0, tmR23H := fun _ _ _ => 0, tmR45H := fun _ _ _ => 0,
    thetaK := fun _ => 0, phiJK := fun _ _ _ => 0 }

set_option maxRecDepth 8000 in
/-- Witness for claim C7: TC128 with the all-HI table.  No cell carries both
flags, the total emission count is 512 = paritycheck_sum, and both offset
arrays end at 512. -/
theorem c7_sparse_invariants_witness :
    (sparseChecks LDPCCode.TC128 allHITables).2.getD
        (LDPCCode.TC128.n - LDPCCode.TC128.k + LDPCCode.TC128.punctured_bits) 0
      = LDPCCode.TC128.paritycheck_sum ∧
    (sparseVariables LDPCCode.TC128 (sparseChecks LDPCCode.TC128 allHITables).1
        (sparseChecks LDPCCode.TC128 allHITables).2).2.getD
        (LDPCCode.TC128.n + LDPCCode.TC128.punctured_bits) 0
      = LDPCCode.TC128.paritycheck_sum := by
  have hdeg : LDPCCode.TC128.isTC = true → ∀ cb vb,
      ¬(tcProtoOf LDPCCode.TC128 allHITables cb vb &&& HS = HS ∧
        (tcProtoOf LDPCCode.TC128 allHITables cb vb &&& 0x3F)
          % LDPCCode.TC128.submatrix_size = 0) := by
    intro _ cb vb
    show ¬((0x40 : Nat) &&& HS = HS ∧ ((0x40 : Nat) &&& 0x3F) % 16 = 0)
    decide
  have hlog : Nat.log2 16 = 4 := by
    rw [show (16 : Nat) = 2 ^ 4 from rfl, Nat.log2_two_pow]
  have hrow : rowOf LDPCCode.TC128 allHITables
      = tcRow 128 (Nat.log2 16) 15 (tcProtoOf LDPCCode.TC128 allHITables) := rfl
  have hS : ((List.range (LDPCCode.TC128.n - LDPCCode.TC128.k
        + LDPCCode.TC128.punctured_bits)).flatMap
          (rowOf LDPCCode.TC128 allHITables)).length
      = LDPCCode.TC128.paritycheck_sum := by
    show ((List.range 64).flatMap (rowOf LDPCCode.TC128 allHITables)).length = 512
    rw [hrow, hlog]
    decide
  have h := c7_sparse_invariants LDPCCode.TC128 allHITables hdeg hS
  exact ⟨h.2.1, h.2.2.2.2.1⟩

/-! ## Claim C3: sparse/dense equivalence -/

/-- Parity law for an arbitrary all-XOR event list: the final bit at any
key is the initial bit XORed with the parity of the number of events
hitting that key. -/
theorem bitAt_applyEvs_xor_all (evs : List WEvent)
    (hx : ∀ e ∈ evs, e.isOr = false) (kk : Nat × Nat) :
    ∀ h : Nat → Nat,
      bitAt (applyEvs h evs) kk = (bitAt h kk).xor (oddb (countKey evs kk)) := by
  induction evs with
  | nil => intro h; simp [applyEvs, countKey, oddb]
  | cons e rest ih =>
      intro h
      show bitAt (applyEvs (applyEv h e) rest) kk = _
      rw [ih (fun x hx1 => hx x (List.mem_cons_of_mem _ hx1)) (applyEv h e)]
      have hcc : countKey (e :: rest) kk
          = countKey [e] kk + countKey rest kk := by
        show countKey ([e] ++ rest) kk = _
        rw [countKey_append]
      by_cases hke : evKey e = kk
      · rw [bitAt_applyEv_eq_xor h e (hx e (List.mem_cons_self e rest)) kk hke,
          hcc, countKey_eq_length [e] kk (by simpa using hke),
          List.length_singleton, oddb_add]
        cases bitAt h kk <;> cases oddb (countKey rest kk) <;> simp [oddb]
      · rw [bitAt_applyEv_ne h e kk hke, hcc,
          countKey_eq_zero [e] kk (by simpa using hke), Nat.zero_add]

theorem countKey_flatMap {α : Type} (l : List α) (f : α → List WEvent)
    (kk : Nat × Nat) :
    countKey (l.flatMap f) kk = (l.map fun x => countKey (f x) kk).sum := by
  induction l with
  | nil => rfl
  | cons x xs ih =>
      rw [List.flatMap_cons, countKey_append, List.map_cons, List.sum_cons, ih]

/-- Counting over a range when only one index can satisfy the predicate. -/
theorem countP_range_at (m i0 : Nat) (hi0 : i0 < m) (P : Nat → Bool)
    (hz : ∀ i, i < m → i ≠ i0 → P i = false) :
    (List.range m).countP P = if P i0 then 1 else 0 := by
  induction m with
  | zero => omega
  | succ k ih =>
      rw [List.range_succ, List.countP_append]
      by_cases hk : i0 = k
      · subst hk
        have h1 : (List.range i0).countP P = 0 := by
          rw [List.countP_eq_zero]
          intro a ha
          simp only [List.mem_range] at ha
          simp [hz a (by omega) (by omega)]
        rw [h1, Nat.zero_add]
        simp [List.countP_cons]
      · have h2 : P k = false := hz k (by omega) (Ne.symm hk)
        rw [ih (by omega) (fun i hi hne => hz i (by omega) hne)]
        simp [List.countP_cons, h2]

theorem sum_map_range_single (N i0 : Nat) (f : Nat → Nat) (hi0 : i0 < N)
    (hz : ∀ i, i < N → i ≠ i0 → f i = 0) :
    ((List.range N).map f).sum = f i0 := by
  rw [sum_map_range]
  exact Finset.sum_eq_single_of_mem i0 (Finset.mem_range.mpr hi0)
    (fun b hb hne => hz b (Finset.mem_range.mp hb) hne)

theorem sum_map_range_zero (N : Nat) (f : Nat → Nat)
    (hz : ∀ i, i < N → f i = 0) :
    ((List.range N).map f).sum = 0 := by
  rw [sum_map_range]
  exact Finset.sum_eq_zero (fun b hb => hz b (Finset.mem_range.mp hb))

/-- Uniqueness of Euclidean decomposition a*W + b with b < W. -/
theorem mul_add_cancel_div (a b a2 b2 W : Nat) (hb : b < W) (hb2 : b2 < W)
    (h : a * W + b = a2 * W + b2) : a = a2 ∧ b = b2 := by
  have hW : 0 < W := by omega
  have h1 : (a * W + b) / W = a := by
    rw [Nat.mul_comm, Nat.mul_add_div hW, Nat.div_eq_of_lt hb, Nat.add_zero]
  have h2 : (a2 * W + b2) / W = a2 := by
    rw [Nat.mul_comm, Nat.mul_add_div hW, Nat.div_eq_of_lt hb2, Nat.add_zero]
  have h3 : (a * W + b) % W = b := by
    rw [Nat.add_mod, Nat.mul_mod_left, Nat.zero_add, Nat.mod_mod_of_dvd,
      Nat.mod_eq_of_lt hb]
    exact Nat.dvd_refl W
  have h4 : (a2 * W + b2) % W = b2 := by
    rw [Nat.add_mod, Nat.mul_mod_left, Nat.zero_add, Nat.mod_mod_of_dvd,
      Nat.mod_eq_of_lt hb2]
    exact Nat.dvd_refl W
  constructor
  · rw [← h1, ← h2, h]
  · rw [← h3, ← h4, h]

/-- The (word index, shift) key of bit (r, c) in the packed row-major
layout with `hcols` columns. -/
def kRC (hcols r c : Nat) : Nat × Nat :=
  (r * (hcols / 32) + c / 32, 31 - c % 32)

theorem kRC_inj (hcols r c r2 c2 : Nat) (hW : 32 ∣ hcols)
    (hc : c < hcols) (hc2 : c2 < hcols)
    (h : kRC hcols r c = kRC hcols r2 c2) : r = r2 ∧ c = c2 := by
  obtain ⟨W, rfl⟩ := hW
  have hW0 : 0 < W := by
    rcases Nat.eq_zero_or_pos W with h0 | h0
    · subst h0; omega
    · exact h0
  have hWd : 32 * W / 32 = W := by omega
  have hidx : r * W + c / 32 = r2 * W + c2 / 32 := by
    have := congrArg Prod.fst h
    simpa [kRC, hWd] using this
  have hsh : 31 - c % 32 = 31 - c2 % 32 := by
    have := congrArg Prod.snd h
    simpa [kRC] using this
  have hm : c % 32 = c2 % 32 := by omega
  have hd1 : c / 32 < W := by omega
  have hd2 : c2 / 32 < W := by omega
  obtain ⟨hre, hde⟩ := mul_add_cancel_div r (c / 32) r2 (c2 / 32) W hd1 hd2 hidx
  exact ⟨hre, by omega⟩

/-- The single XOR write event of one row `i` of one flagged cell of
`init_paritycheck_tm_sub`, with the source's index and shift
expressions. -/
def tmEv (theta : Nat → Nat) (phiM : Nat → Nat → Nat)
    (m col0 hcols subm v w i : Nat) : WEvent :=
  let j := tmDenseCol theta phiM m subm i
  ⟨false, v * m * hcols / 32 + i * hcols / 32 + col0 / 32 + w * m / 32 + j / 32,
    31 - j % 32⟩

/-- All write events of one `init_paritycheck_tm_sub` call, in execution
order. -/
def tmSubEvents (theta : Nat → Nat) (phiM : Nat → Nat → Nat)
    (m col0 pwidth hcols : Nat) (P : Nat → Nat → Nat → Nat) : List WEvent :=
  (List.range 3).flatMap fun pm =>
    (List.range 3).flatMap fun v =>
      (List.range pwidth).flatMap fun w =>
        if P pm v w &&& HP = HP ∨ P pm v w &&& HI = HI then
          (List.range m).flatMap fun i =>
            [tmEv theta phiM m col0 hcols (P pm v w) v w i]
        else []

/-- The TM overlay expander is the application of its event list. -/
theorem init_paritycheck_tm_sub_eq (c : LDPCCode) (T : Tables) (h : Nat → Nat)
    (col0 pwidth hcols : Nat) (P : Nat → Nat → Nat → Nat) :
    init_paritycheck_tm_sub c T h col0 pwidth hcols P
      = applyEvs h (tmSubEvents T.thetaK (T.phiJK c.submatrix_size)
          c.submatrix_size col0 pwidth hcols P) := by
  unfold init_paritycheck_tm_sub tmSubEvents
  refine foldl_writes_eq _ _ _ ?_ h
  intro h pm
  refine foldl_writes_eq _ _ _ ?_ h
  intro h v
  refine foldl_writes_eq _ _ _ ?_ h
  intro h w
  by_cases hf : P pm v w &&& HP = HP ∨ P pm v w &&& HI = HI
  · rw [if_pos hf, if_pos hf]
    refine foldl_writes_eq _ _ _ ?_ h
    intro h i
    rfl
  · rw [if_neg hf, if_neg hf]
    rfl

theorem tmSubEvents_isOr (theta : Nat → Nat) (phiM : Nat → Nat → Nat)
    (m col0 pwidth hcols : Nat) (P : Nat → Nat → Nat → Nat) :
    ∀ e ∈ tmSubEvents theta phiM m col0 pwidth hcols P, e.isOr = false := by
  intro e he
  unfold tmSubEvents at he
  obtain ⟨pm, _, he⟩ := List.mem_flatMap.mp he
  obtain ⟨v, _, he⟩ := List.mem_flatMap.mp he
  obtain ⟨w, _, he⟩ := List.mem_flatMap.mp he
  by_cases hf : P pm v w &&& HP = HP ∨ P pm v w &&& HI = HI
  · rw [if_pos hf] at he
    obtain ⟨i, _, he⟩ := List.mem_flatMap.mp he
    rw [List.mem_singleton.mp he]
    rfl
  · rw [if_neg hf] at he
    cases he

/-- The permutation column stays inside the sub-matrix block. -/
theorem piDense_lt (theta : Nat → Nat) (phiM : Nat → Nat → Nat)
    (m kk i : Nat) (hm : 4 ≤ m) : piDense theta phiM m kk i < m := by
  unfold piDense
  have h2 : (phiM (4 * i / m) (kk - 1) + i) % (m / 4) < m / 4 :=
    Nat.mod_lt _ (by omega)
  have h3 : m / 4 * ((theta (kk - 1) + 4 * i / m) % 4) ≤ m / 4 * 3 :=
    Nat.mul_le_mul_left _ (by omega)
  have h4 : m / 4 * 4 ≤ m := Nat.div_mul_le_self m 4
  have h5 : m / 4 * ((theta (kk - 1) + 4 * i / m) % 4)
      + (phiM (4 * i / m) (kk - 1) + i) % (m / 4)
      ≤ m / 4 * 3 + (m / 4 - 1) := Nat.add_le_add h3 (by omega)
  exact Nat.lt_of_le_of_lt h5 (by omega)

/-- The generated column of any cell stays inside its sub-matrix block. -/
theorem tmDenseCol_lt (theta : Nat → Nat) (phiM : Nat → Nat → Nat)
    (m subm i : Nat) (hm : 4 ≤ m) (hi : i < m) :
    tmDenseCol theta phiM m subm i < m := by
  unfold tmDenseCol
  by_cases hp : subm &&& HP = HP
  · rw [if_pos hp]
    exact piDense_lt theta phiM m (subm &&& 0x3F) i hm
  · rw [if_neg hp]
    exact hi

/-- The key of a TM write event, in packed (row, column) form. -/
theorem tmEv_key (theta : Nat → Nat) (phiM : Nat → Nat → Nat)
    (m col0 hcols subm v w i : Nat) (h32m : 32 ∣ m) (h32c : 32 ∣ col0)
    (h32h : 32 ∣ hcols) :
    evKey (tmEv theta phiM m col0 hcols subm v w i)
      = kRC hcols (v * m + i) (col0 + w * m + tmDenseCol theta phiM m subm i) := by
  obtain ⟨m2, rfl⟩ := h32m
  obtain ⟨c2, rfl⟩ := h32c
  obtain ⟨h2, rfl⟩ := h32h
  unfold tmEv kRC evKey
  simp only [Prod.mk.injEq]
  refine ⟨?_, ?_⟩
  · show v * (32 * m2) * (32 * h2) / 32 + i * (32 * h2) / 32 + 32 * c2 / 32
        + w * (32 * m2) / 32 + tmDenseCol theta phiM (32 * m2) subm i / 32
      = (v * (32 * m2) + i) * (32 * h2 / 32)
        + (32 * c2 + w * (32 * m2) + tmDenseCol theta phiM (32 * m2) subm i) / 32
    have e1 : v * (32 * m2) * (32 * h2) / 32 = v * (32 * m2) * h2 := by
      rw [Nat.mul_comm 32 h2, ← Nat.mul_assoc, Nat.mul_div_cancel _ (by omega)]
    have e2 : i * (32 * h2) / 32 = i * h2 := by
      rw [Nat.mul_comm 32 h2, ← Nat.mul_assoc, Nat.mul_div_cancel _ (by omega)]
    have e3 : 32 * h2 / 32 = h2 := by omega
    have e4 : 32 * c2 + w * (32 * m2) = 32 * (c2 + w * m2) := by ring
    have e5 : (32 * c2 + w * (32 * m2) + tmDenseCol theta phiM (32 * m2) subm i) / 32
        = c2 + w * m2 + tmDenseCol theta phiM (32 * m2) subm i / 32 := by
      rw [e4, Nat.mul_add_div (by omega)]
    have e6 : 32 * c2 / 32 = c2 := by omega
    have e7 : w * (32 * m2) / 32 = w * m2 := by
      rw [show w * (32 * m2) = 32 * (w * m2) by ring]
      omega
    rw [e1, e2, e3, e5, e6, e7, Nat.add_mul]
    omega
  · show 31 - tmDenseCol theta phiM (32 * m2) subm i % 32
      = 31 - (32 * c2 + w * (32 * m2) + tmDenseCol theta phiM (32 * m2) subm i) % 32
    rw [show 32 * c2 + w * (32 * m2) = 32 * (c2 + w * m2) by ring,
      Nat.add_comm (32 * (c2 + w * m2)), Nat.add_mul_mod_self_left]

theorem countKey_singleton (e : WEvent) (kk : Nat × Nat) :
    countKey [e] kk = if evKey e = kk then 1 else 0 := by
  unfold countKey
  by_cases h : evKey e = kk <;> simp [h]

/-- How many events of one TM overlay hit the bit (r, c): zero outside the
overlay's column span, and otherwise one per plane whose cell at the
decoded position is flagged and maps row r % M to column (c - col0) % M. -/
theorem countKey_tmSubEvents (theta : Nat → Nat) (phiM : Nat → Nat → Nat)
    (P : Nat → Nat → Nat → Nat) (m col0 pwidth hcols r c : Nat)
    (h32m : 32 ∣ m) (h32c : 32 ∣ col0) (h32h : 32 ∣ hcols) (hm4 : 4 ≤ m)
    (hcb : col0 + pwidth * m ≤ hcols) (hr : r < 3 * m) (hc : c < hcols) :
    countKey (tmSubEvents theta phiM m col0 pwidth hcols P) (kRC hcols r c)
      = if col0 ≤ c ∧ c < col0 + pwidth * m then
          ((List.range 3).map fun pm =>
            if (P pm (r / m) ((c - col0) / m) &&& HP = HP ∨
                P pm (r / m) ((c - col0) / m) &&& HI = HI) ∧
              tmDenseCol theta phiM m (P pm (r / m) ((c - col0) / m)) (r % m)
                = (c - col0) % m
            then 1 else 0).sum
        else 0 := by
  have hm0 : 0 < m := by omega
  have hrm : r % m < m := Nat.mod_lt _ hm0
  have hcell : ∀ pm v w, w < pwidth →
      countKey (if P pm v w &&& HP = HP ∨ P pm v w &&& HI = HI then
          (List.range m).flatMap fun i =>
            [tmEv theta phiM m col0 hcols (P pm v w) v w i]
        else []) (kRC hcols r c)
      = if (P pm v w &&& HP = HP ∨ P pm v w &&& HI = HI) ∧ v = r / m ∧
          col0 + w * m + tmDenseCol theta phiM m (P pm v w) (r % m) = c
        then 1 else 0 := by
    intro pm v w hw
    by_cases hf : P pm v w &&& HP = HP ∨ P pm v w &&& HI = HI
    · rw [if_pos hf, countKey_flatMap]
      have hcl : ∀ i, i < m →
          col0 + w * m + tmDenseCol theta phiM m (P pm v w) i < hcols := by
        intro i hi
        have hj := tmDenseCol_lt theta phiM m (P pm v w) i hm4 hi
        have hw1 : (w + 1) * m ≤ pwidth * m := Nat.mul_le_mul_right m (by omega)
        have hw2 : (w + 1) * m = w * m + m := by ring
        omega
      have hind : ∀ i, i < m →
          countKey [tmEv theta phiM m col0 hcols (P pm v w) v w i]
            (kRC hcols r c)
          = if v = r / m ∧ i = r % m ∧
              col0 + w * m + tmDenseCol theta phiM m (P pm v w) (r % m) = c
            then 1 else 0 := by
        intro i hi
        rw [countKey_singleton, tmEv_key theta phiM m col0 hcols (P pm v w) v w i
          h32m h32c h32h]
        by_cases hkey : kRC hcols (v * m + i)
            (col0 + w * m + tmDenseCol theta phiM m (P pm v w) i) = kRC hcols r c
        · rw [if_pos hkey]
          obtain ⟨hrow, hcol⟩ := kRC_inj hcols (v * m + i) _ r c h32h
            (hcl i hi) hc hkey
          have hvm : v = r / m ∧ i = r % m := by
            refine mul_add_cancel_div v i (r / m) (r % m) m hi hrm ?_
            rw [hrow]
            rw [Nat.mul_comm (r / m) m]
            exact (Nat.div_add_mod r m).symm
          rw [if_pos ⟨hvm.1, hvm.2, by rw [← hvm.2]; exact hcol⟩]
        · rw [if_neg hkey]
          by_cases hcond : v = r / m ∧ i = r % m ∧
              col0 + w * m + tmDenseCol theta phiM m (P pm v w) (r % m) = c
          · exfalso
            apply hkey
            obtain ⟨h1, h2, h3⟩ := hcond
            have hvm : v * m + i = r := by
              rw [h1, h2, Nat.mul_comm (r / m) m]
              exact Nat.div_add_mod r m
            rw [hvm, h2, h3]
          · rw [if_neg hcond]
      by_cases hcond : v = r / m ∧
          col0 + w * m + tmDenseCol theta phiM m (P pm v w) (r % m) = c
      · rw [if_pos ⟨hf, hcond.1, hcond.2⟩]
        rw [sum_map_range_single m (r % m) _ hrm ?_]
        · rw [hind (r % m) hrm, if_pos ⟨hcond.1, rfl, hcond.2⟩]
        · intro i hi hne
          rw [hind i hi, if_neg (fun hh => hne hh.2.1)]
      · rw [if_neg (fun hh => hcond ⟨hh.2.1, hh.2.2⟩)]
        refine sum_map_range_zero m _ ?_
        intro i hi
        rw [hind i hi, if_neg (fun hh => hcond ⟨hh.1, hh.2.2⟩)]
    · rw [if_neg hf, if_neg (fun hh => hf hh.1)]
      rfl
  have htot : countKey (tmSubEvents theta phiM m col0 pwidth hcols P)
      (kRC hcols r c)
      = ((List.range 3).map fun pm =>
          ((List.range 3).map fun v =>
            ((List.range pwidth).map fun w =>
              countKey (if P pm v w &&& HP = HP ∨ P pm v w &&& HI = HI then
                  (List.range m).flatMap fun i =>
                    [tmEv theta phiM m col0 hcols (P pm v w) v w i]
                else []) (kRC hcols r c)).sum).sum).sum := by
    unfold tmSubEvents
    rw [countKey_flatMap]
    refine congrArg List.sum (List.map_congr_left ?_)
    intro pm _
    rw [countKey_flatMap]
    refine congrArg List.sum (List.map_congr_left ?_)
    intro v _
    rw [countKey_flatMap]
  rw [htot]
  by_cases hcov : col0 ≤ c ∧ c < col0 + pwidth * m
  · rw [if_pos hcov]
    have hw0 : (c - col0) / m < pwidth := by
      rw [Nat.div_lt_iff_lt_mul hm0]
      have : pwidth * m = m * pwidth := Nat.mul_comm _ _
      omega
    have hceq : col0 + (c - col0) / m * m + (c - col0) % m = c := by
      have h1 := Nat.div_add_mod (c - col0) m
      have h2 : (c - col0) / m * m = m * ((c - col0) / m) := Nat.mul_comm _ _
      omega
    have hv0 : r / m < 3 := by
      rw [Nat.div_lt_iff_lt_mul hm0]
      omega
    have hinner : ∀ pm,
        ((List.range 3).map fun v =>
          ((List.range pwidth).map fun w =>
            countKey (if P pm v w &&& HP = HP ∨ P pm v w &&& HI = HI then
                (List.range m).flatMap fun i =>
                  [tmEv theta phiM m col0 hcols (P pm v w) v w i]
              else []) (kRC hcols r c)).sum).sum
        = if (P pm (r / m) ((c - col0) / m) &&& HP = HP ∨
              P pm (r / m) ((c - col0) / m) &&& HI = HI) ∧
            tmDenseCol theta phiM m (P pm (r / m) ((c - col0) / m)) (r % m)
              = (c - col0) % m
          then 1 else 0 := by
      intro pm
      rw [sum_map_range_single 3 (r / m) _ hv0 ?_]
      · rw [sum_map_range_single pwidth ((c - col0) / m) _ hw0 ?_]
        · rw [hcell pm (r / m) ((c - col0) / m) hw0]
          by_cases hfl : (P pm (r / m) ((c - col0) / m) &&& HP = HP ∨
              P pm (r / m) ((c - col0) / m) &&& HI = HI) ∧
              tmDenseCol theta phiM m (P pm (r / m) ((c - col0) / m)) (r % m)
                = (c - col0) % m
          · rw [if_pos hfl, if_pos ⟨hfl.1, rfl, by rw [hfl.2]; exact hceq⟩]
          · rw [if_neg hfl, if_neg ?_]
            rintro ⟨hh1, _, hh3⟩
            refine hfl ⟨hh1, ?_⟩
            have hj := tmDenseCol_lt theta phiM m
              (P pm (r / m) ((c - col0) / m)) (r % m) hm4 hrm
            have hj0 : (c - col0) % m < m := Nat.mod_lt _ hm0
            omega
        · intro w hwp hne
          rw [hcell pm (r / m) w hwp]
          rw [if_neg ?_]
          rintro ⟨hh1, _, hh3⟩
          apply hne
          have hj := tmDenseCol_lt theta phiM m (P pm (r / m) w) (r % m) hm4 hrm
          have hj0 : (c - col0) % m < m := Nat.mod_lt _ hm0
          have heq : w * m + tmDenseCol theta phiM m (P pm (r / m) w) (r % m)
              = (c - col0) / m * m + (c - col0) % m := by omega
          exact (mul_add_cancel_div w _ ((c - col0) / m) ((c - col0) % m) m
            hj hj0 heq).1
      · intro v hv3 hne
        refine sum_map_range_zero pwidth _ ?_
        intro w hwp
        rw [hcell pm v w hwp, if_neg (fun hh => hne hh.2.1)]
    refine congrArg List.sum (List.map_congr_left ?_)
    intro pm _
    exact hinner pm
  · rw [if_neg hcov]
    refine sum_map_range_zero 3 _ ?_
    intro pm _
    refine sum_map_range_zero 3 _ ?_
    intro v _
    refine sum_map_range_zero pwidth _ ?_
    intro w hwp
    rw [hcell pm v w hwp]
    rw [if_neg ?_]
    rintro ⟨_, _, hh3⟩
    apply hcov
    have hj := tmDenseCol_lt theta phiM m (P pm v w) (r % m) hm4 hrm
    have hw1 : (w + 1) * m ≤ pwidth * m := Nat.mul_le_mul_right m (by omega)
    have hw2 : (w + 1) * m = w * m + m := by ring
    omega

/-- The number of planes of the overlay covering column `col` whose cell
at the decoded position is flagged and maps row r % M onto column
col % M; the overlay and its block offset are the sparse build's
selection for the column's block. -/
def tmDensePlanes (T : Tables) (q m r col : Nat) : Nat :=
  ((List.range 3).map fun pm =>
    if ((tmSelect T q (col / m)).1 pm (r / m)
          (col / m - (tmSelect T q (col / m)).2) &&& HP = HP ∨
        (tmSelect T q (col / m)).1 pm (r / m)
          (col / m - (tmSelect T q (col / m)).2) &&& HI = HI) ∧
      tmDenseCol T.thetaK (T.phiJK m) m
        ((tmSelect T q (col / m)).1 pm (r / m)
          (col / m - (tmSelect T q (col / m)).2)) (r % m) = col % m
    then 1 else 0).sum

theorem tm_dense_bit_q5 (T : Tables) (m r col : Nat) (h32m : 32 ∣ m)
    (hm4 : 4 ≤ m) (hr : r < 3 * m) (hcol : col < 5 * m) :
    bitAt (applyEvs (fun _ => 0)
        (tmSubEvents T.thetaK (T.phiJK m) m 0 5 (5 * m) T.tmR12H))
      (kRC (5 * m) r col)
      = oddb (tmDensePlanes T 5 m r col) := by
  rw [bitAt_applyEvs_xor_all _ (tmSubEvents_isOr _ _ _ _ _ _ _) _ (fun _ => 0)]
  have hz : bitAt (fun _ => 0) (kRC (5 * m) r col) = false := Nat.zero_testBit _
  rw [hz, Bool.false_xor]
  rw [countKey_tmSubEvents T.thetaK (T.phiJK m) T.tmR12H m 0 5 (5 * m) r col
    h32m (Nat.dvd_zero 32) (h32m.mul_left 5) hm4 (by omega) hr hcol]
  rw [if_pos ⟨Nat.zero_le _, by omega⟩]
  unfold tmDensePlanes
  rw [show tmSelect T 5 (col / m) = (T.tmR12H, 0) from rfl]
  simp only [Nat.sub_zero]

theorem tm_dense_bit_q7 (T : Tables) (m r col : Nat) (h32m : 32 ∣ m)
    (hm4 : 4 ≤ m) (hr : r < 3 * m) (hcol : col < 7 * m) :
    bitAt (applyEvs (fun _ => 0)
        (tmSubEvents T.thetaK (T.phiJK m) m (2 * m) 5 (7 * m) T.tmR12H ++
         tmSubEvents T.thetaK (T.phiJK m) m 0 2 (7 * m) T.tmR23H))
      (kRC (7 * m) r col)
      = oddb (tmDensePlanes T 7 m r col) := by
  have hm0 : 0 < m := by omega
  have hall : ∀ e ∈ tmSubEvents T.thetaK (T.phiJK m) m (2 * m) 5 (7 * m)
      T.tmR12H ++ tmSubEvents T.thetaK (T.phiJK m) m 0 2 (7 * m) T.tmR23H,
      e.isOr = false := by
    intro e he
    rcases List.mem_append.mp he with h | h
    · exact tmSubEvents_isOr _ _ _ _ _ _ _ e h
    · exact tmSubEvents_isOr _ _ _ _ _ _ _ e h
  rw [bitAt_applyEvs_xor_all _ hall _ (fun _ => 0)]
  have hz : bitAt (fun _ => 0) (kRC (7 * m) r col) = false := Nat.zero_testBit _
  rw [hz, Bool.false_xor, countKey_append]
  have hA : 2 * m + 5 * m = 7 * m := by ring
  rw [countKey_tmSubEvents T.thetaK (T.phiJK m) T.tmR12H m (2 * m) 5 (7 * m)
    r col h32m (h32m.mul_left 2) (h32m.mul_left 7) hm4 (by omega) hr hcol]
  rw [countKey_tmSubEvents T.thetaK (T.phiJK m) T.tmR23H m 0 2 (7 * m)
    r col h32m (Nat.dvd_zero 32) (h32m.mul_left 7) hm4
    (by have : 2 * m ≤ 7 * m := Nat.mul_le_mul_right m (by omega); omega)
    hr hcol]
  by_cases h2 : col < 2 * m
  · rw [if_neg (fun hh => by omega), if_pos ⟨Nat.zero_le _, by omega⟩]
    simp only [Nat.zero_add]
    unfold tmDensePlanes
    have hsel : tmSelect T 7 (col / m) = (T.tmR23H, 0) := by
      show (if col / m < 2 then ((T.tmR23H, 0) : (Nat → Nat → Nat → Nat) × Nat)
        else (T.tmR12H, 2)) = (T.tmR23H, 0)
      rw [if_pos ((Nat.div_lt_iff_lt_mul hm0).mpr h2)]
    rw [hsel]
    simp only [Nat.sub_zero]
  · rw [if_pos ⟨by omega, by omega⟩, if_neg (fun hh => by omega)]
    simp only [Nat.add_zero]
    unfold tmDensePlanes
    have hsel : tmSelect T 7 (col / m) = (T.tmR12H, 2) := by
      show (if col / m < 2 then ((T.tmR23H, 0) : (Nat → Nat → Nat → Nat) × Nat)
        else (T.tmR12H, 2)) = (T.tmR12H, 2)
      rw [if_neg (fun hh => h2 ((Nat.div_lt_iff_lt_mul hm0).mp hh))]
    rw [hsel]
    have hle : m * 2 ≤ col := by omega
    have hd : (col - 2 * m) / m = col / m - 2 := by
      rw [show 2 * m = m * 2 from Nat.mul_comm 2 m]
      exact Nat.sub_mul_div col m 2 hle
    have hmm : (col - 2 * m) % m = col % m := by
      rw [show 2 * m = m * 2 from Nat.mul_comm 2 m]
      exact Nat.sub_mul_mod hle
    rw [hd, hmm]

theorem tm_dense_bit_q11 (T : Tables) (m r col : Nat) (h32m : 32 ∣ m)
    (hm4 : 4 ≤ m) (hr : r < 3 * m) (hcol : col < 11 * m) :
    bitAt (applyEvs (fun _ => 0)
        ((tmSubEvents T.thetaK (T.phiJK m) m (6 * m) 5 (11 * m) T.tmR12H ++
          tmSubEvents T.thetaK (T.phiJK m) m (4 * m) 2 (11 * m) T.tmR23H) ++
         tmSubEvents T.thetaK (T.phiJK m) m 0 4 (11 * m) T.tmR45H))
      (kRC (11 * m) r col)
      = oddb (tmDensePlanes T 11 m r col) := by
  have hm0 : 0 < m := by omega
  have hall : ∀ e ∈ (tmSubEvents T.thetaK (T.phiJK m) m (6 * m) 5 (11 * m)
        T.tmR12H ++ tmSubEvents T.thetaK (T.phiJK m) m (4 * m) 2 (11 * m)
        T.tmR23H) ++ tmSubEvents T.thetaK (T.phiJK m) m 0 4 (11 * m) T.tmR45H,
      e.isOr = false := by
    intro e he
    rcases List.mem_append.mp he with h | h
    · rcases List.mem_append.mp h with h | h
      · exact tmSubEvents_isOr _ _ _ _ _ _ _ e h
      · exact tmSubEvents_isOr _ _ _ _ _ _ _ e h
    · exact tmSubEvents_isOr _ _ _ _ _ _ _ e h
  rw [bitAt_applyEvs_xor_all _ hall _ (fun _ => 0)]
  have hz : bitAt (fun _ => 0) (kRC (11 * m) r col) = false := Nat.zero_testBit _
  rw [hz, Bool.false_xor, countKey_append, countKey_append]
  have hA : 6 * m + 5 * m = 11 * m := by ring
  have hB : 4 * m + 2 * m = 6 * m := by ring
  have hC : 4 * m ≤ 11 * m := Nat.mul_le_mul_right m (by omega)
  rw [countKey_tmSubEvents T.thetaK (T.phiJK m) T.tmR12H m (6 * m) 5 (11 * m)
    r col h32m (h32m.mul_left 6) (h32m.mul_left 11) hm4 (by omega) hr hcol]
  rw [countKey_tmSubEvents T.thetaK (T.phiJK m) T.tmR23H m (4 * m) 2 (11 * m)
    r col h32m (h32m.mul_left 4) (h32m.mul_left 11) hm4 (by omega) hr hcol]
  rw [countKey_tmSubEvents T.thetaK (T.phiJK m) T.tmR45H m 0 4 (11 * m)
    r col h32m (Nat.dvd_zero 32) (h32m.mul_left 11) hm4 (by omega) hr hcol]
  by_cases h4 : col < 4 * m
  · rw [if_neg (fun hh => by omega), if_neg (fun hh => by omega),
      if_pos ⟨Nat.zero_le _, by omega⟩]
    simp only [Nat.zero_add]
    unfold tmDensePlanes
    have hsel : tmSelect T 11 (col / m) = (T.tmR45H, 0) := by
      show (if col / m < 4 then ((T.tmR45H, 0) : (Nat → Nat → Nat → Nat) × Nat)
        else if col / m < 6 then (T.tmR23H, 4) else (T.tmR12H, 6))
        = (T.tmR45H, 0)
      rw [if_pos ((Nat.div_lt_iff_lt_mul hm0).mpr h4)]
    rw [hsel]
    simp only [Nat.sub_zero]
  · by_cases h6 : col < 6 * m
    · rw [if_neg (fun hh => by omega), if_pos ⟨by omega, by omega⟩,
        if_neg (fun hh => by omega)]
      simp only [Nat.zero_add, Nat.add_zero]
      unfold tmDensePlanes
      have hsel : tmSelect T 11 (col / m) = (T.tmR23H, 4) := by
        show (if col / m < 4 then ((T.tmR45H, 0) : (Nat → Nat → Nat → Nat) × Nat)
          else if col / m < 6 then (T.tmR23H, 4) else (T.tmR12H, 6))
          = (T.tmR23H, 4)
        rw [if_neg (fun hh => h4 ((Nat.div_lt_iff_lt_mul hm0).mp hh)),
          if_pos ((Nat.div_lt_iff_lt_mul hm0).mpr h6)]
      rw [hsel]
      have hle : m * 4 ≤ col := by omega
      have hd : (col - 4 * m) / m = col / m - 4 := by
        rw [show 4 * m = m * 4 from Nat.mul_comm 4 m]
        exact Nat.sub_mul_div col m 4 hle
      have hmm : (col - 4 * m) % m = col % m := by
        rw [show 4 * m = m * 4 from Nat.mul_comm 4 m]
        exact Nat.sub_mul_mod hle
      rw [hd, hmm]
    · rw [if_pos ⟨by omega, by omega⟩, if_neg (fun hh => by omega),
        if_neg (fun hh => by omega)]
      simp only [Nat.add_zero]
      unfold tmDensePlanes
      have hsel : tmSelect T 11 (col / m) = (T.tmR12H, 6) := by
        show (if col / m < 4 then ((T.tmR45H, 0) : (Nat → Nat → Nat → Nat) × Nat)
          else if col / m < 6 then (T.tmR23H, 4) else (T.tmR12H, 6))
          = (T.tmR12H, 6)
        rw [if_neg (fun hh => h4 ((Nat.div_lt_iff_lt_mul hm0).mp hh)),
          if_neg (fun hh => h6 ((Nat.div_lt_iff_lt_mul hm0).mp hh))]
      rw [hsel]
      have hle : m * 6 ≤ col := by omega
      have hd : (col - 6 * m) / m = col / m - 6 := by
        rw [show 6 * m = m * 6 from Nat.mul_comm 6 m]
        exact Nat.sub_mul_div col m 6 hle
      have hmm : (col - 6 * m) % m = col % m := by
        rw [show 6 * m = m * 6 from Nat.mul_comm 6 m]
        exact Nat.sub_mul_mod hle
      rw [hd, hmm]

/-- The dense TM expander's bit (r, col) on a zero buffer is the parity of
the flagged-and-matching planes of the overlay covering col. -/
theorem tm_dense_bit (c : LDPCCode) (T : Tables) (hc : c.isTC = false)
    (r col : Nat) (hr : r < c.n - c.k + c.punctured_bits)
    (hcol : col < c.n + c.punctured_bits) :
    bitAt (init_paritycheck_tm c T (fun _ => 0))
      (kRC (c.n + c.punctured_bits) r col)
      = oddb (tmDensePlanes T ((c.n + c.punctured_bits) / c.submatrix_size)
          c.submatrix_size r col) := by
  cases c
  case TC128 => exact absurd hc (by decide)
  case TC256 => exact absurd hc (by decide)
  case TC512 => exact absurd hc (by decide)
  case TM2048 =>
    have he : init_paritycheck_tm LDPCCode.TM2048 T (fun _ => 0)
        = applyEvs (fun _ => 0)
          (tmSubEvents T.thetaK (T.phiJK 512) 512 0 5 (5 * 512) T.tmR12H) := by
      show init_paritycheck_tm_sub LDPCCode.TM2048 T (fun _ => 0) 0 5 (5 * 512)
          T.tmR12H = _
      rw [init_paritycheck_tm_sub_eq]
      rfl
    rw [he]
    exact tm_dense_bit_q5 T 512 r col ⟨16, rfl⟩ (by omega) hr hcol
  case TM8192 =>
    have he : init_paritycheck_tm LDPCCode.TM8192 T (fun _ => 0)
        = applyEvs (fun _ => 0)
          (tmSubEvents T.thetaK (T.phiJK 2048) 2048 0 5 (5 * 2048) T.tmR12H) := by
      show init_paritycheck_tm_sub LDPCCode.TM8192 T (fun _ => 0) 0 5 (5 * 2048)
          T.tmR12H = _
      rw [init_paritycheck_tm_sub_eq]
      rfl
    rw [he]
    exact tm_dense_bit_q5 T 2048 r col ⟨64, rfl⟩ (by omega) hr hcol
  case TM1536 =>
    have he : init_paritycheck_tm LDPCCode.TM1536 T (fun _ => 0)
        = applyEvs (fun _ => 0)
          (tmSubEvents T.thetaK (T.phiJK 256) 256 (2 * 256) 5 (7 * 256)
            T.tmR12H ++
           tmSubEvents T.thetaK (T.phiJK 256) 256 0 2 (7 * 256) T.tmR23H) := by
      show init_paritycheck_tm_sub LDPCCode.TM1536 T
          (init_paritycheck_tm_sub LDPCCode.TM1536 T (fun _ => 0) (2 * 256) 5
            (7 * 256) T.tmR12H) 0 2 (7 * 256) T.tmR23H = _
      rw [init_paritycheck_tm_sub_eq, init_paritycheck_tm_sub_eq,
        ← applyEvs_append]
      rfl
    rw [he]
    exact tm_dense_bit_q7 T 256 r col ⟨8, rfl⟩ (by omega) hr hcol
  case TM6144 =>
    have he : init_paritycheck_tm LDPCCode.TM6144 T (fun _ => 0)
        = applyEvs (fun _ => 0)
          (tmSubEvents T.thetaK (T.phiJK 1024) 1024 (2 * 1024) 5 (7 * 1024)
            T.tmR12H ++
           tmSubEvents T.thetaK (T.phiJK 1024) 1024 0 2 (7 * 1024) T.tmR23H) := by
      show init_paritycheck_tm_sub LDPCCode.TM6144 T
          (init_paritycheck_tm_sub LDPCCode.TM6144 T (fun _ => 0) (2 * 1024) 5
            (7 * 1024) T.tmR12H) 0 2 (7 * 1024) T.tmR23H = _
      rw [init_paritycheck_tm_sub_eq, init_paritycheck_tm_sub_eq,
        ← applyEvs_append]
      rfl
    rw [he]
    exact tm_dense_bit_q7 T 1024 r col ⟨32, rfl⟩ (by omega) hr hcol
  case TM1280 =>
    have he : init_paritycheck_tm LDPCCode.TM1280 T (fun _ => 0)
        = applyEvs (fun _ => 0)
          ((tmSubEvents T.thetaK (T.phiJK 128) 128 (6 * 128) 5 (11 * 128)
              T.tmR12H ++
            tmSubEvents T.thetaK (T.phiJK 128) 128 (4 * 128) 2 (11 * 128)
              T.tmR23H) ++
           tmSubEvents T.thetaK (T.phiJK 128) 128 0 4 (11 * 128) T.tmR45H) := by
      show init_paritycheck_tm_sub LDPCCode.TM1280 T
          (init_paritycheck_tm_sub LDPCCode.TM1280 T
            (init_paritycheck_tm_sub LDPCCode.TM1280 T (fun _ => 0) (6 * 128) 5
              (11 * 128) T.tmR12H) (4 * 128) 2 (11 * 128) T.tmR23H)
          0 4 (11 * 128) T.tmR45H = _
      rw [init_paritycheck_tm_sub_eq, init_paritycheck_tm_sub_eq,
        init_paritycheck_tm_sub_eq, ← applyEvs_append, ← applyEvs_append,
        ← List.append_assoc]
      rfl
    rw [he]
    exact tm_dense_bit_q11 T 128 r col ⟨4, rfl⟩ (by omega) hr hcol
  case TM5120 =>
    have he : init_paritycheck_tm LDPCCode.TM5120 T (fun _ => 0)
        = applyEvs (fun _ => 0)
          ((tmSubEvents T.thetaK (T.phiJK 512) 512 (6 * 512) 5 (11 * 512)
              T.tmR12H ++
            tmSubEvents T.thetaK (T.phiJK 512) 512 (4 * 512) 2 (11 * 512)
              T.tmR23H) ++
           tmSubEvents T.thetaK (T.phiJK 512) 512 0 4 (11 * 512) T.tmR45H) := by
      show init_paritycheck_tm_sub LDPCCode.TM5120 T
          (init_paritycheck_tm_sub LDPCCode.TM5120 T
            (init_paritycheck_tm_sub LDPCCode.TM5120 T (fun _ => 0) (6 * 512) 5
              (11 * 512) T.tmR12H) (4 * 512) 2 (11 * 512) T.tmR23H)
          0 4 (11 * 512) T.tmR45H = _
      rw [init_paritycheck_tm_sub_eq, init_paritycheck_tm_sub_eq,
        init_paritycheck_tm_sub_eq, ← applyEvs_append, ← applyEvs_append,
        ← List.append_assoc]
      rfl
    rw [he]
    exact tm_dense_bit_q11 T 512 r col ⟨16, rfl⟩ (by omega) hr hcol

theorem mem_if_singleton (v x : Nat) (c1 : Prop) [Decidable c1] :
    v ∈ (if c1 then [x] else []) ↔ c1 ∧ v = x := by
  by_cases h : c1 <;> simp [h]

theorem and_HS_imp_HI (subm : Nat) (h : subm &&& HS = HS) : subm &&& HI = HI := by
  have h2 := congrArg (fun x => x &&& HI) h
  simp only at h2
  rw [Nat.and_assoc] at h2
  have h3 : HS &&& HI = HI := by decide
  rw [h3] at h2
  exact h2

/-- Membership in one TC sparse row is exactly the identity-hit or
rotation-hit condition of the source's two appends. -/
theorem mem_tcRow (n divm modm : Nat) (P : Nat → Nat → Nat) (check v : Nat)
    (hv : v < n) :
    v ∈ tcRow n divm modm P check ↔
      (P (check >>> divm) (v >>> divm) &&& HI = HI ∧
        v &&& modm = check &&& modm) ∨
      (P (check >>> divm) (v >>> divm) &&& HP = HP ∧
        v &&& modm = ((check &&& modm) +
          (P (check >>> divm) (v >>> divm) &&& 0x3F)) &&& modm) := by
  unfold tcRow
  constructor
  · intro hx
    obtain ⟨x, hxr, hg⟩ := List.mem_flatMap.mp hx
    have hvx : v = x := mem_two_if v x _ _ hg
    subst hvx
    rcases List.mem_append.mp hg with h | h
    · exact Or.inl ((mem_if_singleton v v _).mp h).1
    · exact Or.inr ((mem_if_singleton v v _).mp h).1
  · intro hcond
    refine List.mem_flatMap.mpr ⟨v, List.mem_range.mpr hv, ?_⟩
    rcases hcond with h | h
    · exact List.mem_append.mpr (Or.inl ((mem_if_singleton v v _).mpr ⟨h, rfl⟩))
    · exact List.mem_append.mpr (Or.inr ((mem_if_singleton v v _).mpr ⟨h, rfl⟩))

theorem tm_m_pos (c : LDPCCode) (hc : c.isTC = false) :
    0 < c.submatrix_size := by
  cases c <;> first | exact absurd hc (by decide) | decide

/-- Membership in one TM sparse row is exactly the parity-bit condition at
the column's decomposed block address. -/
theorem mem_tmRow (c : LDPCCode) (T : Tables) (check col : Nat)
    (hc : c.isTC = false) (hcol : col < c.n + c.punctured_bits) :
    col ∈ tmRow c T check ↔
      tmPbitGo (tmSelect T ((c.n + c.punctured_bits) / c.submatrix_size)
          (col / c.submatrix_size)).1
        T.thetaK (T.phiJK c.submatrix_size) c.submatrix_size
        (Nat.log2 c.submatrix_size) (c.submatrix_size / 4 - 1) check
        (check &&& (c.submatrix_size - 1))
        (col / c.submatrix_size -
          (tmSelect T ((c.n + c.punctured_bits) / c.submatrix_size)
            (col / c.submatrix_size)).2)
        (col % c.submatrix_size) [0, 1, 2] 0 = 1 := by
  have hm0 : 0 < c.submatrix_size := tm_m_pos c hc
  have hq := tm_qm c hc
  unfold tmRow
  constructor
  · intro hx
    obtain ⟨vb, hvb, hg⟩ := List.mem_flatMap.mp hx
    obtain ⟨bv, hbv, hg2⟩ := List.mem_flatMap.mp hg
    obtain ⟨hpb, hcolx⟩ := (mem_if_singleton col _ _).mp hg2
    have hdec : vb = col / c.submatrix_size ∧ bv = col % c.submatrix_size := by
      refine mul_add_cancel_div vb bv (col / c.submatrix_size)
        (col % c.submatrix_size) c.submatrix_size (List.mem_range.mp hbv)
        (Nat.mod_lt _ hm0) ?_
      rw [← hcolx, Nat.mul_comm (col / c.submatrix_size)]
      exact (Nat.div_add_mod col c.submatrix_size).symm
    rw [hdec.1, hdec.2] at hpb
    exact hpb
  · intro hpb
    refine List.mem_flatMap.mpr ⟨col / c.submatrix_size,
      List.mem_range.mpr ?_, List.mem_flatMap.mpr ⟨col % c.submatrix_size,
        List.mem_range.mpr (Nat.mod_lt _ hm0),
        (mem_if_singleton col _ _).mpr ⟨hpb, ?_⟩⟩⟩
    · rw [Nat.div_lt_iff_lt_mul hm0]
      omega
    · rw [Nat.mul_comm (col / c.submatrix_size)]
      exact (Nat.div_add_mod col c.submatrix_size).symm

/-- The sparse build's pi (shifts and masks) equals the dense expander's pi
(divisions and moduli) for every power-of-two sub-matrix size of at
least 4. -/
theorem piSparse_eq_piDense (theta : Nat → Nat) (phiM : Nat → Nat → Nat)
    (e m kk i : Nat) (hm : m = 2 ^ e) (he : 2 ≤ e) :
    piSparse theta phiM m (Nat.log2 m) (m / 4 - 1) kk i
      = piDense theta phiM m kk i := by
  have hm4 : m / 4 = 2 ^ (e - 2) := by
    rw [hm, show (4 : Nat) = 2 ^ 2 from rfl, Nat.pow_div he (by norm_num)]
  unfold piSparse piDense
  rw [hm4, hm, shiftRight_log2_pow, and_pow_sub_one]

set_option maxHeartbeats 1000000 in
/-- The sparse TM parity bit over the three planes equals the parity of
the dense per-plane hit count, provided no cell carries both flags and a
zero plane cell is never followed by a nonzero one (the source breaks at
the first zero plane). -/
theorem tmPbit_parity (P : Nat → Nat → Nat → Nat) (theta : Nat → Nat)
    (phiM : Nat → Nat → Nat) (e m : Nat) (hm : m = 2 ^ e) (he : 2 ≤ e)
    (check vbr bv : Nat)
    (hnoHS : ∀ pl, ¬(P pl (check >>> Nat.log2 m) vbr &&& HS = HS))
    (hbrk : ∀ pl pl2, pl ≤ pl2 → P pl (check >>> Nat.log2 m) vbr = 0 →
      P pl2 (check >>> Nat.log2 m) vbr = 0) :
    (tmPbitGo P theta phiM m (Nat.log2 m) (m / 4 - 1) check
        (check &&& (m - 1)) vbr bv [0, 1, 2] 0 = 1)
      ↔ oddb (((List.range 3).map fun pm =>
          if (P pm (check >>> Nat.log2 m) vbr &&& HP = HP ∨
              P pm (check >>> Nat.log2 m) vbr &&& HI = HI) ∧
            tmDenseCol theta phiM m (P pm (check >>> Nat.log2 m) vbr)
              (check &&& (m - 1)) = bv
          then 1 else 0).sum) = true := by
  have hstep0 : ∀ pl rest pbit, P pl (check >>> Nat.log2 m) vbr = 0 →
      tmPbitGo P theta phiM m (Nat.log2 m) (m / 4 - 1) check
        (check &&& (m - 1)) vbr bv (pl :: rest) pbit = pbit := by
    intro pl rest pbit hz
    show (if P pl (check >>> Nat.log2 m) vbr = 0 then pbit
      else tmPbitGo P theta phiM m (Nat.log2 m) (m / 4 - 1) check
        (check &&& (m - 1)) vbr bv rest
        (if P pl (check >>> Nat.log2 m) vbr &&& HI = HI then
          (if bv = check &&& (m - 1) then pbit ^^^ 1 else pbit)
        else if P pl (check >>> Nat.log2 m) vbr &&& HP = HP then
          (if bv = piSparse theta phiM m (Nat.log2 m) (m / 4 - 1)
              (P pl (check >>> Nat.log2 m) vbr &&& 0x3F)
              (check &&& (m - 1)) then pbit ^^^ 1 else pbit)
        else pbit)) = pbit
    rw [if_pos hz]
  have hstep : ∀ pl rest pbit, P pl (check >>> Nat.log2 m) vbr ≠ 0 →
      tmPbitGo P theta phiM m (Nat.log2 m) (m / 4 - 1) check
        (check &&& (m - 1)) vbr bv (pl :: rest) pbit
      = tmPbitGo P theta phiM m (Nat.log2 m) (m / 4 - 1) check
          (check &&& (m - 1)) vbr bv rest
          (pbit ^^^ (if (P pl (check >>> Nat.log2 m) vbr &&& HP = HP ∨
              P pl (check >>> Nat.log2 m) vbr &&& HI = HI) ∧
            tmDenseCol theta phiM m (P pl (check >>> Nat.log2 m) vbr)
              (check &&& (m - 1)) = bv then 1 else 0)) := by
    intro pl rest pbit hnz
    show (if P pl (check >>> Nat.log2 m) vbr = 0 then pbit
      else tmPbitGo P theta phiM m (Nat.log2 m) (m / 4 - 1) check
        (check &&& (m - 1)) vbr bv rest
        (if P pl (check >>> Nat.log2 m) vbr &&& HI = HI then
          (if bv = check &&& (m - 1) then pbit ^^^ 1 else pbit)
        else if P pl (check >>> Nat.log2 m) vbr &&& HP = HP then
          (if bv = piSparse theta phiM m (Nat.log2 m) (m / 4 - 1)
              (P pl (check >>> Nat.log2 m) vbr &&& 0x3F)
              (check &&& (m - 1)) then pbit ^^^ 1 else pbit)
        else pbit)) = _
    rw [if_neg hnz]
    congr 1
    by_cases hHI : P pl (check >>> Nat.log2 m) vbr &&& HI = HI
    · have hHP : ¬P pl (check >>> Nat.log2 m) vbr &&& HP = HP :=
        fun hHP => hnoHS pl (and_HI_HP_imp_HS _ hHI hHP)
      have hcol : tmDenseCol theta phiM m (P pl (check >>> Nat.log2 m) vbr)
          (check &&& (m - 1)) = check &&& (m - 1) := by
        unfold tmDenseCol
        rw [if_neg hHP]
      rw [if_pos hHI, hcol]
      by_cases hbvbc : bv = check &&& (m - 1)
      · rw [if_pos hbvbc, if_pos ⟨Or.inr hHI, hbvbc.symm⟩]
      · rw [if_neg hbvbc, if_neg (fun hh => hbvbc hh.2.symm), Nat.xor_zero]
    · rw [if_neg hHI]
      by_cases hHP : P pl (check >>> Nat.log2 m) vbr &&& HP = HP
      · have hcol : tmDenseCol theta phiM m (P pl (check >>> Nat.log2 m) vbr)
            (check &&& (m - 1))
            = piSparse theta phiM m (Nat.log2 m) (m / 4 - 1)
              (P pl (check >>> Nat.log2 m) vbr &&& 0x3F)
              (check &&& (m - 1)) := by
          unfold tmDenseCol
          rw [if_pos hHP,
            piSparse_eq_piDense theta phiM e m _ (check &&& (m - 1)) hm he]
        rw [if_pos hHP]
        by_cases hbv : bv = piSparse theta phiM m (Nat.log2 m) (m / 4 - 1)
            (P pl (check >>> Nat.log2 m) vbr &&& 0x3F) (check &&& (m - 1))
        · rw [if_pos hbv, if_pos ⟨Or.inl hHP, by rw [hcol, ← hbv]⟩]
        · rw [if_neg hbv, if_neg (fun hh => hbv (by rw [← hcol, hh.2])),
            Nat.xor_zero]
      · rw [if_neg hHP, if_neg (fun hh => hh.1.elim hHP hHI), Nat.xor_zero]
  have hFz : ∀ pl, P pl (check >>> Nat.log2 m) vbr = 0 →
      (if (P pl (check >>> Nat.log2 m) vbr &&& HP = HP ∨
          P pl (check >>> Nat.log2 m) vbr &&& HI = HI) ∧
        tmDenseCol theta phiM m (P pl (check >>> Nat.log2 m) vbr)
          (check &&& (m - 1)) = bv then 1 else 0) = 0 := by
    intro pl hz
    rw [if_neg]
    rintro ⟨h1 | h1, _⟩ <;> rw [hz, Nat.zero_and] at h1
    · exact absurd h1.symm (by decide)
    · exact absurd h1.symm (by decide)
  have hnil : ∀ pbit, tmPbitGo P theta phiM m (Nat.log2 m) (m / 4 - 1) check
      (check &&& (m - 1)) vbr bv [] pbit = pbit := fun _ => rfl
  rw [show List.range 3 = [0, 1, 2] from rfl]
  simp only [List.map_cons, List.map_nil, List.sum_cons, List.sum_nil]
  by_cases z0 : P 0 (check >>> Nat.log2 m) vbr = 0
  · have z1 := hbrk 0 1 (by omega) z0
    have z2 := hbrk 0 2 (by omega) z0
    rw [hstep0 0 [1, 2] 0 z0, hFz 0 z0, hFz 1 z1, hFz 2 z2]
    simp [oddb]
  · by_cases z1 : P 1 (check >>> Nat.log2 m) vbr = 0
    · have z2 := hbrk 1 2 (by omega) z1
      rw [hstep 0 [1, 2] 0 z0, hstep0 1 [2] _ z1, hFz 1 z1, hFz 2 z2]
      by_cases hc0 : (P 0 (check >>> Nat.log2 m) vbr &&& HP = HP ∨
          P 0 (check >>> Nat.log2 m) vbr &&& HI = HI) ∧
          tmDenseCol theta phiM m (P 0 (check >>> Nat.log2 m) vbr)
            (check &&& (m - 1)) = bv
      · rw [if_pos hc0]
        simp [oddb]
      · rw [if_neg hc0]
        simp [oddb]
    · by_cases z2 : P 2 (check >>> Nat.log2 m) vbr = 0
      · rw [hstep 0 [1, 2] 0 z0, hstep 1 [2] _ z1, hstep0 2 [] _ z2,
          hFz 2 z2]
        by_cases hc0 : (P 0 (check >>> Nat.log2 m) vbr &&& HP = HP ∨
            P 0 (check >>> Nat.log2 m) vbr &&& HI = HI) ∧
            tmDenseCol theta phiM m (P 0 (check >>> Nat.log2 m) vbr)
              (check &&& (m - 1)) = bv <;>
          by_cases hc1 : (P 1 (check >>> Nat.log2 m) vbr &&& HP = HP ∨
              P 1 (check >>> Nat.log2 m) vbr &&& HI = HI) ∧
              tmDenseCol theta phiM m (P 1 (check >>> Nat.log2 m) vbr)
                (check &&& (m - 1)) = bv
        · rw [if_pos hc0, if_pos hc1]
          simp [oddb]
        · rw [if_pos hc0, if_neg hc1]
          simp [oddb]
        · rw [if_neg hc0, if_pos hc1]
          simp [oddb]
        · rw [if_neg hc0, if_neg hc1]
          simp [oddb]
      · rw [hstep 0 [1, 2] 0 z0, hstep 1 [2] _ z1, hstep 2 [] _ z2]
        by_cases hc0 : (P 0 (check >>> Nat.log2 m) vbr &&& HP = HP ∨
            P 0 (check >>> Nat.log2 m) vbr &&& HI = HI) ∧
            tmDenseCol theta phiM m (P 0 (check >>> Nat.log2 m) vbr)
              (check &&& (m - 1)) = bv <;>
          by_cases hc1 : (P 1 (check >>> Nat.log2 m) vbr &&& HP = HP ∨
              P 1 (check >>> Nat.log2 m) vbr &&& HI = HI) ∧
              tmDenseCol theta phiM m (P 1 (check >>> Nat.log2 m) vbr)
                (check &&& (m - 1)) = bv <;>
          by_cases hc2 : (P 2 (check >>> Nat.log2 m) vbr &&& HP = HP ∨
              P 2 (check >>> Nat.log2 m) vbr &&& HI = HI) ∧
              tmDenseCol theta phiM m (P 2 (check >>> Nat.log2 m) vbr)
                (check &&& (m - 1)) = bv <;>
          simp [hnil, hc0, hc1, hc2, oddb]

theorem tc_pk (c : LDPCCode) (hc : c.isTC = true) :
    c.punctured_bits = 0 ∧ c.n - c.k = 4 * c.submatrix_size ∧
      c.n = 8 * c.submatrix_size := by
  cases c <;> first | exact absurd hc (by decide) | exact ⟨rfl, rfl, rfl⟩

theorem tc_pow (c : LDPCCode) (hc : c.isTC = true) :
    ∃ e, c.submatrix_size = 2 ^ e := by
  cases c
  case TC128 => exact ⟨4, rfl⟩
  case TC256 => exact ⟨5, rfl⟩
  case TC512 => exact ⟨6, rfl⟩
  all_goals exact absurd hc (by decide)

theorem tm_pow (c : LDPCCode) (hc : c.isTC = false) :
    ∃ e, 2 ≤ e ∧ c.submatrix_size = 2 ^ e := by
  cases c
  case TM1280 => exact ⟨7, by omega, rfl⟩
  case TM1536 => exact ⟨8, by omega, rfl⟩
  case TM2048 => exact ⟨9, by omega, rfl⟩
  case TM5120 => exact ⟨9, by omega, rfl⟩
  case TM6144 => exact ⟨10, by omega, rfl⟩
  case TM8192 => exact ⟨11, by omega, rfl⟩
  all_goals exact absurd hc (by decide)

/-- Whatever q, the sparse TM build's selected overlay is one of the three
prototype tables. -/
theorem tmSelect_mem (T : Tables) (q vb : Nat) :
    (tmSelect T q vb).1 = T.tmR12H ∨ (tmSelect T q vb).1 = T.tmR23H ∨
      (tmSelect T q vb).1 = T.tmR45H := by
  unfold tmSelect
  split
  · exact Or.inl rfl
  · split
    · exact Or.inr (Or.inl rfl)
    · exact Or.inl rfl
  · split
    · exact Or.inr (Or.inr rfl)
    · split
      · exact Or.inr (Or.inl rfl)
      · exact Or.inl rfl
  · exact Or.inl rfl

/-- Membership in the transposition's column list is membership of the
variable in the check's ci slice. -/
theorem mem_varRow (c : LDPCCode) (ci cs : List Nat) (vrb r : Nat) :
    r ∈ varRow c ci cs vrb ↔ r < c.n - c.k + c.punctured_bits ∧
      vrb ∈ sliceOf ci (cs.getD r 0) (cs.getD (r + 1) 0) := by
  unfold varRow
  constructor
  · intro hx
    obtain ⟨ch, hch, hg⟩ := List.mem_flatMap.mp hx
    obtain ⟨x, hxs, hg2⟩ := List.mem_flatMap.mp hg
    obtain ⟨hxv, hrch⟩ := (mem_if_singleton r ch _).mp hg2
    subst hrch
    exact ⟨List.mem_range.mp hch, hxv ▸ hxs⟩
  · rintro ⟨hrN, hmem⟩
    exact List.mem_flatMap.mpr ⟨r, List.mem_range.mpr hrN,
      List.mem_flatMap.mpr ⟨vrb, hmem,
        (mem_if_singleton r r _).mpr ⟨rfl, rfl⟩⟩⟩

/-- For a TM code the dense bit (r, v) on a zero buffer is set exactly
when v is emitted into check r's sparse row, under the missing-table
hypotheses: no overlay cell holds both flags, and a zero plane cell is
never followed by a nonzero one. -/
theorem tm_equiv (c : LDPCCode) (T : Tables) (hc : c.isTC = false)
    (hTMs : ∀ Q : Nat → Nat → Nat → Nat,
      (Q = T.tmR12H ∨ Q = T.tmR23H ∨ Q = T.tmR45H) →
      ∀ pl a b, ¬(Q pl a b &&& HS = HS))
    (hTMb : ∀ Q : Nat → Nat → Nat → Nat,
      (Q = T.tmR12H ∨ Q = T.tmR23H ∨ Q = T.tmR45H) →
      ∀ pl pl2 a b, pl ≤ pl2 → Q pl a b = 0 → Q pl2 a b = 0)
    (r v : Nat) (hr : r < c.n - c.k + c.punctured_bits)
    (hv : v < c.n + c.punctured_bits) :
    (bitAt (init_paritycheck_tm c T (fun _ => 0))
        (kRC (c.n + c.punctured_bits) r v) = true
      ↔ v ∈ tmRow c T r) := by
  obtain ⟨e, he2, hme⟩ := tm_pow c hc
  rw [tm_dense_bit c T hc r v hr hv, mem_tmRow c T r v hc hv]
  have hsel := tmSelect_mem T ((c.n + c.punctured_bits) / c.submatrix_size)
    (v / c.submatrix_size)
  rw [tmPbit_parity
    (tmSelect T ((c.n + c.punctured_bits) / c.submatrix_size)
      (v / c.submatrix_size)).1
    T.thetaK (T.phiJK c.submatrix_size) e c.submatrix_size hme he2 r
    (v / c.submatrix_size -
      (tmSelect T ((c.n + c.punctured_bits) / c.submatrix_size)
        (v / c.submatrix_size)).2)
    (v % c.submatrix_size)
    (fun pl => hTMs _ hsel pl _ _)
    (fun pl pl2 hle => hTMb _ hsel pl pl2 _ _ hle)]
  have hsr : r >>> Nat.log2 c.submatrix_size = r / c.submatrix_size := by
    rw [hme]
    exact shiftRight_log2_pow r e
  have har : r &&& (c.submatrix_size - 1) = r % c.submatrix_size := by
    rw [hme]
    exact and_pow_sub_one r e
  rw [hsr, har]
  rfl

set_option maxHeartbeats 1000000 in
/-- For a TC code the dense bit (r, v) on a zero buffer is set exactly
when v is emitted into check r's sparse row, provided HI-only cells carry
rotation 0 mod M and HS cells never do (the real tables satisfy both). -/
theorem tc_equiv (c : LDPCCode) (T : Tables) (hc : c.isTC = true)
    (hTC1 : ∀ cb vb, tcProtoOf c T cb vb &&& HI = HI →
      tcProtoOf c T cb vb &&& HP = HP ∨
        (tcProtoOf c T cb vb &&& 0x3F) % c.submatrix_size = 0)
    (hTC2 : ∀ cb vb, ¬(tcProtoOf c T cb vb &&& HS = HS ∧
      (tcProtoOf c T cb vb &&& 0x3F) % c.submatrix_size = 0))
    (r v : Nat) (hr : r < c.n - c.k + c.punctured_bits)
    (hv : v < c.n + c.punctured_bits) :
    (((init_paritycheck_tc c T (fun _ => 0))
        (r * ((c.n + c.punctured_bits) / 32) + v / 32)).testBit (31 - v % 32)
        = true
      ↔ v ∈ tcRow c.n (Nat.log2 c.submatrix_size) (c.submatrix_size - 1)
          (tcProtoOf c T) r) := by
  obtain ⟨hp0, hnk, hn8⟩ := tc_pk c hc
  have hm3 : c.submatrix_size = 16 ∨ c.submatrix_size = 32 ∨
      c.submatrix_size = 64 := by
    rcases tc_geometry c hc with ⟨h, _⟩ | ⟨h, _⟩ | ⟨h, _⟩
    exacts [Or.inl h, Or.inr (Or.inl h), Or.inr (Or.inr h)]
  have hm0 : 0 < c.submatrix_size := by rcases hm3 with h | h | h <;> omega
  have hu : r / c.submatrix_size < 4 := by
    rw [Nat.div_lt_iff_lt_mul hm0]
    omega
  have hvb : v / c.submatrix_size < 8 := by
    rw [Nat.div_lt_iff_lt_mul hm0]
    omega
  have hb := tc_dense_bit c T hc (r / c.submatrix_size) (v / c.submatrix_size)
    (r % c.submatrix_size) (v % c.submatrix_size) hu hvb
    (Nat.mod_lt _ hm0) (Nat.mod_lt _ hm0)
  have haddr : tcIdx c.n c.submatrix_size (r / c.submatrix_size)
      (v / c.submatrix_size) (r % c.submatrix_size) (v % c.submatrix_size)
      = r * ((c.n + c.punctured_bits) / 32) + v / 32 := by
    unfold tcIdx
    rcases tc_geometry c hc with ⟨hm, hn⟩ | ⟨hm, hn⟩ | ⟨hm, hn⟩ <;>
      rw [hm, hn, hp0] <;> omega
  have hshift : tcShift c.submatrix_size (v / c.submatrix_size)
      (v % c.submatrix_size) = 31 - v % 32 := by
    unfold tcShift
    rcases hm3 with hm | hm | hm <;> rw [hm]
    · rw [if_pos (by omega)]
      omega
    · rw [if_neg (by omega)]
      omega
    · rw [if_neg (by omega)]
      omega
  rw [haddr, hshift] at hb
  rw [hb, mem_tcRow c.n (Nat.log2 c.submatrix_size) (c.submatrix_size - 1)
    (tcProtoOf c T) r v (by omega)]
  obtain ⟨e, hme⟩ := tc_pow c hc
  have hsrx : ∀ x : Nat, x >>> Nat.log2 c.submatrix_size
      = x / c.submatrix_size := by
    intro x
    rw [hme]
    exact shiftRight_log2_pow x e
  have harx : ∀ x : Nat, x &&& (c.submatrix_size - 1)
      = x % c.submatrix_size := by
    intro x
    rw [hme]
    exact and_pow_sub_one x e
  simp only [hsrx, harx]
  have hmm : r % c.submatrix_size % c.submatrix_size = r % c.submatrix_size :=
    Nat.mod_mod_of_dvd r (Nat.dvd_refl _)
  rw [hmm]
  by_cases hHI : tcProtoOf c T (r / c.submatrix_size) (v / c.submatrix_size)
      &&& HI = HI <;>
    by_cases hHP : tcProtoOf c T (r / c.submatrix_size)
      (v / c.submatrix_size) &&& HP = HP
  · have hhs := and_HI_HP_imp_HS _ hHI hHP
    have hrot : (tcProtoOf c T (r / c.submatrix_size) (v / c.submatrix_size)
        &&& 0x3F) % c.submatrix_size ≠ 0 := fun h0 => hTC2 _ _ ⟨hhs, h0⟩
    have h2 : (r % c.submatrix_size + (tcProtoOf c T (r / c.submatrix_size)
        (v / c.submatrix_size) &&& 0x3F)) % c.submatrix_size
        = (r % c.submatrix_size + (tcProtoOf c T (r / c.submatrix_size)
          (v / c.submatrix_size) &&& 0x3F) % c.submatrix_size)
          % c.submatrix_size := by
      conv_lhs => rw [Nat.add_mod]
      rw [hmm]
    have hne : (r % c.submatrix_size + (tcProtoOf c T (r / c.submatrix_size)
        (v / c.submatrix_size) &&& 0x3F)) % c.submatrix_size
        ≠ r % c.submatrix_size := by
      intro heq
      apply hrot
      refine mod_add_cancel (r % c.submatrix_size)
        ((tcProtoOf c T (r / c.submatrix_size) (v / c.submatrix_size)
          &&& 0x3F) % c.submatrix_size) c.submatrix_size
        (Nat.mod_lt _ hm0) (Nat.mod_lt _ hm0) ?_
      rw [← h2]
      exact heq
    have hne2 : (r + (tcProtoOf c T (r / c.submatrix_size)
        (v / c.submatrix_size) &&& 0x3F)) % c.submatrix_size
        ≠ r % c.submatrix_size := by
      rw [← Nat.mod_add_mod]
      exact hne
    by_cases h1 : v % c.submatrix_size
        = (r % c.submatrix_size + (tcProtoOf c T (r / c.submatrix_size)
          (v / c.submatrix_size) &&& 0x3F)) % c.submatrix_size <;>
      by_cases hv2 : v % c.submatrix_size = r % c.submatrix_size
    · exact absurd (h1.symm.trans hv2) hne
    · simp [hHI, hHP, hhs, h1, hv2, hne2, Ne.symm hne2]
    · simp [hHI, hHP, hhs, h1, hv2, hne2, Ne.symm hne2]
    · simp [hHI, hHP, hhs, h1, hv2, hne2, Ne.symm hne2]
  · have hrot : (tcProtoOf c T (r / c.submatrix_size) (v / c.submatrix_size)
        &&& 0x3F) % c.submatrix_size = 0 := (hTC1 _ _ hHI).resolve_left hHP
    have hhs : ¬(tcProtoOf c T (r / c.submatrix_size) (v / c.submatrix_size)
        &&& HS = HS) := fun hs => hHP (and_HS_imp_HP _ hs)
    have heq : (r % c.submatrix_size + (tcProtoOf c T (r / c.submatrix_size)
        (v / c.submatrix_size) &&& 0x3F)) % c.submatrix_size
        = r % c.submatrix_size := by
      conv_lhs => rw [Nat.add_mod]
      rw [hmm, hrot, Nat.add_zero, hmm]
    rw [heq]
    by_cases hv2 : v % c.submatrix_size = r % c.submatrix_size <;>
      simp [hHI, hHP, hhs, hv2]
  · have hhs : ¬(tcProtoOf c T (r / c.submatrix_size) (v / c.submatrix_size)
        &&& HS = HS) := fun hs => hHI (and_HS_imp_HI _ hs)
    by_cases h1 : v % c.submatrix_size
        = (r % c.submatrix_size + (tcProtoOf c T (r / c.submatrix_size)
          (v / c.submatrix_size) &&& 0x3F)) % c.submatrix_size <;>
      simp [hHI, hHP, hhs, h1]
  · have hhs : ¬(tcProtoOf c T (r / c.submatrix_size) (v / c.submatrix_size)
        &&& HS = HS) := fun hs => hHP (and_HS_imp_HP _ hs)
    simp [hHI, hHP, hhs]

/-- Bit (r, v) of the packed dense parity-check matrix held in a word
list: word r*((n+p)/32) + v/32, shift 31 - v%32. -/
def HBit (c : LDPCCode) (hl : List Nat) (r v : Nat) : Bool :=
  (hl.getD (r * ((c.n + c.punctured_bits) / 32) + v / 32) 0).testBit
    (31 - v % 32)

/-- The family-dispatched dense expander on a zero buffer — the function
`init_paritycheck` maps over the word range after its zero fill. -/
def denseExpand (c : LDPCCode) (T : Tables) : Nat → Nat :=
  match c with
  | .TC128 | .TC256 | .TC512 => init_paritycheck_tc c T (fun _ => 0)
  | .TM1280 | .TM1536 | .TM2048 | .TM5120 | .TM6144 | .TM8192 =>
      init_paritycheck_tm c T (fun _ => 0)

theorem init_paritycheck_some (c : LDPCCode) (T : Tables) (h0 : List Nat)
    (hlen : h0.length = c.paritycheck_len) :
    init_paritycheck c T h0
      = some ((List.range c.paritycheck_len).map (denseExpand c T)) := by
  unfold init_paritycheck denseExpand
  rw [if_pos hlen]

theorem denseExpand_tc (c : LDPCCode) (T : Tables) (hc : c.isTC = true) :
    denseExpand c T = init_paritycheck_tc c T (fun _ => 0) := by
  cases c <;> first | rfl | exact absurd hc (by decide)

theorem denseExpand_tm (c : LDPCCode) (T : Tables) (hc : c.isTC = false) :
    denseExpand c T = init_paritycheck_tm c T (fun _ => 0) := by
  cases c <;> first | rfl | exact absurd hc (by decide)

theorem plen_eq (c : LDPCCode) :
    c.paritycheck_len = (c.n + c.punctured_bits) / 32
      * (c.n - c.k + c.punctured_bits) := by
  cases c <;> rfl

theorem np_div32 (c : LDPCCode) : 32 ∣ (c.n + c.punctured_bits) := by
  cases c <;> decide

theorem hbit_idx_lt (c : LDPCCode) (r v : Nat)
    (hr : r < c.n - c.k + c.punctured_bits)
    (hv : v < c.n + c.punctured_bits) :
    r * ((c.n + c.punctured_bits) / 32) + v / 32 < c.paritycheck_len := by
  rw [plen_eq]
  obtain ⟨W, hW⟩ := np_div32 c
  rw [hW] at hv ⊢
  have h32 : 32 * W / 32 = W := by omega
  rw [h32]
  have hrm : (r + 1) * W ≤ (c.n - c.k + c.punctured_bits) * W :=
    Nat.mul_le_mul_right W hr
  have hrw : (r + 1) * W = r * W + W := by ring
  have hcomm : (c.n - c.k + c.punctured_bits) * W
      = W * (c.n - c.k + c.punctured_bits) := Nat.mul_comm _ _
  omega

set_option maxHeartbeats 1000000 in
/-- Claim C3.  For every code, the dense matrix written by
`init_paritycheck` and the sparse arrays of the check-side build followed
by the variable-side transposition encode the same bipartite graph:
bit (r, v) is set iff v lies in ci's row-r slice, iff r lies in vi's
column-v slice.  Stated for every table satisfying what the real tables
satisfy: TC HI-only cells carry rotation 0 and HS cells never do; TM
cells never hold both flags, and a zero plane cell is never followed by
a nonzero one (the sparse scan breaks there while the dense scan skips). -/
theorem c3_sparse_dense_equivalence (c : LDPCCode) (T : Tables)
    (hTC1 : c.isTC = true → ∀ cb vb, tcProtoOf c T cb vb &&& HI = HI →
      tcProtoOf c T cb vb &&& HP = HP ∨
        (tcProtoOf c T cb vb &&& 0x3F) % c.submatrix_size = 0)
    (hTC2 : c.isTC = true → ∀ cb vb, ¬(tcProtoOf c T cb vb &&& HS = HS ∧
      (tcProtoOf c T cb vb &&& 0x3F) % c.submatrix_size = 0))
    (hTMs : c.isTC = false → ∀ Q : Nat → Nat → Nat → Nat,
      (Q = T.tmR12H ∨ Q = T.tmR23H ∨ Q = T.tmR45H) →
      ∀ pl a b, ¬(Q pl a b &&& HS = HS))
    (hTMb : c.isTC = false → ∀ Q : Nat → Nat → Nat → Nat,
      (Q = T.tmR12H ∨ Q = T.tmR23H ∨ Q = T.tmR45H) →
      ∀ pl pl2 a b, pl ≤ pl2 → Q pl a b = 0 → Q pl2 a b = 0)
    (h0 : List Nat) (hlen : h0.length = c.paritycheck_len)
    (r v : Nat) (hr : r < c.n - c.k + c.punctured_bits)
    (hv : v < c.n + c.punctured_bits) :
    (HBit c ((init_paritycheck c T h0).getD []) r v = true ↔
      v ∈ sliceOf (sparseChecks c T).1 ((sparseChecks c T).2.getD r 0)
        ((sparseChecks c T).2.getD (r + 1) 0)) ∧
    (v ∈ sliceOf (sparseChecks c T).1 ((sparseChecks c T).2.getD r 0)
        ((sparseChecks c T).2.getD (r + 1) 0) ↔
      r ∈ sliceOf (sparseVariables c (sparseChecks c T).1
          (sparseChecks c T).2).1
        ((sparseVariables c (sparseChecks c T).1
          (sparseChecks c T).2).2.getD v 0)
        ((sparseVariables c (sparseChecks c T).1
          (sparseChecks c T).2).2.getD (v + 1) 0)) := by
  have hck := sparseChecks_eq c T
  have hci : (sparseChecks c T).1
      = (List.range (c.n - c.k + c.punctured_bits)).flatMap (rowOf c T) := by
    rw [hck]
  have hcs : (sparseChecks c T).2
      = marksOf (rowOf c T) (c.n - c.k + c.punctured_bits) := by
    rw [hck]
  have hslice : sliceOf (sparseChecks c T).1
      ((sparseChecks c T).2.getD r 0) ((sparseChecks c T).2.getD (r + 1) 0)
      = rowOf c T r := by
    rw [hci, hcs, marksOf_getD _ _ r (by omega),
      marksOf_getD _ _ (r + 1) (by omega)]
    exact slice_flatMap_row _ _ r hr
  have hvv := variables_eq c (sparseChecks c T).1 (sparseChecks c T).2
  have hvi : (sparseVariables c (sparseChecks c T).1 (sparseChecks c T).2).1
      = (List.range (c.n + c.punctured_bits)).flatMap
        (varRow c (sparseChecks c T).1 (sparseChecks c T).2) := by
    rw [hvv]
  have hvs : (sparseVariables c (sparseChecks c T).1 (sparseChecks c T).2).2
      = marksOf (varRow c (sparseChecks c T).1 (sparseChecks c T).2)
        (c.n + c.punctured_bits) := by
    rw [hvv]
    rfl
  have hvslice : sliceOf (sparseVariables c (sparseChecks c T).1
        (sparseChecks c T).2).1
      ((sparseVariables c (sparseChecks c T).1
        (sparseChecks c T).2).2.getD v 0)
      ((sparseVariables c (sparseChecks c T).1
        (sparseChecks c T).2).2.getD (v + 1) 0)
      = varRow c (sparseChecks c T).1 (sparseChecks c T).2 v := by
    rw [hvi, hvs, marksOf_getD _ _ v (by omega),
      marksOf_getD _ _ (v + 1) (by omega)]
    exact slice_flatMap_row _ _ v hv
  constructor
  · rw [init_paritycheck_some c T h0 hlen]
    show HBit c ((List.range c.paritycheck_len).map (denseExpand c T)) r v
        = true ↔ _
    unfold HBit
    rw [getD_map_range _ _ _ (hbit_idx_lt c r v hr hv), hslice]
    by_cases hc : c.isTC = true
    · rw [denseExpand_tc c T hc]
      have hrow : rowOf c T r = tcRow c.n (Nat.log2 c.submatrix_size)
          (c.submatrix_size - 1) (tcProtoOf c T) r := by
        unfold rowOf
        rw [if_pos hc]
      rw [hrow]
      exact tc_equiv c T hc (hTC1 hc) (hTC2 hc) r v hr hv
    · have hcf : c.isTC = false := by
        revert hc
        cases c.isTC <;> simp
      rw [denseExpand_tm c T hcf]
      have hrow : rowOf c T r = tmRow c T r := by
        unfold rowOf
        rw [if_neg hc]
      rw [hrow]
      exact tm_equiv c T hcf (hTMs hcf) (hTMb hcf) r v hr hv
  · rw [hvslice, mem_varRow]
    exact ⟨fun h => ⟨hr, h⟩, fun h => h.2⟩

/-- Witness for claim C3: TC128 with the all-HI table, bit (0, 0), on a
correctly sized zeroed buffer. -/
theorem c3_sparse_dense_equivalence_witness :
    (HBit LDPCCode.TC128 ((init_paritycheck LDPCCode.TC128 allHITables
        (List.replicate 256 0)).getD []) 0 0 = true ↔
      0 ∈ sliceOf (sparseChecks LDPCCode.TC128 allHITables).1
        ((sparseChecks LDPCCode.TC128 allHITables).2.getD 0 0)
        ((sparseChecks LDPCCode.TC128 allHITables).2.getD (0 + 1) 0)) ∧
    (0 ∈ sliceOf (sparseChecks LDPCCode.TC128 allHITables).1
        ((sparseChecks LDPCCode.TC128 allHITables).2.getD 0 0)
        ((sparseChecks LDPCCode.TC128 allHITables).2.getD (0 + 1) 0) ↔
      0 ∈ sliceOf (sparseVariables LDPCCode.TC128
          (sparseChecks LDPCCode.TC128 allHITables).1
          (sparseChecks LDPCCode.TC128 allHITables).2).1
        ((sparseVariables LDPCCode.TC128
          (sparseChecks LDPCCode.TC128 allHITables).1
          (sparseChecks LDPCCode.TC128 allHITables).2).2.getD 0 0)
        ((sparseVariables LDPCCode.TC128
          (sparseChecks LDPCCode.TC128 allHITables).1
          (sparseChecks LDPCCode.TC128 allHITables).2).2.getD (0 + 1) 0)) :=
  c3_sparse_dense_equivalence LDPCCode.TC128 allHITables
    (fun _ cb vb _ => Or.inr
      (show ((0x40 : Nat) &&& 0x3F) % 16 = 0 by decide))
    (fun _ cb vb =>
      (show ¬((0x40 : Nat) &&& HS = HS ∧ ((0x40 : Nat) &&& 0x3F) % 16 = 0)
        by decide))
    (fun hf => absurd hf (by decide))
    (fun hf => absurd hf (by decide))
    (List.replicate 256 0) (by rw [List.length_replicate]; rfl)
    0 0 (by decide) (by decide)

/-! ## Claim C8: the transposition, with the source's panics kept -/

theorem viEmit_fold_ok (vilen check vrb : Nat) (L : List Nat) :
    ∀ vi2 vs2 : List Nat,
      vi2.length + (L.flatMap fun x =>
        if x = vrb then [check] else []).length ≤ vilen →
      L.foldl (viEmit vilen check vrb) (some (vi2, vs2))
        = some (vi2 ++ L.flatMap (fun x => if x = vrb then [check] else []),
            vs2) := by
  induction L with
  | nil =>
      intro vi2 vs2 _
      simp
  | cons x xs ih =>
      intro vi2 vs2 hfit
      rw [List.flatMap_cons, List.length_append] at hfit
      rw [List.foldl_cons, List.flatMap_cons]
      by_cases hx : x = vrb
      · rw [if_pos hx] at hfit
        have hone : ([check] : List Nat).length = 1 := rfl
        have hemit : viEmit vilen check vrb (some (vi2, vs2)) x
            = some (vi2 ++ [check], vs2) := by
          show (if x = vrb then
              (if vi2.length < vilen then some (vi2 ++ [check], vs2) else none)
            else some (vi2, vs2)) = some (vi2 ++ [check], vs2)
          rw [if_pos hx, if_pos (by omega)]
        rw [hemit, ih (vi2 ++ [check]) vs2
          (by rw [List.length_append]; omega)]
        rw [if_pos hx, List.append_assoc]
      · rw [if_neg hx] at hfit
        have hzero : ([] : List Nat).length = 0 := rfl
        have hemit : viEmit vilen check vrb (some (vi2, vs2)) x
            = some (vi2, vs2) := by
          show (if x = vrb then
              (if vi2.length < vilen then some (vi2 ++ [check], vs2) else none)
            else some (vi2, vs2)) = some (vi2, vs2)
          rw [if_neg hx]
        rw [hemit, ih vi2 vs2 (by omega), if_neg hx, List.nil_append]

theorem viCheck_fold_ok (vilen : Nat) (ci cs : List Nat) (vrb : Nat)
    (chs : List Nat) :
    ∀ vi2 vs2 : List Nat,
      (∀ ch ∈ chs, cs.getD ch 0 ≤ cs.getD (ch + 1) 0 ∧
        cs.getD (ch + 1) 0 ≤ ci.length) →
      vi2.length + (chs.flatMap fun ch =>
        (sliceOf ci (cs.getD ch 0) (cs.getD (ch + 1) 0)).flatMap fun x =>
          if x = vrb then [ch] else []).length ≤ vilen →
      chs.foldl (viCheck vilen ci cs vrb) (some (vi2, vs2))
        = some (vi2 ++ chs.flatMap (fun ch =>
            (sliceOf ci (cs.getD ch 0) (cs.getD (ch + 1) 0)).flatMap fun x =>
              if x = vrb then [ch] else []), vs2) := by
  induction chs with
  | nil =>
      intro vi2 vs2 _ _
      simp
  | cons ch chs2 ih =>
      intro vi2 vs2 hwf hfit
      rw [List.flatMap_cons, List.length_append] at hfit
      rw [List.foldl_cons, List.flatMap_cons]
      have hbounds := hwf ch (List.mem_cons_self ch chs2)
      have hstep : viCheck vilen ci cs vrb (some (vi2, vs2)) ch
          = some (vi2 ++ (sliceOf ci (cs.getD ch 0)
              (cs.getD (ch + 1) 0)).flatMap
              (fun x => if x = vrb then [ch] else []), vs2) := by
        show (match sliceP ci (cs.getD ch 0) (cs.getD (ch + 1) 0) with
          | none => none
          | some sl => sl.foldl (viEmit vilen ch vrb) (some (vi2, vs2))) = _
        rw [show sliceP ci (cs.getD ch 0) (cs.getD (ch + 1) 0)
            = some (sliceOf ci (cs.getD ch 0) (cs.getD (ch + 1) 0)) from by
          unfold sliceP
          rw [if_pos hbounds]]
        exact viEmit_fold_ok vilen ch vrb _ vi2 vs2 (by omega)
      rw [hstep, ih _ vs2 (fun x hx => hwf x (List.mem_cons_of_mem _ hx))
        (by rw [List.length_append]; omega), List.append_assoc]

theorem varStepP_ok (c : LDPCCode) (vilen : Nat) (ci cs : List Nat)
    (st : List Nat × List Nat) (vrb : Nat)
    (hwf : ∀ ch, ch < c.n - c.k + c.punctured_bits →
      cs.getD ch 0 ≤ cs.getD (ch + 1) 0 ∧ cs.getD (ch + 1) 0 ≤ ci.length)
    (hfit : st.1.length + (varRow c ci cs vrb).length ≤ vilen) :
    varStepP c vilen ci cs (some st) vrb = some (varStep c ci cs st vrb) := by
  unfold varRow at hfit
  show (List.range (c.n - c.k + c.punctured_bits)).foldl
      (viCheck vilen ci cs vrb) (some (st.1, st.2 ++ [st.1.length]))
    = some (varStep c ci cs st vrb)
  rw [varStep_eq]
  exact viCheck_fold_ok vilen ci cs vrb _ st.1 (st.2 ++ [st.1.length])
    (fun ch hch => hwf ch (List.mem_range.mp hch)) hfit

theorem varsP_fold_ok (c : LDPCCode) (vilen : Nat) (ci cs : List Nat)
    (hwf : ∀ ch, ch < c.n - c.k + c.punctured_bits →
      cs.getD ch 0 ≤ cs.getD (ch + 1) 0 ∧ cs.getD (ch + 1) 0 ≤ ci.length)
    (vrbs : List Nat) :
    ∀ st : List Nat × List Nat,
      st.1.length + (vrbs.flatMap (varRow c ci cs)).length ≤ vilen →
      vrbs.foldl (varStepP c vilen ci cs) (some st)
        = some (vrbs.foldl (varStep c ci cs) st) := by
  induction vrbs with
  | nil =>
      intro st _
      rfl
  | cons v vs2 ih =>
      intro st hfit
      rw [List.flatMap_cons, List.length_append] at hfit
      rw [List.foldl_cons, List.foldl_cons,
        varStepP_ok c vilen ci cs st v hwf (by omega)]
      refine ih (varStep c ci cs st v) ?_
      have h1 : (varStep c ci cs st v).1.length
          = st.1.length + (varRow c ci cs v).length := by
        rw [varStep_eq]
        exact List.length_append _ _
      omega

theorem sparseVariablesP_ok (c : LDPCCode) (vilen : Nat) (ci cs : List Nat)
    (hwf : ∀ ch, ch < c.n - c.k + c.punctured_bits →
      cs.getD ch 0 ≤ cs.getD (ch + 1) 0 ∧ cs.getD (ch + 1) 0 ≤ ci.length)
    (hfit : ((List.range (c.n + c.punctured_bits)).flatMap
      (varRow c ci cs)).length ≤ vilen) :
    sparseVariablesP c vilen ci cs = some (sparseVariables c ci cs) := by
  unfold sparseVariablesP sparseVariables
  rw [varsP_fold_ok c vilen ci cs hwf (List.range (c.n + c.punctured_bits))
    ([], []) (by simpa using hfit)]

/-- Summing, over all variables, the occurrences of each variable in a
list never exceeds the list's length. -/
theorem sum_countP_le_length (L : List Nat) (np : Nat) :
    (∑ v ∈ Finset.range np, L.countP fun x => decide (x = v)) ≤ L.length := by
  induction L with
  | nil => simp
  | cons x L2 ih =>
      have hsum : ∀ v, (x :: L2).countP (fun z => decide (z = v))
          = L2.countP (fun z => decide (z = v)) + if x = v then 1 else 0 := by
        intro v
        rw [List.countP_cons]
        by_cases hv : x = v <;> simp [hv]
      rw [Finset.sum_congr rfl (fun v _ => hsum v), Finset.sum_add_distrib]
      have h1 : (∑ v ∈ Finset.range np, if x = v then 1 else 0) ≤ 1 := by
        rw [Finset.sum_ite_eq]
        by_cases hx : x ∈ Finset.range np <;> simp [hx]
      rw [List.length_cons]
      omega

theorem sliceOf_length (ci : List Nat) (a b : Nat) (hab : a ≤ b)
    (hb : b ≤ ci.length) : (sliceOf ci a b).length = b - a := by
  unfold sliceOf
  rw [List.length_drop, List.length_take]
  omega

theorem mono_chain (f : Nat → Nat) (N : Nat)
    (hmono : ∀ ch, ch < N → f ch ≤ f (ch + 1)) :
    ∀ b, b ≤ N → f 0 ≤ f b := by
  intro b
  induction b with
  | zero =>
      intro _
      exact Nat.le_refl _
  | succ k ih =>
      intro hb
      exact Nat.le_trans (ih (by omega)) (hmono k (by omega))

theorem telescope_sum (f : Nat → Nat) (N : Nat)
    (hmono : ∀ ch, ch < N → f ch ≤ f (ch + 1)) :
    (∑ ch ∈ Finset.range N, (f (ch + 1) - f ch)) = f N - f 0 := by
  induction N with
  | zero => simp
  | succ k ih =>
      rw [Finset.sum_range_succ, ih (fun ch hch => hmono ch (by omega))]
      have h1 : f 0 ≤ f k := mono_chain f (k + 1) hmono k (by omega)
      have h2 : f k ≤ f (k + 1) := hmono k (by omega)
      omega

/-- With ordered, in-range cs offsets the whole transposition emits at
most ci.length entries: the slice lengths telescope to
cs[last] - cs[0] ≤ ci.length and each slice element is emitted at most
once. -/
theorem transposition_fits (c : LDPCCode) (ci cs : List Nat)
    (hwf : ∀ ch, ch < c.n - c.k + c.punctured_bits →
      cs.getD ch 0 ≤ cs.getD (ch + 1) 0 ∧ cs.getD (ch + 1) 0 ≤ ci.length) :
    ((List.range (c.n + c.punctured_bits)).flatMap (varRow c ci cs)).length
      ≤ ci.length := by
  have h1 : ((List.range (c.n + c.punctured_bits)).flatMap
      (varRow c ci cs)).length
      = ∑ v ∈ Finset.range (c.n + c.punctured_bits),
        (varRow c ci cs v).length := by
    rw [List.length_flatMap, sum_map_range]
    rfl
  have h2 : ∀ v, (varRow c ci cs v).length
      = ∑ ch ∈ Finset.range (c.n - c.k + c.punctured_bits),
        (sliceOf ci (cs.getD ch 0) (cs.getD (ch + 1) 0)).countP
          fun x => decide (x = v) := by
    intro v
    unfold varRow
    rw [List.length_flatMap, sum_map_range]
    exact Finset.sum_congr rfl (fun ch _ => length_filter_flatMap _ v ch)
  rw [h1, Finset.sum_congr rfl (fun v _ => h2 v), Finset.sum_comm]
  have h3 : ∀ ch ∈ Finset.range (c.n - c.k + c.punctured_bits),
      (∑ v ∈ Finset.range (c.n + c.punctured_bits),
        (sliceOf ci (cs.getD ch 0) (cs.getD (ch + 1) 0)).countP
          fun x => decide (x = v))
      ≤ cs.getD (ch + 1) 0 - cs.getD ch 0 := by
    intro ch hch
    have hb := hwf ch (Finset.mem_range.mp hch)
    refine Nat.le_trans (sum_countP_le_length _ _) ?_
    rw [sliceOf_length ci _ _ hb.1 hb.2]
  refine Nat.le_trans (Finset.sum_le_sum h3) ?_
  rw [telescope_sum (fun ch => cs.getD ch 0) (c.n - c.k + c.punctured_bits)
    (fun ch hch => (hwf ch hch).1)]
  rcases Nat.eq_zero_or_pos (c.n - c.k + c.punctured_bits) with h0 | h0
  · rw [h0]
    simp
  · have hlast := (hwf (c.n - c.k + c.punctured_bits - 1) (by omega)).2
    have heq : c.n - c.k + c.punctured_bits - 1 + 1
        = c.n - c.k + c.punctured_bits := by omega
    rw [heq] at hlast
    omega

/-- Claim C8, corrected.  The original claim promises the pure
transposition for ANY check-side arrays of the correct lengths, but the
source panics on the slice `ci[cs[c]..cs[c+1]]` (mod.rs line 781) when
the offsets are unordered or point past ci — see the counterexample
theorem.  With well-formed offsets (each window ordered and in range)
every panic, including the `vi[vi_idx]` write bound, is unreachable, and
`init_sparse_paritycheck_variables` returns exactly the pure
transposition of (ci, cs) the spec describes. -/
theorem c8_variables_pure_transposition (c : LDPCCode) (ci cs vi vs : List Nat)
    (h1 : ci.length = c.sparse_paritycheck_ci_len)
    (h2 : cs.length = c.sparse_paritycheck_cs_len)
    (h3 : vi.length = c.sparse_paritycheck_vi_len)
    (h4 : vs.length = c.sparse_paritycheck_vs_len)
    (hwf : ∀ ch, ch < c.n - c.k + c.punctured_bits →
      cs.getD ch 0 ≤ cs.getD (ch + 1) 0 ∧ cs.getD (ch + 1) 0 ≤ ci.length) :
    init_sparse_paritycheck_variables c ci cs vi vs
      = some (specTransposition c ci cs) := by
  unfold init_sparse_paritycheck_variables
  rw [if_pos ⟨h1, h2, h3, h4⟩]
  have hlen : ci.length = vi.length := by
    rw [h1, h3]
    rfl
  rw [sparseVariablesP_ok c vi.length ci cs hwf
    (hlen ▸ transposition_fits c ci cs hwf)]
  rw [variables_eq]
  rfl

set_option maxRecDepth 4000 in
/-- Witness for claim C8: TC128 with all-zero arrays of the exact lengths;
the all-zero offsets are trivially well-formed. -/
theorem c8_variables_pure_transposition_witness :
    init_sparse_paritycheck_variables LDPCCode.TC128 (List.replicate 512 0)
        (List.replicate 65 0) (List.replicate 512 0) (List.replicate 129 0)
      = some (specTransposition LDPCCode.TC128 (List.replicate 512 0)
          (List.replicate 65 0)) :=
  c8_variables_pure_transposition LDPCCode.TC128 (List.replicate 512 0)
    (List.replicate 65 0) (List.replicate 512 0) (List.replicate 129 0)
    (by rw [List.length_replicate]; rfl) (by rw [List.length_replicate]; rfl)
    (by rw [List.length_replicate]; rfl) (by rw [List.length_replicate]; rfl)
    (by decide)

set_option maxRecDepth 8000 in
/-- Counterexample for claim C8 as originally stated: all four buffers
have exactly the required TC128 lengths, yet cs[0] = 5 > cs[1] = 2 makes
the first slice `ci[5..2]` panic, so the function aborts (none) rather
than writing the transposition. -/
theorem c8_variables_pure_transposition_counterexample :
    (List.replicate 512 0 : List Nat).length
        = LDPCCode.TC128.sparse_paritycheck_ci_len ∧
    (5 :: 2 :: List.replicate 63 0 : List Nat).length
        = LDPCCode.TC128.sparse_paritycheck_cs_len ∧
    (List.replicate 512 0 : List Nat).length
        = LDPCCode.TC128.sparse_paritycheck_vi_len ∧
    (List.replicate 129 0 : List Nat).length
        = LDPCCode.TC128.sparse_paritycheck_vs_len ∧
    init_sparse_paritycheck_variables LDPCCode.TC128 (List.replicate 512 0)
        (5 :: 2 :: List.replicate 63 0) (List.replicate 512 0)
        (List.replicate 129 0) = none := by
  refine ⟨rfl, rfl, rfl, rfl, ?_⟩
  decide
